import Mathlib

/-!
# Verification development for the playbook run controller

Shallow embedding of the playbook orchestration system (run controller,
DAG scheduler, worker lifecycle protocol) and proofs of its specified
properties.

The embedding mirrors the Python sources:
* `dag_scheduler.py` — `validate_dag`, `get_ready_steps`,
  `get_transitive_dependents`;
* `orchestrator.py` — `_launch_step`, `_handle_step_completion`,
  `_skip_transitive_dependents`, `_write_summary`, `run_orchestration`;
* `hitl_tools.py` — `ask_user`, `request_approval`;
* the interactive worker `entrypoint.py` — resume-phase dispatch.

External I/O (document store writes, event appends, cluster Job creation,
checkpoint save/load/clear, process exit) is modelled as a trace of
effects; values read from the outside world (step statuses, checkpoints,
inputs, generated UUIDs, elapsed-time comparisons) are supplied by
explicit oracle parameters.  Python dictionaries are modelled as
association lists with first-insertion key order and in-place value
update, Python sets as `Finset String`.
-/

/-- A step definition, as parsed from the playbook frontmatter
(`playbook_parser.StepDef`).  Only the fields the scheduler and
orchestrator consult are carried. -/
structure StepDef where
  id : String
  order : Int
  title : String := ""
  agentImage : String := ""
  timeoutMinutes : Int := 30
  dependencies : List String := []
  deriving Repr, DecidableEq

/-! ## `dag_scheduler.get_ready_steps` -/

/-- `dag_scheduler.get_ready_steps(steps, completed, failed, running)`:
keep the steps whose id is in none of the three sets and whose
dependencies are all in `completed`, then sort by `order`
(Python `sorted` with key `s.order`). -/
def get_ready_steps (steps : List StepDef)
    (completed failed running : Finset String) : List StepDef :=
  let done := completed ∪ failed ∪ running
  let ready := steps.filter fun step =>
    decide (step.id ∉ done) &&
      step.dependencies.all fun dep => decide (dep ∈ completed)
  ready.mergeSort fun a b => a.order ≤ b.order

theorem mem_get_ready_steps (steps : List StepDef)
    (completed failed running : Finset String) (s : StepDef) :
    s ∈ get_ready_steps steps completed failed running ↔
      s ∈ steps ∧ s.id ∉ completed ∧ s.id ∉ failed ∧ s.id ∉ running ∧
        ∀ d ∈ s.dependencies, d ∈ completed := by
  unfold get_ready_steps
  rw [List.mem_mergeSort, List.mem_filter]
  simp [List.all_eq_true, Finset.mem_union, not_or, and_assoc]

theorem get_ready_steps_sorted (steps : List StepDef)
    (completed failed running : Finset String) :
    (get_ready_steps steps completed failed running).Sorted
      (fun a b => a.order ≤ b.order) := by
  unfold get_ready_steps
  have h := @List.sorted_mergeSort StepDef
    (fun a b : StepDef => decide (a.order ≤ b.order))
    (fun a b c hab hbc => by simp_all; omega)
    (fun a b => by simp; omega)
    (steps.filter fun step =>
      decide (step.id ∉ completed ∪ failed ∪ running) &&
        step.dependencies.all fun dep => decide (dep ∈ completed))
  simpa [List.Sorted] using h

/-- C2: `get_ready_steps` returns exactly the steps outside the three
bookkeeping sets whose dependencies are all completed, sorted in
ascending declared `order`; being a pure function of its arguments, the
same inputs always yield the same output. -/
theorem get_ready_steps_correct (steps : List StepDef)
    (completed failedSkipped running : Finset String) :
    (∀ s : StepDef,
        s ∈ get_ready_steps steps completed failedSkipped running ↔
          s ∈ steps ∧ s.id ∉ completed ∧ s.id ∉ failedSkipped ∧
            s.id ∉ running ∧ ∀ d ∈ s.dependencies, d ∈ completed) ∧
    (get_ready_steps steps completed failedSkipped running).Sorted
      (fun a b => a.order ≤ b.order) ∧
    get_ready_steps steps completed failedSkipped running =
      get_ready_steps steps completed failedSkipped running :=
  ⟨fun s => mem_get_ready_steps steps completed failedSkipped running s,
   get_ready_steps_sorted steps completed failedSkipped running, rfl⟩

/-! ## Python dictionaries as association lists

Keys keep first-insertion order; inserting an existing key updates its
value in place. -/

/-- Python `d[k] = v` / dict-comprehension insertion. -/
def dinsert {α : Type} : List (String × α) → String → α → List (String × α)
  | [], k, v => [(k, v)]
  | (k', v') :: rest, k, v =>
      if k' = k then (k', v) :: rest else (k', v') :: dinsert rest k v

/-- Python `d.get(k)` (first — and only — binding of `k`). -/
def dlookup {α : Type} : List (String × α) → String → Option α
  | [], _ => none
  | (k', v') :: rest, k => if k' = k then some v' else dlookup rest k

/-- Errors the embedded Python code can raise: built-in exceptions plus
the project's `CyclicDependencyError` (carrying the reported cycle) and
`StepFailedError` (carrying the causal step id and the sorted failed
ids embedded in its message). -/
inductive PyErr where
  | keyError (key : String)
  | typeError (message : String)
  | indexError
  | valueError (message : String)
  | cyclicDependency (cycle : List String)
  | stepFailed (stepId : String) (failedIds : List String)
  deriving Repr, DecidableEq

/-! ## `dag_scheduler.get_transitive_dependents` -/

/-- The dict comprehension `{s.id: [] for s in steps}`. -/
def baseDict (steps : List StepDef) : List (String × List String) :=
  steps.foldl (fun d s => dinsert d s.id []) []

/-- One step's inner loop of the adjacency build:
`for dep in step.dependencies: dependents[dep].append(step.id)`,
raising `KeyError` when `dep` is not a key. -/
def applyDeps (sid : String) (deps : List String)
    (d : List (String × List String)) :
    Except PyErr (List (String × List String)) :=
  deps.foldlM
    (fun d dep =>
      match dlookup d dep with
      | none => .error (.keyError dep)
      | some l => .ok (dinsert d dep (l ++ [sid])))
    d

/-- The reverse-dependency ("enables") adjacency dict:
`dependents = {s.id: [] for s in steps}` followed by
`dependents[dep].append(step.id)` for every dependency occurrence.
The append raises `KeyError` when `dep` is not among the step ids. -/
def buildDependents (steps : List StepDef) :
    Except PyErr (List (String × List String)) :=
  steps.foldlM
    (fun d step => applyDeps step.id step.dependencies d)
    (baseDict steps)

/-- Every key and every id occurring in a value list of the adjacency
dict; the fixed universe inside which the BFS visited set grows. -/
def bfsUniverse : List (String × List String) → Finset String
  | [] => ∅
  | kv :: rest => (insert kv.1 kv.2.toFinset) ∪ bfsUniverse rest

theorem mem_bfsUniverse_of_dlookup (d : List (String × List String))
    (k : String) (v : List String) (h : dlookup d k = some v) :
    ∀ x ∈ v, x ∈ bfsUniverse d := by
  induction d with
  | nil => simp [dlookup] at h
  | cons kv rest ih =>
      intro x hx
      by_cases hk : kv.1 = k
      · have : some kv.2 = some v := by
          simpa [dlookup, hk] using h
        simp only [Option.some.injEq] at this
        subst this
        simp [bfsUniverse, List.mem_toFinset, hx]
      · have h' : dlookup rest k = some v := by
          simpa [dlookup, hk] using h
        simp [bfsUniverse, ih h' x hx]

/-- One dequeue's inner loop:
`for dep_id in dependents.get(current, []): if dep_id not in visited:
visited.add(dep_id); queue.append(dep_id)`. -/
def bfsExpand (visited : Finset String) (queue : List String)
    (l : List String) : Finset String × List String :=
  l.foldl
    (fun vq dep =>
      if dep ∈ vq.1 then vq else (insert dep vq.1, vq.2 ++ [dep]))
    (visited, queue)

theorem bfsExpand_measure (l : List String) (U visited : Finset String)
    (queue : List String) (hl : ∀ x ∈ l, x ∈ U) :
    2 * (U \ (bfsExpand visited queue l).1).card +
        (bfsExpand visited queue l).2.length ≤
      2 * (U \ visited).card + queue.length := by
  induction l generalizing visited queue with
  | nil => simp [bfsExpand]
  | cons a t ih =>
      have ha : a ∈ U := hl a (by simp)
      have ht : ∀ x ∈ t, x ∈ U := fun x hx => hl x (by simp [hx])
      by_cases hav : a ∈ visited
      · simpa [bfsExpand, List.foldl_cons, hav] using ih visited queue ht
      · have hstep := ih (insert a visited) (queue ++ [a]) ht
        have hcard : (U \ insert a visited).card + 1 = (U \ visited).card := by
          have : U \ insert a visited = (U \ visited).erase a := by
            ext x; simp [Finset.mem_sdiff, Finset.mem_erase]; tauto
          rw [this]
          exact Finset.card_erase_add_one (by simp [Finset.mem_sdiff, ha, hav])
        simp only [bfsExpand, List.foldl_cons, hav, if_false] at hstep ⊢
        simp only [List.length_append, List.length_cons, List.length_nil] at hstep ⊢
        omega

/-- The BFS worklist loop of `get_transitive_dependents`. -/
def bfsLoop (dependents : List (String × List String))
    (visited : Finset String) (queue : List String) : Finset String :=
  match queue with
  | [] => visited
  | current :: rest =>
      let l := (dlookup dependents current).getD []
      let vq := bfsExpand visited rest l
      bfsLoop dependents vq.1 vq.2
termination_by 2 * ((bfsUniverse dependents) \ visited).card + queue.length
decreasing_by
  have hl : ∀ x ∈ (dlookup dependents current).getD [],
      x ∈ bfsUniverse dependents := by
    intro x hx
    rcases hmem : dlookup dependents current with _ | v
    · simp [hmem] at hx
    · rw [hmem] at hx
      simp only [Option.getD_some] at hx
      exact mem_bfsUniverse_of_dlookup dependents current v hmem x hx
  have := bfsExpand_measure ((dlookup dependents current).getD [])
    (bfsUniverse dependents) visited rest hl
  simp only [List.length_cons]
  omega

/-- `dag_scheduler.get_transitive_dependents(step_id, steps)`: build the
reverse adjacency (raising `KeyError` on a dangling dependency id), then
BFS from `step_id` with an initially empty visited set. -/
def get_transitive_dependents (step_id : String) (steps : List StepDef) :
    Except PyErr (Finset String) :=
  (buildDependents steps).map fun d => bfsLoop d ∅ [step_id]

/-- All properties of one `bfsExpand` pass needed by the BFS invariants:
the visited set only grows, everything processed ends up visited, new
visited elements come from the processed list and are also enqueued, and
the old queue is kept as a prefix. -/
theorem bfsExpand_spec (l : List String) (v : Finset String)
    (q : List String) :
    v ⊆ (bfsExpand v q l).1 ∧
    (∀ x ∈ l, x ∈ (bfsExpand v q l).1) ∧
    (∀ x ∈ (bfsExpand v q l).1, x ∈ v ∨ x ∈ l) ∧
    (∀ x ∈ (bfsExpand v q l).1, x ∈ v ∨ x ∈ (bfsExpand v q l).2) ∧
    (∀ x ∈ (bfsExpand v q l).2, x ∈ q ∨ x ∈ l) ∧
    (∀ x ∈ q, x ∈ (bfsExpand v q l).2) := by
  induction l generalizing v q with
  | nil => simp [bfsExpand]; tauto
  | cons hd tl ih =>
      by_cases hav : hd ∈ v
      · have h := ih v q
        simp only [bfsExpand, List.foldl_cons, hav, if_true] at h ⊢
        refine ⟨h.1, ?_, ?_, h.2.2.2.1, ?_, h.2.2.2.2.2⟩
        · intro x hx
          rcases List.mem_cons.mp hx with rfl | hx
          · exact h.1 hav
          · exact h.2.1 x hx
        · intro x hx
          rcases h.2.2.1 x hx with hx' | hx'
          · exact Or.inl hx'
          · exact Or.inr (List.mem_cons_of_mem hd hx')
        · intro x hx
          rcases h.2.2.2.2.1 x hx with hx' | hx'
          · exact Or.inl hx'
          · exact Or.inr (List.mem_cons_of_mem hd hx')
      · have h := ih (insert hd v) (q ++ [hd])
        simp only [bfsExpand, List.foldl_cons, hav, if_false] at h ⊢
        refine ⟨?_, ?_, ?_, ?_, ?_, ?_⟩
        · exact fun x hx => h.1 (Finset.mem_insert_of_mem hx)
        · intro x hx
          rcases List.mem_cons.mp hx with rfl | hx
          · exact h.1 (Finset.mem_insert_self x v)
          · exact h.2.1 x hx
        · intro x hx
          rcases h.2.2.1 x hx with hx' | hx'
          · rcases Finset.mem_insert.mp hx' with rfl | hx''
            · exact Or.inr (List.mem_cons_self x tl)
            · exact Or.inl hx''
          · exact Or.inr (List.mem_cons_of_mem hd hx')
        · intro x hx
          rcases h.2.2.2.1 x hx with hx' | hx'
          · rcases Finset.mem_insert.mp hx' with rfl | hx''
            · exact Or.inr (h.2.2.2.2.2 x (by simp))
            · exact Or.inl hx''
          · exact Or.inr hx'
        · intro x hx
          rcases h.2.2.2.2.1 x hx with hx' | hx'
          · rcases List.mem_append.mp hx' with hx'' | hx''
            · exact Or.inl hx''
            · simp only [List.mem_singleton] at hx''
              exact Or.inr (by simp [hx''])
          · exact Or.inr (List.mem_cons_of_mem hd hx')
        · intro x hx
          exact h.2.2.2.2.2 x (List.mem_append_left _ hx)

/-- The edge relation encoded by the reverse adjacency dict: `b` is
listed among the dependents of `a`. -/
def dictEdge (d : List (String × List String)) (a b : String) : Prop :=
  b ∈ (dlookup d a).getD []

theorem bfsLoop_mono (d : List (String × List String)) :
    ∀ (v : Finset String) (q : List String), v ⊆ bfsLoop d v q := by
  intro v q
  induction v, q using bfsLoop.induct d with
  | case1 v => simp [bfsLoop]
  | case2 v current rest l vq =>
      rename_i ih
      intro x hx
      rw [bfsLoop]
      exact ih ((bfsExpand_spec l v rest).1 hx)

theorem bfsLoop_sound (d : List (String × List String)) (s : String) :
    ∀ (v : Finset String) (q : List String),
      (∀ x ∈ v, Relation.TransGen (dictEdge d) s x) →
      (∀ x ∈ q, Relation.ReflTransGen (dictEdge d) s x) →
      ∀ y ∈ bfsLoop d v q, Relation.TransGen (dictEdge d) s y := by
  intro v q
  induction v, q using bfsLoop.induct d with
  | case1 v =>
      intro hv _ y hy
      exact hv y (by simpa [bfsLoop] using hy)
  | case2 v current rest l vq =>
      rename_i ih
      intro hv hq y hy
      rw [bfsLoop] at hy
      have hcur : Relation.ReflTransGen (dictEdge d) s current :=
        hq current (by simp)
      have hl : ∀ x ∈ l, Relation.TransGen (dictEdge d) s x := by
        intro x hx
        exact Relation.TransGen.tail' hcur hx
      have spec := bfsExpand_spec l v rest
      refine ih ?_ ?_ y hy
      · intro x hx
        rcases spec.2.2.1 x hx with hx' | hx'
        · exact hv x hx'
        · exact hl x hx'
      · intro x hx
        rcases spec.2.2.2.2.1 x hx with hx' | hx'
        · exact hq x (List.mem_cons_of_mem current hx')
        · exact (hl x hx').to_reflTransGen

theorem bfsLoop_closed (d : List (String × List String)) (s : String) :
    ∀ (v : Finset String) (q : List String),
      (∀ x, (x = s ∨ x ∈ v) → x ∈ q ∨ ∀ z, dictEdge d x z → z ∈ v) →
      ∀ x, (x = s ∨ x ∈ bfsLoop d v q) →
        ∀ z, dictEdge d x z → z ∈ bfsLoop d v q := by
  intro v q
  induction v, q using bfsLoop.induct d with
  | case1 v =>
      intro hK x hx z hz
      simp only [bfsLoop] at hx ⊢
      rcases hK x hx with hx' | hsucc
      · simp at hx'
      · exact hsucc z hz
  | case2 v current rest l vq =>
      rename_i ih
      intro hK x hx z hz
      rw [bfsLoop] at hx ⊢
      have spec := bfsExpand_spec l v rest
      refine ih ?_ x hx z hz
      intro x' hx'
      have hold : (x' = s ∨ x' ∈ v) → x' ∈ vq.2 ∨ ∀ z, dictEdge d x' z → z ∈ vq.1 := by
        intro hx''
        rcases hK x' hx'' with hq' | hsucc
        · rcases List.mem_cons.mp hq' with rfl | hq''
          · right
            intro z hz'
            exact spec.2.1 z hz'
          · exact Or.inl (spec.2.2.2.2.2 x' hq'')
        · right
          intro z hz'
          exact spec.1 (hsucc z hz')
      rcases hx' with rfl | hx'
      · exact hold (Or.inl rfl)
      · rcases spec.2.2.2.1 x' hx' with hx'' | hx''
        · exact hold (Or.inr hx'')
        · exact Or.inl hx''

/-- The BFS of `get_transitive_dependents` computes exactly the ids
reachable from `s` through at least one reverse-dependency edge. -/
theorem bfsLoop_eq_reach (d : List (String × List String)) (s : String)
    (y : String) :
    y ∈ bfsLoop d ∅ [s] ↔ Relation.TransGen (dictEdge d) s y := by
  constructor
  · intro hy
    refine bfsLoop_sound d s ∅ [s] (by simp) ?_ y hy
    intro x hx
    rcases List.mem_singleton.mp hx with rfl
    exact Relation.ReflTransGen.refl
  · intro h
    have hclosed := bfsLoop_closed d s ∅ [s] (by intro x hx; simp at hx ⊢; tauto)
    induction h with
    | single hz => exact hclosed s (Or.inl rfl) _ hz
    | tail hab hbc ih => exact hclosed _ (Or.inr ih) _ hbc

/-! ## Dependency-graph notions -/

/-- The set of step ids, Python `{s.id for s in steps}`. -/
def stepIds (steps : List StepDef) : Finset String :=
  (steps.map StepDef.id).toFinset

/-- `a` depends on `b`: some step with id `a` lists `b` among its
dependencies. -/
def depEdge (steps : List StepDef) (a b : String) : Prop :=
  ∃ st ∈ steps, st.id = a ∧ b ∈ st.dependencies

/-- `a` enables `b`: the reverse of `depEdge` — step `b` depends on `a`. -/
def enablesEdge (steps : List StepDef) (a b : String) : Prop :=
  depEdge steps b a

instance (steps : List StepDef) (a b : String) :
    Decidable (depEdge steps a b) :=
  inferInstanceAs (Decidable (∃ st ∈ steps, st.id = a ∧ b ∈ st.dependencies))

/-- `c` is a cyclic dependency path: consecutive elements are `depEdge`
related, and so are the last element and the first. -/
def IsCyclePath (steps : List StepDef) : List String → Prop
  | [] => False
  | a :: rest => List.Chain (depEdge steps) a (rest ++ [a])

instance (steps : List StepDef) : (c : List String) →
    Decidable (IsCyclePath steps c)
  | [] => isFalse fun h => h
  | a :: rest =>
      inferInstanceAs (Decidable (List.Chain (depEdge steps) a (rest ++ [a])))

/-- The dependency graph contains a cycle. -/
def HasCycle (steps : List StepDef) : Prop :=
  ∃ c, IsCyclePath steps c

theorem chain_append_singleton {α : Type} (r : α → α → Prop) :
    ∀ (l : List α) (a b : α), List.Chain r a (l ++ [b]) → ∃ p, r p b := by
  intro l
  induction l with
  | nil =>
      intro a b h
      exact ⟨a, (List.chain_cons.mp h).1⟩
  | cons c t ih =>
      intro a b h
      exact ih c b (List.chain_cons.mp h).2

theorem chain_snoc {α : Type} (r : α → α → Prop) :
    ∀ (l : List α) (a b c : α),
      List.Chain r a (l ++ [b]) → r b c →
      List.Chain r a ((l ++ [b]) ++ [c]) := by
  intro l
  induction l with
  | nil =>
      intro a b c h hbc
      simp only [List.nil_append] at *
      rcases List.chain_cons.mp h with ⟨hab, _⟩
      exact List.Chain.cons hab (List.Chain.cons hbc List.Chain.nil)
  | cons d t ih =>
      intro a b c h hbc
      rcases List.chain_cons.mp h with ⟨had, h2⟩
      simp only [List.cons_append] at *
      exact List.Chain.cons had (ih d b c h2 hbc)

theorem transGen_to_chain {α : Type} (r : α → α → Prop) (a b : α)
    (h : Relation.TransGen r a b) :
    ∃ l, List.Chain r a (l ++ [b]) := by
  induction h with
  | single h1 => exact ⟨[], List.Chain.cons h1 List.Chain.nil⟩
  | @tail mid fin hab hbc ih =>
      rcases ih with ⟨l, hl⟩
      exact ⟨l ++ [mid], chain_snoc r l a mid fin hl hbc⟩

/-- A dependency cycle yields a vertex reachable from itself, and
conversely. -/
theorem hasCycle_of_transGen_self (steps : List StepDef) (x : String)
    (h : Relation.TransGen (depEdge steps) x x) : HasCycle steps := by
  rcases transGen_to_chain (depEdge steps) x x h with ⟨l, hl⟩
  exact ⟨x :: l, hl⟩

theorem dlookup_dinsert {α : Type} (d : List (String × α)) (k k' : String)
    (v : α) :
    dlookup (dinsert d k v) k' = if k' = k then some v else dlookup d k' := by
  induction d with
  | nil =>
      simp only [dinsert, dlookup]
      by_cases h : k = k'
      · simp [h]
      · rw [if_neg h, if_neg fun h' => h h'.symm]
  | cons kv rest ih =>
      simp only [dinsert]
      by_cases h1 : kv.1 = k
      · subst h1
        simp only [if_pos rfl, dlookup]
        by_cases h2 : kv.1 = k'
        · simp [h2]
        · rw [if_neg h2, if_neg fun h => h2 h.symm, if_neg h2]
      · rw [if_neg h1]
        simp only [dlookup, ih]
        by_cases h2 : kv.1 = k'
        · subst h2
          rw [if_pos rfl, if_neg fun h : kv.1 = k => h1 h, if_pos rfl]
        · rw [if_neg h2]
          by_cases h3 : k' = k
          · simp [h3]
          · rw [if_neg h3, if_neg h3, if_neg h2]

theorem mem_stepIds_cons (st : StepDef) (rest : List StepDef) (k : String) :
    k ∈ stepIds (st :: rest) ↔ k = st.id ∨ k ∈ stepIds rest := by
  simp only [stepIds, List.map_cons, List.mem_toFinset, List.mem_cons]

theorem dlookup_baseDict_fold (steps : List StepDef) :
    ∀ (d0 : List (String × List String)) (k : String),
      dlookup (steps.foldl (fun d s => dinsert d s.id []) d0) k =
        if k ∈ stepIds steps then some ([] : List String) else dlookup d0 k := by
  induction steps with
  | nil => intro d0 k; simp [stepIds]
  | cons st rest ih =>
      intro d0 k
      rw [List.foldl_cons, ih]
      by_cases h1 : k ∈ stepIds rest
      · rw [if_pos h1, if_pos ((mem_stepIds_cons st rest k).mpr (Or.inr h1))]
      · rw [if_neg h1, dlookup_dinsert]
        by_cases h2 : k = st.id
        · rw [if_pos h2, if_pos ((mem_stepIds_cons st rest k).mpr (Or.inl h2))]
        · rw [if_neg h2,
            if_neg fun hh => ((mem_stepIds_cons st rest k).mp hh).elim h2 h1]

theorem applyDeps_ok (sid : String) (deps : List String) :
    ∀ d, (∀ dep ∈ deps, (dlookup d dep).isSome) →
      ∃ d', applyDeps sid deps d = .ok d' ∧
        ∀ k, dlookup d' k =
          (dlookup d k).map fun l => l ++ List.replicate (deps.count k) sid := by
  induction deps with
  | nil =>
      intro d _
      exact ⟨d, rfl, by simp [applyDeps]⟩
  | cons dep rest ih =>
      intro d h
      rcases Option.isSome_iff_exists.mp (h dep (by simp)) with ⟨l, hl⟩
      have hrest : ∀ x ∈ rest, (dlookup (dinsert d dep (l ++ [sid])) x).isSome := by
        intro x hx
        rw [dlookup_dinsert]
        by_cases hxdep : x = dep
        · simp [hxdep]
        · rw [if_neg hxdep]
          exact h x (by simp [hx])
      rcases ih (dinsert d dep (l ++ [sid])) hrest with ⟨d', hok, hch⟩
      refine ⟨d', ?_, ?_⟩
      · simp only [applyDeps, List.foldlM_cons, hl]
        exact hok
      · intro k
        rw [hch k, dlookup_dinsert]
        by_cases hk : k = dep
        · subst hk
          rw [if_pos rfl, hl]
          simp [List.count_cons_self, List.replicate_succ, List.append_assoc]
        · rw [if_neg hk]
          have : (dep :: rest).count k = rest.count k := by
            rw [List.count_cons]
            simp [Ne.symm, fun h : k = dep => hk h]
          rw [this]

theorem buildDependents_fold (steps : List StepDef) :
    ∀ (toProcess : List StepDef) (d : List (String × List String)),
      (∀ k, (dlookup d k).isSome ↔ k ∈ stepIds steps) →
      (∀ st ∈ toProcess, ∀ dep ∈ st.dependencies, dep ∈ stepIds steps) →
      ∃ d', toProcess.foldlM
          (fun d step => applyDeps step.id step.dependencies d) d = .ok d' ∧
        (∀ k, (dlookup d' k).isSome ↔ k ∈ stepIds steps) ∧
        (∀ k sid, sid ∈ (dlookup d' k).getD [] ↔
          sid ∈ (dlookup d k).getD [] ∨
            ∃ st ∈ toProcess, st.id = sid ∧ k ∈ st.dependencies) := by
  intro toProcess
  induction toProcess with
  | nil =>
      intro d hkeys _
      exact ⟨d, rfl, hkeys, by simp⟩
  | cons st rest ih =>
      intro d hkeys hdeps
      have hsome : ∀ dep ∈ st.dependencies, (dlookup d dep).isSome :=
        fun dep hdep => (hkeys dep).mpr (hdeps st (by simp) dep hdep)
      rcases applyDeps_ok st.id st.dependencies d hsome with ⟨d1, hok1, hch1⟩
      have hkeys1 : ∀ k, (dlookup d1 k).isSome ↔ k ∈ stepIds steps := by
        intro k
        rw [hch1 k]
        cases h : dlookup d k with
        | none => simpa [h] using hkeys k
        | some l => simpa [h] using hkeys k
      rcases ih d1 hkeys1 (fun st' h' => hdeps st' (by simp [h'])) with
        ⟨d', hok, hk', hm'⟩
      refine ⟨d', ?_, hk', ?_⟩
      · simp only [List.foldlM_cons, hok1]
        exact hok
      · intro k sid
        rw [hm' k sid]
        have hstep : sid ∈ (dlookup d1 k).getD [] ↔
            sid ∈ (dlookup d k).getD [] ∨
              (st.id = sid ∧ k ∈ st.dependencies) := by
          rw [hch1 k]
          cases h : dlookup d k with
          | none =>
              simp only [Option.map_none', Option.getD_none,
                List.not_mem_nil, false_iff, false_or]
              rintro ⟨rfl, hdep⟩
              have hks := (hkeys k).mpr (hdeps st (by simp) k hdep)
              rw [h] at hks
              simp at hks
          | some l =>
              simp only [Option.map_some', Option.getD_some, List.mem_append,
                List.mem_replicate]
              constructor
              · rintro (hl | ⟨hcnt, rfl⟩)
                · exact Or.inl hl
                · refine Or.inr ⟨rfl, ?_⟩
                  by_contra hk
                  rw [List.count_eq_zero_of_not_mem hk] at hcnt
                  exact hcnt rfl
              · rintro (hl | ⟨rfl, hdep⟩)
                · exact Or.inl hl
                · refine Or.inr ⟨?_, rfl⟩
                  have := List.count_pos_iff.mpr hdep
                  omega
        rw [hstep]
        simp only [List.mem_cons]
        constructor
        · rintro ((hd | ⟨hid, hdep⟩) | ⟨st', hst', hid', hdep'⟩)
          · exact Or.inl hd
          · exact Or.inr ⟨st, Or.inl rfl, hid, hdep⟩
          · exact Or.inr ⟨st', Or.inr hst', hid', hdep'⟩
        · rintro (hd | ⟨st', (rfl | hst'), hid', hdep'⟩)
          · exact Or.inl (Or.inl hd)
          · exact Or.inl (Or.inr ⟨hid', hdep'⟩)
          · exact Or.inr ⟨st', hst', hid', hdep'⟩

/-- When every dependency references an existing step id,
`buildDependents` succeeds and the resulting dict is the "enables"
adjacency: its keys are exactly the step ids and `sid` is listed under
`k` iff the step `sid` depends on `k`. -/
theorem buildDependents_ok (steps : List StepDef)
    (hrefs : ∀ st ∈ steps, ∀ dep ∈ st.dependencies, dep ∈ stepIds steps) :
    ∃ D, buildDependents steps = .ok D ∧
      (∀ k, (dlookup D k).isSome ↔ k ∈ stepIds steps) ∧
      (∀ k sid, sid ∈ (dlookup D k).getD [] ↔
        ∃ st ∈ steps, st.id = sid ∧ k ∈ st.dependencies) := by
  have hbase : ∀ k, (dlookup (baseDict steps) k).isSome ↔ k ∈ stepIds steps := by
    intro k
    unfold baseDict
    rw [dlookup_baseDict_fold steps [] k]
    by_cases h : k ∈ stepIds steps <;> simp [h, dlookup]
  rcases buildDependents_fold steps steps (baseDict steps) hbase hrefs with
    ⟨D, hok, hkeys, hmem⟩
  refine ⟨D, hok, hkeys, ?_⟩
  intro k sid
  rw [hmem k sid]
  unfold baseDict
  rw [dlookup_baseDict_fold steps [] k]
  by_cases h : k ∈ stepIds steps <;> simp [h, dlookup]

/-- On the successfully built adjacency, the BFS edge relation is the
"enables" relation of the step list. -/
theorem dictEdge_iff_enables (steps : List StepDef)
    (D : List (String × List String))
    (hmem : ∀ k sid, sid ∈ (dlookup D k).getD [] ↔
      ∃ st ∈ steps, st.id = sid ∧ k ∈ st.dependencies) (a b : String) :
    dictEdge D a b ↔ enablesEdge steps a b := by
  unfold dictEdge enablesEdge depEdge
  exact hmem a b

/-- When all dependencies reference existing ids,
`get_transitive_dependents` succeeds and returns exactly the ids
reachable from `s` through one or more "enables" edges — the set a BFS
over the reverse dependency edges computes. -/
theorem get_transitive_dependents_mem (steps : List StepDef) (s : String)
    (hrefs : ∀ st ∈ steps, ∀ dep ∈ st.dependencies, dep ∈ stepIds steps) :
    ∃ R, get_transitive_dependents s steps = .ok R ∧
      ∀ y, y ∈ R ↔ Relation.TransGen (enablesEdge steps) s y := by
  rcases buildDependents_ok steps hrefs with ⟨D, hok, _, hmem⟩
  have heq : dictEdge D = enablesEdge steps := by
    funext a b
    exact propext (dictEdge_iff_enables steps D hmem a b)
  refine ⟨bfsLoop D ∅ [s], ?_, ?_⟩
  · simp [get_transitive_dependents, hok, Except.map]
  · intro y
    rw [bfsLoop_eq_reach D s y, heq]

theorem chain_to_transGen {α : Type} (r : α → α → Prop) :
    ∀ (l : List α) (a b : α), List.Chain r a (l ++ [b]) →
      Relation.TransGen r a b := by
  intro l
  induction l with
  | nil =>
      intro a b h
      exact Relation.TransGen.single (List.chain_cons.mp h).1
  | cons x t ih =>
      intro a b h
      rcases List.chain_cons.mp h with ⟨hax, h2⟩
      exact Relation.TransGen.head hax (ih x b h2)

theorem hasCycle_iff_transGen_self (steps : List StepDef) :
    HasCycle steps ↔ ∃ x, Relation.TransGen (depEdge steps) x x := by
  constructor
  · rintro ⟨c, hc⟩
    cases c with
    | nil => exact absurd hc (by simp [IsCyclePath])
    | cons a rest => exact ⟨a, chain_to_transGen (depEdge steps) rest a a hc⟩
  · rintro ⟨x, hx⟩
    exact hasCycle_of_transGen_self steps x hx

theorem transGen_enables_iff_dep (steps : List StepDef) (x : String) :
    Relation.TransGen (enablesEdge steps) x x ↔
      Relation.TransGen (depEdge steps) x x := by
  have h : enablesEdge steps = Function.swap (depEdge steps) := by
    funext a b; rfl
  rw [h]
  constructor
  · intro hx; exact Relation.transGen_swap.mp hx
  · intro hx; exact Relation.transGen_swap.mpr hx

theorem transGen_eq_of_sink {α : Type} (r : α → α → Prop)
    (hsink : ∀ a b, r a b → ∀ c, ¬ r b c) :
    ∀ a b, Relation.TransGen r a b → r a b := by
  intro a b h
  induction h with
  | single h1 => exact h1
  | tail hab hbc ih => exact absurd hbc (hsink _ _ ih _)

/-- A graph in which no step id occurs in any dependencies list has no
cycle (its edges cannot be chained or closed). -/
theorem noCycle_of_no_id_in_deps (steps : List StepDef)
    (h : ∀ st ∈ steps, ∀ st' ∈ steps, st.id ∉ st'.dependencies) :
    ¬ HasCycle steps := by
  rw [hasCycle_iff_transGen_self]
  rintro ⟨x, hx⟩
  have hsink : ∀ a b, depEdge steps a b → ∀ c, ¬ depEdge steps b c := by
    rintro a b ⟨st, hst, hida, hdep⟩ c ⟨st', hst', hidb, _⟩
    exact h st' hst' st hst (hidb ▸ hdep)
  have hxx := transGen_eq_of_sink (depEdge steps) hsink x x hx
  exact hsink x x hxx x hxx

/-- Concrete instances used by counterexamples and witnesses. -/
def exDangling : StepDef :=
  { id := "a", order := 1, dependencies := ["b"] }

def exRoot : StepDef :=
  { id := "a", order := 1, dependencies := [] }

def exChild : StepDef :=
  { id := "b", order := 2, dependencies := ["a"] }

theorem exPair_acyclic : ¬ HasCycle [exRoot, exChild] := by
  rw [hasCycle_iff_transGen_self]
  rintro ⟨x, hx⟩
  have hsink : ∀ a b, depEdge [exRoot, exChild] a b →
      ∀ c, ¬ depEdge [exRoot, exChild] b c := by
    rintro a b ⟨st, hst, hida, hdep⟩ c ⟨st', hst', hidb, hdep'⟩

    simp only [List.mem_cons, List.not_mem_nil, or_false] at hst hst'
    rcases hst with rfl | rfl
    · simp [exRoot] at hdep
    · simp [exChild] at hdep
      subst hdep
      rcases hst' with rfl | rfl
      · simp [exRoot] at hdep'
      · simp [exChild] at hidb
  have hxx := transGen_eq_of_sink (depEdge [exRoot, exChild]) hsink x x hx
  rcases hxx with ⟨st, hst, hidx, hdepx⟩
  simp only [List.mem_cons, List.not_mem_nil, or_false] at hst
  rcases hst with rfl | rfl
  · simp [exRoot] at hdepx
  · simp [exChild] at hdepx hidx
    rw [← hidx] at hdepx
    exact absurd hdepx (by decide)

/-- C9 (amended): for every acyclic steps list whose dependencies all
reference existing step ids, and every step id `s` occurring in it,
`get_transitive_dependents(s, steps)` returns (without raising) the set
computed by a BFS over the reverse dependency ("enables") edges from `s`
— the ids reachable through at least one reverse edge — and this set
does not contain `s` itself. -/
theorem get_transitive_dependents_correct (steps : List StepDef)
    (s : String) (hocc : s ∈ stepIds steps)
    (hrefs : ∀ st ∈ steps, ∀ dep ∈ st.dependencies, dep ∈ stepIds steps)
    (hacyc : ¬ HasCycle steps) :
    ∃ R, get_transitive_dependents s steps = .ok R ∧
      (∀ y, y ∈ R ↔ Relation.TransGen (enablesEdge steps) s y) ∧
      s ∉ R := by
  rcases get_transitive_dependents_mem steps s hrefs with ⟨R, hok, hchar⟩
  refine ⟨R, hok, hchar, ?_⟩
  intro hs
  have hself := (hchar s).mp hs
  have hdep := (transGen_enables_iff_dep steps s).mp hself
  exact hacyc (hasCycle_of_transGen_self steps s hdep)

/-- C9 counterexample: the claim as stated fails on an acyclic steps
list with a dangling dependency id — `get_transitive_dependents` raises
`KeyError` instead of returning the (empty) BFS set, because
`dependents[dep].append(step.id)` subscripts a missing key. -/
theorem get_transitive_dependents_keyError_cex :
    ¬ HasCycle [exDangling] ∧ "a" ∈ stepIds [exDangling] ∧
      get_transitive_dependents "a" [exDangling] =
        .error (.keyError "b") := by
  refine ⟨noCycle_of_no_id_in_deps [exDangling] (by decide), by decide, rfl⟩

/-- C9 witness: the amended theorem applied to the two-step chain
`a ← b`. -/
theorem get_transitive_dependents_correct_witness :
    ("a" ∈ stepIds [exRoot, exChild] ∧
      (∀ st ∈ [exRoot, exChild], ∀ dep ∈ st.dependencies,
        dep ∈ stepIds [exRoot, exChild]) ∧
      ¬ HasCycle [exRoot, exChild]) ∧
    ∃ R, get_transitive_dependents "a" [exRoot, exChild] = .ok R ∧
      (∀ y, y ∈ R ↔ Relation.TransGen (enablesEdge [exRoot, exChild]) "a" y) ∧
      "a" ∉ R :=
  ⟨⟨by decide, by decide, exPair_acyclic⟩,
    get_transitive_dependents_correct [exRoot, exChild] "a" (by decide)
      (by decide) exPair_acyclic⟩

theorem applyDeps_shape (sid : String) (deps : List String) :
    ∀ d, (∃ d', applyDeps sid deps d = .ok d') ∨
      (∃ k, applyDeps sid deps d = .error (.keyError k)) := by
  induction deps with
  | nil => intro d; exact Or.inl ⟨d, rfl⟩
  | cons dep rest ih =>
      intro d
      cases h : dlookup d dep with
      | none =>
          right
          refine ⟨dep, ?_⟩
          simp only [applyDeps, List.foldlM_cons, h]
          rfl
      | some l =>
          rcases ih (dinsert d dep (l ++ [sid])) with ⟨d', hd'⟩ | ⟨k, hk⟩
          · left
            refine ⟨d', ?_⟩
            simp only [applyDeps, List.foldlM_cons, h]
            exact hd'
          · right
            refine ⟨k, ?_⟩
            simp only [applyDeps, List.foldlM_cons, h]
            exact hk

theorem buildDependents_shape (steps : List StepDef) :
    (∃ D, buildDependents steps = .ok D) ∨
      (∃ k, buildDependents steps = .error (.keyError k)) := by
  unfold buildDependents
  generalize baseDict steps = d0
  induction steps generalizing d0 with
  | nil => exact Or.inl ⟨d0, rfl⟩
  | cons st rest ih =>
      rcases applyDeps_shape st.id st.dependencies d0 with ⟨d1, hd1⟩ | ⟨k, hk⟩
      · rcases ih d1 with ⟨D, hD⟩ | ⟨k, hk⟩
        · left
          refine ⟨D, ?_⟩
          simp only [List.foldlM_cons, hd1]
          exact hD
        · right
          refine ⟨k, ?_⟩
          simp only [List.foldlM_cons, hd1]
          exact hk
      · right
        refine ⟨k, ?_⟩
        simp only [List.foldlM_cons, hk]
        rfl

/-- C10 (amended): `get_transitive_dependents` terminates on every
input — it either returns a set or raises `KeyError` (the latter exactly
on a dangling dependency id, which the claim's "returns the empty set"
conjunct overlooked).  When every dependency references an existing step
id, it returns the empty set whenever no step transitively depends on
`step_id` — in particular for a `step_id` that does not occur in the
steps list — and this covers dependency graphs with cycles, which the
visited-set BFS still traverses finitely. -/
theorem get_transitive_dependents_total (steps : List StepDef)
    (s : String) :
    ((∃ V, get_transitive_dependents s steps = .ok V) ∨
      (∃ k, get_transitive_dependents s steps = .error (.keyError k))) ∧
    ((∀ st ∈ steps, ∀ dep ∈ st.dependencies, dep ∈ stepIds steps) →
      ((¬ ∃ y, Relation.TransGen (enablesEdge steps) s y) →
          get_transitive_dependents s steps = .ok ∅) ∧
        (s ∉ stepIds steps → get_transitive_dependents s steps = .ok ∅)) := by
  constructor
  · rcases buildDependents_shape steps with ⟨D, hD⟩ | ⟨k, hk⟩
    · exact Or.inl ⟨bfsLoop D ∅ [s], by simp [get_transitive_dependents, hD, Except.map]⟩
    · exact Or.inr ⟨k, by simp [get_transitive_dependents, hk, Except.map]⟩
  · intro hrefs
    rcases get_transitive_dependents_mem steps s hrefs with ⟨R, hok, hchar⟩
    constructor
    · intro hnone
      have hR : R = ∅ := by
        apply Finset.eq_empty_iff_forall_not_mem.mpr
        intro y hy
        exact hnone ⟨y, (hchar y).mp hy⟩
      rw [hok, hR]
    · intro hout
      have hnone : ¬ ∃ y, Relation.TransGen (enablesEdge steps) s y := by
        rintro ⟨y, hy⟩
        rcases Relation.TransGen.head'_iff.mp hy with ⟨c, hc, _⟩
        rcases hc with ⟨st, hst, _, hdep⟩
        exact hout (hrefs st hst s hdep)
      have hR : R = ∅ := by
        apply Finset.eq_empty_iff_forall_not_mem.mpr
        intro y hy
        exact hnone ⟨y, (hchar y).mp hy⟩
      rw [hok, hR]

/-- C10 counterexample: nothing transitively depends on `"zzz"` in the
single-step list whose only step has a dangling dependency, yet
`get_transitive_dependents` raises `KeyError` instead of returning the
empty set. -/
theorem get_transitive_dependents_total_cex :
    (¬ ∃ y, Relation.TransGen (enablesEdge [exDangling]) "zzz" y) ∧
      get_transitive_dependents "zzz" [exDangling] =
        .error (.keyError "b") := by
  constructor
  · rintro ⟨y, hy⟩
    have hedge : ∀ z, ¬ enablesEdge [exDangling] "zzz" z := by
      rintro z ⟨st, hst, _, hdep⟩
      simp only [List.mem_cons, List.not_mem_nil, or_false] at hst
      subst hst
      simp [exDangling] at hdep
    rcases Relation.TransGen.head'_iff.mp hy with ⟨c, hc, _⟩
    exact hedge c hc
  · rfl

/-- C10 witness: the amended theorem applied to the two-step chain with
the unknown id `"zzz"`. -/
theorem get_transitive_dependents_total_witness :
    (∀ st ∈ [exRoot, exChild], ∀ dep ∈ st.dependencies,
        dep ∈ stepIds [exRoot, exChild]) ∧
    "zzz" ∉ stepIds [exRoot, exChild] ∧
    get_transitive_dependents "zzz" [exRoot, exChild] = .ok ∅ :=
  ⟨by decide, by decide,
    ((get_transitive_dependents_total [exRoot, exChild] "zzz").2
      (by decide)).2 (by decide)⟩

/-! ## `dag_scheduler.validate_dag`

The missing-reference check runs first (`ValueError`), then Kahn's
algorithm counts how many nodes can be topologically sorted; when the
count falls short, `_find_cycle` reconstructs a witness path by DFS and
a `CyclicDependencyError` carries it. -/

/-- The first `(step.id, dep)` pair, in declaration order, whose `dep`
is not an existing step id (the reference-check loop of
`validate_dag`). -/
def findMissing (steps : List StepDef) : Option (String × String) :=
  steps.findSome? fun st =>
    (st.dependencies.find? fun dep => !(decide (dep ∈ stepIds steps))).map
      fun dep => (st.id, dep)

/-- The edge-build loop of `validate_dag`: one pass over steps and
their dependencies, extending `dependents[dep]` and incrementing
`in_degree[step.id]`.  Lookups use a default for missing keys; the only
caller runs after the reference check, under which every key exists. -/
def buildKahn (steps : List StepDef) :
    List (String × List String) × List (String × Int) :=
  let dep0 := baseDict steps
  let deg0 := steps.foldl (fun d s => dinsert d s.id (0 : Int)) []
  steps.foldl
    (fun acc step =>
      step.dependencies.foldl
        (fun (acc : List (String × List String) × List (String × Int)) dep =>
          let dependents := dinsert acc.1 dep
            (((dlookup acc.1 dep).getD []) ++ [step.id])
          let in_degree := dinsert acc.2 step.id
            (((dlookup acc.2 step.id).getD 0) + 1)
          (dependents, in_degree))
        acc)
    (dep0, deg0)

/-- Sum of the positive in-degrees — the Kahn loop's termination
potential. -/
def sumPos (d : List (String × Int)) : Nat :=
  d.foldr (fun kv acc => kv.2.toNat + acc) 0

/-- Kahn inner loop: decrement the in-degree of each dependent of the
popped node, enqueueing those that reach zero. -/
def kahnExpand (deg : List (String × Int)) (pushes : List String)
    (l : List String) : List (String × Int) × List String :=
  l.foldl
    (fun (acc : List (String × Int) × List String) dependent =>
      let v := ((dlookup acc.1 dependent).getD 0) - 1
      let deg' := dinsert acc.1 dependent v
      if v = 0 then (deg', acc.2 ++ [dependent]) else (deg', acc.2))
    (deg, pushes)

theorem sumPos_cons (kv : String × Int) (rest : List (String × Int)) :
    sumPos (kv :: rest) = kv.2.toNat + sumPos rest := rfl

theorem sumPos_dinsert (d : List (String × Int)) (k : String) (v : Int) :
    sumPos (dinsert d k v) + ((dlookup d k).getD 0).toNat =
      sumPos d + v.toNat := by
  induction d with
  | nil => simp [dinsert, dlookup, sumPos]
  | cons kv rest ih =>
      by_cases h : kv.1 = k
      · subst h
        have h1 : dinsert (kv :: rest) kv.1 v = (kv.1, v) :: rest := by
          simp [dinsert]
        have h2 : dlookup (kv :: rest) kv.1 = some kv.2 := by
          simp [dlookup]
        rw [h1, h2, sumPos_cons, sumPos_cons]
        simp only [Option.getD_some]
        omega
      · have h1 : dinsert (kv :: rest) k v = kv :: dinsert rest k v := by
          simp [dinsert, h]
        have h2 : dlookup (kv :: rest) k = dlookup rest k := by
          simp [dlookup, h]
        rw [h1, h2, sumPos_cons, sumPos_cons]
        omega

theorem kahnExpand_measure (l : List String) :
    ∀ (deg : List (String × Int)) (pushes : List String),
      sumPos (kahnExpand deg pushes l).1 + (kahnExpand deg pushes l).2.length ≤
        sumPos deg + pushes.length := by
  induction l with
  | nil => intro deg pushes; simp [kahnExpand]
  | cons dep t ih =>
      intro deg pushes
      have hins := sumPos_dinsert deg dep (((dlookup deg dep).getD 0) - 1)
      have htoNat : (((dlookup deg dep).getD 0) - 1).toNat ≤
          ((dlookup deg dep).getD 0).toNat := by
        apply Int.toNat_le_toNat
        omega
      by_cases hz : ((dlookup deg dep).getD 0) - 1 = 0
      · have h1 := ih (dinsert deg dep (((dlookup deg dep).getD 0) - 1))
          (pushes ++ [dep])
        simp only [kahnExpand, List.foldl_cons, hz, if_pos] at h1 ⊢
        rw [hz] at hins
        simp only [List.length_append, List.length_cons, List.length_nil] at h1 ⊢
        have : ((dlookup deg dep).getD 0).toNat = 1 := by omega
        omega
      · have h1 := ih (dinsert deg dep (((dlookup deg dep).getD 0) - 1)) pushes
        simp only [kahnExpand, List.foldl_cons, hz, if_neg, if_false] at h1 ⊢
        omega

/-- The Kahn worklist loop of `validate_dag`: pop, count, decrement
dependents, enqueue fresh zeroes; returns `sorted_count`. -/
def kahnLoop (dependents : List (String × List String)) :
    List (String × Int) → List String → Nat → Nat
  | _, [], count => count
  | deg, node :: rest, count =>
      let l := (dlookup dependents node).getD []
      let dq := kahnExpand deg rest l
      kahnLoop dependents dq.1 dq.2 (count + 1)
termination_by deg queue _ => sumPos deg + queue.length
decreasing_by
  have := kahnExpand_measure ((dlookup dependents node).getD []) deg rest
  simp only [List.length_cons]
  omega

/-- Colour lookup of `_find_cycle` (WHITE = 0, GRAY = 1, BLACK = 2);
a missing key defaults to WHITE, which is unreachable from
`validate_dag` because every id consulted is a step id. -/
def colorOf (colors : List (String × Nat)) (x : String) : Nat :=
  (dlookup colors x).getD 0

/-- The parent-chain walk of `_find_cycle`:
`while parent.get(current) and parent[current] != dep`, appending each
parent and finally reversing.  An empty-string parent is falsy in
Python, so it also stops the walk.  The fuel is one more than the
number of parent entries, which bounds every chain through the
once-assigned parent map. -/
def traceLoop (parent : List (String × String)) (dep : String) :
    Nat → String → List String → List String
  | 0, _, acc => acc.reverse
  | fuel + 1, current, acc =>
      match dlookup parent current with
      | none => acc.reverse
      | some p =>
          if p = "" then acc.reverse
          else if p = dep then acc.reverse
          else traceLoop parent dep fuel p (acc ++ [p])

/-- `cycle = [dep, node]` then the parent walk (`_find_cycle`'s
back-edge reconstruction). -/
def traceCycle (parent : List (String × String)) (dep node : String) :
    List String :=
  traceLoop parent dep (parent.length + 1) node [dep, node]

/-- Termination weight of the explicit DFS stack: total pending
dependencies plus the stack depth. -/
def stackWeight (stack : List (String × List String)) : Nat :=
  (stack.map fun e => e.2.length).sum + stack.length

/-- Number of WHITE (or yet unseen) ids within a fixed universe. -/
def whiteCountU (u : Finset String) (colors : List (String × Nat)) : Nat :=
  (u.filter fun x => colorOf colors x = 0).card

theorem colorOf_dinsert (colors : List (String × Nat)) (k : String)
    (v : Nat) (x : String) :
    colorOf (dinsert colors k v) x = if x = k then v else colorOf colors x := by
  unfold colorOf
  rw [dlookup_dinsert]
  by_cases h : x = k <;> simp [h]

theorem whiteCountU_mono (u u' : Finset String)
    (colors : List (String × Nat)) (h : u' ⊆ u) :
    whiteCountU u' colors ≤ whiteCountU u colors := by
  apply Finset.card_le_card
  intro x hx
  simp only [whiteCountU, Finset.mem_filter] at hx ⊢
  exact ⟨h hx.1, hx.2⟩

theorem whiteCountU_dinsert_le (u : Finset String)
    (colors : List (String × Nat)) (k : String) (v : Nat) (hv : v ≠ 0) :
    whiteCountU u (dinsert colors k v) ≤ whiteCountU u colors := by
  apply Finset.card_le_card
  intro x hx
  simp only [whiteCountU, Finset.mem_filter, colorOf_dinsert] at hx ⊢
  rcases hx with ⟨hxu, hxc⟩
  by_cases h : x = k
  · rw [if_pos h] at hxc
    exact absurd hxc hv
  · rw [if_neg h] at hxc
    exact ⟨hxu, hxc⟩

theorem whiteCountU_dinsert_lt (u : Finset String)
    (colors : List (String × Nat)) (k : String) (v : Nat) (hv : v ≠ 0)
    (hk : k ∈ u) (hw : colorOf colors k = 0) :
    whiteCountU u (dinsert colors k v) < whiteCountU u colors := by
  apply Finset.card_lt_card
  rw [Finset.ssubset_iff_of_subset]
  · refine ⟨k, ?_, ?_⟩
    · simp [whiteCountU, Finset.mem_filter, hk, hw]
    · simp [whiteCountU, Finset.mem_filter, colorOf_dinsert, hv]
  · intro x hx
    simp only [whiteCountU, Finset.mem_filter, colorOf_dinsert] at hx ⊢
    rcases hx with ⟨hxu, hxc⟩
    by_cases h : x = k
    · rw [if_pos h] at hxc
      exact absurd hxc hv
    · rw [if_neg h] at hxc
      exact ⟨hxu, hxc⟩

theorem mem_bfsUniverse (l : List (String × List String)) (x : String) :
    x ∈ bfsUniverse l ↔ ∃ kv ∈ l, x = kv.1 ∨ x ∈ kv.2 := by
  induction l with
  | nil => simp [bfsUniverse]
  | cons kv rest ih =>
      simp only [bfsUniverse, Finset.mem_union, Finset.mem_insert,
        List.mem_toFinset, ih, List.mem_cons]
      constructor
      · rintro ((h | h) | ⟨kv', h1, h2⟩)
        · exact ⟨kv, Or.inl rfl, Or.inl h⟩
        · exact ⟨kv, Or.inl rfl, Or.inr h⟩
        · exact ⟨kv', Or.inr h1, h2⟩
      · rintro ⟨kv', (rfl | h1), h2⟩
        · rcases h2 with h | h
          · exact Or.inl (Or.inl h)
          · exact Or.inl (Or.inr h)
        · exact Or.inr ⟨kv', h1, h2⟩

theorem lex_of_le_lt {a a' b b' : Nat} (h1 : a' ≤ a) (h2 : b' < b) :
    Prod.Lex (· < ·) (· < ·) (a', b') (a, b) := by
  rcases Nat.lt_or_ge a' a with h | h
  · exact Prod.Lex.left _ _ h
  · have : a' = a := Nat.le_antisymm h1 h
    subst this
    exact Prod.Lex.right _ h2

/-- The recursive DFS of `_find_cycle` as an explicit stack machine:
each stack entry is a node (coloured GRAY on push) together with its
dependencies not yet examined.  A GRAY dependency is the back-edge: the
machine stops and reconstructs the reported path; exhausting a node's
dependencies colours it BLACK. -/
def dfsRun (adj : List (String × List String)) :
    List (String × Nat) → List (String × String) →
    List (String × List String) →
    List (String × Nat) × List (String × String) × Option (List String)
  | colors, parent, [] => (colors, parent, none)
  | colors, parent, (node, []) :: rest =>
      dfsRun adj (dinsert colors node 2) parent rest
  | colors, parent, (node, dep :: deps) :: rest =>
      if colorOf colors dep = 1 then
        (colors, parent, some (traceCycle parent dep node))
      else if colorOf colors dep = 0 then
        dfsRun adj (dinsert colors dep 1) (dinsert parent dep node)
          ((dep, (dlookup adj dep).getD []) :: (node, deps) :: rest)
      else
        dfsRun adj colors parent ((node, deps) :: rest)
termination_by colors _ stack =>
  (whiteCountU (bfsUniverse adj ∪ bfsUniverse stack) colors,
    stackWeight stack)
decreasing_by
  · have hsub : bfsUniverse adj ∪ bfsUniverse rest ⊆
        bfsUniverse adj ∪ bfsUniverse ((node, []) :: rest) := by
      apply Finset.union_subset_union_right
      intro x hx
      rw [mem_bfsUniverse] at hx ⊢
      rcases hx with ⟨kv, h1, h2⟩
      exact ⟨kv, by simp [h1], h2⟩
    have h1 : whiteCountU (bfsUniverse adj ∪ bfsUniverse rest)
        (dinsert colors node 2) ≤
        whiteCountU (bfsUniverse adj ∪ bfsUniverse ((node, []) :: rest))
          colors := by
      calc whiteCountU (bfsUniverse adj ∪ bfsUniverse rest)
            (dinsert colors node 2)
          ≤ whiteCountU (bfsUniverse adj ∪ bfsUniverse ((node, []) :: rest))
            (dinsert colors node 2) := whiteCountU_mono _ _ _ hsub
        _ ≤ _ := whiteCountU_dinsert_le _ _ _ _ (by omega)
    apply lex_of_le_lt h1
    simp [stackWeight]
  · have hdep : dep ∈ bfsUniverse adj ∪
        bfsUniverse ((node, dep :: deps) :: rest) := by
      rw [Finset.mem_union, mem_bfsUniverse, mem_bfsUniverse]
      right
      exact ⟨(node, dep :: deps), by simp, Or.inr (by simp)⟩
    have hsub : bfsUniverse adj ∪
        bfsUniverse ((dep, (dlookup adj dep).getD []) ::
          (node, deps) :: rest) ⊆
        bfsUniverse adj ∪ bfsUniverse ((node, dep :: deps) :: rest) := by
      intro x hx
      rcases Finset.mem_union.mp hx with hx | hx
      · exact Finset.mem_union_left _ hx
      · rw [mem_bfsUniverse] at hx
        rcases hx with ⟨kv, h1, h2⟩
        rcases List.mem_cons.mp h1 with rfl | h1
        · rcases h2 with rfl | h2
          · exact hdep
          · apply Finset.mem_union_left
            simp only at h2
            rcases hmem : dlookup adj dep with _ | v
            · rw [hmem] at h2; simp at h2
            · rw [hmem] at h2
              simp only [Option.getD_some] at h2
              exact mem_bfsUniverse_of_dlookup adj dep v hmem _ h2
        · rcases List.mem_cons.mp h1 with rfl | h1
          · apply Finset.mem_union_right
            rw [mem_bfsUniverse]
            exact ⟨(node, dep :: deps), by simp,
              by rcases h2 with h | h <;> simp [h]⟩
          · apply Finset.mem_union_right
            rw [mem_bfsUniverse]
            exact ⟨kv, by simp [h1], h2⟩
    rename_i hgray hwhite
    apply Prod.Lex.left
    calc whiteCountU _ (dinsert colors dep 1)
        ≤ whiteCountU (bfsUniverse adj ∪
            bfsUniverse ((node, dep :: deps) :: rest))
            (dinsert colors dep 1) := whiteCountU_mono _ _ _ hsub
      _ < _ := whiteCountU_dinsert_lt _ _ _ _ (by omega) hdep hwhite
  · have hsub : bfsUniverse adj ∪ bfsUniverse ((node, deps) :: rest) ⊆
        bfsUniverse adj ∪ bfsUniverse ((node, dep :: deps) :: rest) := by
      apply Finset.union_subset_union_right
      intro x hx
      rw [mem_bfsUniverse] at hx ⊢
      rcases hx with ⟨kv, h1, h2⟩
      rcases List.mem_cons.mp h1 with rfl | h1
      · exact ⟨(node, dep :: deps), by simp,
          by rcases h2 with h | h <;> simp [h]⟩
      · exact ⟨kv, by simp [h1], h2⟩
    apply lex_of_le_lt (whiteCountU_mono _ _ colors hsub)
    simp [stackWeight]

/-- The outer loop of `_find_cycle`: start a DFS from every still-WHITE
step id, in declaration order, propagating colours and parents. -/
def findCycleOuter (adj : List (String × List String)) :
    List StepDef → List (String × Nat) → List (String × String) →
    Option (List String)
  | [], _, _ => none
  | st :: rest, colors, parent =>
      if colorOf colors st.id = 0 then
        match dfsRun adj (dinsert colors st.id 1) parent
            [(st.id, (dlookup adj st.id).getD [])] with
        | (_, _, some c) => some c
        | (colors', parent', none) => findCycleOuter adj rest colors' parent'
      else findCycleOuter adj rest colors parent

/-- `_find_cycle(steps)`: build the adjacency `{s.id: deps}` (duplicate
ids keep the first position, last value), colour everything WHITE, DFS
from each step; `["unknown"]` when no back-edge is found. -/
def find_cycle (steps : List StepDef) : List String :=
  let adj := steps.foldl (fun d s => dinsert d s.id s.dependencies) []
  let colors0 := steps.foldl (fun d s => dinsert d s.id 0) []
  match findCycleOuter adj steps colors0 [] with
  | some c => c
  | none => ["unknown"]

/-- `dag_scheduler.validate_dag(steps)`: reference check first
(`ValueError`), then Kahn's count; a shortfall raises
`CyclicDependencyError` carrying `_find_cycle(steps)`. -/
def validate_dag (steps : List StepDef) : Except PyErr Unit :=
  match findMissing steps with
  | some sd =>
      .error (.valueError
        ("Step '" ++ sd.1 ++ "' depends on '" ++ sd.2 ++
          "', which does not exist."))
  | none =>
      let bk := buildKahn steps
      let queue := (bk.2.filter fun kv => decide (kv.2 = 0)).map fun kv => kv.1
      let count := kahnLoop bk.1 bk.2 queue 0
      if count < steps.length then
        .error (.cyclicDependency (find_cycle steps))
      else .ok ()

/-! ## Effect traces

Document-store writes, event appends, cluster calls, checkpoint file
operations and report writes are recorded as a trace; reads are
supplied by oracle parameters.  Worker stdout is advisory (spec §3) and
is not traced. -/

/-- Checkpoint `data` dicts as the interactive worker uses them:
empty, `{"context": ...}` after `ask_user`, or
`{"draft": ..., "user_answer": ...}` after `request_approval`.  Scalar
context values are carried already rendered to strings. -/
inductive CkData where
  | emptyData
  | answerPhase (context : List (String × String))
  | approvalPhase (draft userAnswer : String)
  deriving Repr, DecidableEq

/-- Event payloads, by event type. -/
inductive EventPayload where
  | questionP (questionId question questionType : String) (required : Bool)
      (options : Option (List String)) (helpText : Option String)
  | approvalP (approvalId description riskLevel : String)
      (draftContent : Option String)
  | stepStartedP (stepId title : String)
  | stepCompletedP (stepId resultSummary : String)
  | stepFailedP (stepId error : String)
  | progressP (message : String)
  | toolUseP (toolName result : String)
  | thinkingP (thought : String)
  | workerCompletedP (resultSummary : String)
  | workerFailedP (error : String)
  | emptyP
  deriving Repr, DecidableEq

/-- One externally visible operation. -/
inductive Effect where
  | updateStepStatus (stepId status : String) (errorCode : Option String)
      (resultSummary : Option String) (jobName : Option String)
  | writeEvent (eventType : String) (stepId : Option String)
      (payload : EventPayload)
  | updateRunStatus (status : String) (currentStepId : Option String)
  | createJob (runId stepId image : String) (timeoutMinutes : Int)
  | initStepDoc (stepId : String)
  | saveCheckpointEff (stepId phase questionId : String) (data : CkData)
  | clearCheckpointEff (stepId : String)
  | writeReport (stepId content : String)
  deriving Repr, DecidableEq

/-! ## `hitl_tools.ask_user` and `hitl_tools.request_approval` -/

/-- Python truthiness of the `options` argument (`if options:`). -/
def truthyList (o : Option (List String)) : Option (List String) :=
  match o with
  | some (x :: xs) => some (x :: xs)
  | _ => none

/-- Python truthiness of the `help_text` argument (`if help_text:`). -/
def truthyStr (o : Option String) : Option String :=
  match o with
  | some s => if s = "" then none else some s
  | none => none

/-- `hitl_tools.ask_user`: emit the `question` event, save the
checkpoint, mark the step paused, exit 0.  `uuid` is the value
`uuid.uuid4()` returned; the function never returns, so its result is
the effect trace plus the process exit code. -/
def ask_user (orgId runId stepId : String) (question : String)
    (questionType : String) (options : Option (List String))
    (helpText : Option String) (required : Bool)
    (checkpointData : Option CkData) (uuid : String) :
    List Effect × Nat :=
  ([.writeEvent "question" (some stepId)
      (.questionP uuid question questionType required
        (truthyList options) (truthyStr helpText)),
    .saveCheckpointEff stepId "waiting_for_answer" uuid
      (checkpointData.getD .emptyData),
    .updateStepStatus stepId "paused" none none none],
   0)

/-- `hitl_tools.request_approval`: symmetric, with an
`approval_request` event and phase `"waiting_for_approval"`. -/
def request_approval (orgId runId stepId : String) (description : String)
    (draftContent : Option String) (riskLevel : String)
    (checkpointData : Option CkData) (uuid : String) :
    List Effect × Nat :=
  ([.writeEvent "approval_request" (some stepId)
      (.approvalP uuid description riskLevel (truthyStr draftContent)),
    .saveCheckpointEff stepId "waiting_for_approval" uuid
      (checkpointData.getD .emptyData),
    .updateStepStatus stepId "paused" none none none],
   0)

/-! ## Interactive worker — resume dispatch (`entrypoint.main`) -/

/-- A step checkpoint `{phase, questionId, data}` as written by the
HITL primitives. -/
structure Checkpoint where
  phase : String
  questionId : String
  data : CkData
  deriving Repr, DecidableEq

/-- An input document as read back on resume (`type`, and the payload
fields the worker consults); absent keys are `none`. -/
structure InputDoc where
  type : Option String := none
  answer : Option String := none
  decision : Option String := none
  revisedContent : Option String := none
  deriving Repr, DecidableEq

/-- Process termination of a worker: a `sys.exit(code)`, or death by
an exception no handler catches (the interpreter then exits nonzero
with a traceback). -/
inductive ProcExit where
  | exited (code : Nat)
  | uncaught (e : PyErr)
  deriving Repr, DecidableEq

/-- `checkpoint.CHECKPOINT_DIR` (checkpoint.py:13). -/
def CHECKPOINT_DIR : String := "/shared/checkpoints"

/-- The file path `save_checkpoint`/`load_checkpoint` use
(checkpoint.py:19,27): a JSON file on the shared volume, not a
document-store write. -/
def checkpoint_file_path (step_id : String) : String :=
  CHECKPOINT_DIR ++ "/step-" ++ step_id ++ ".json"

/-- The backend each effect's source call writes to: the document
store (`firestore_client`), the shared volume (`checkpoint.py`,
`write_report`), or the cluster API (`k8s_client`). -/
def effectTarget : Effect → String
  | .updateStepStatus _ _ _ _ _ => "document_store"
  | .writeEvent _ _ _ => "document_store"
  | .updateRunStatus _ _ => "document_store"
  | .initStepDoc _ => "document_store"
  | .createJob _ _ _ _ => "cluster"
  | .saveCheckpointEff _ _ _ _ => "shared_volume_file"
  | .clearCheckpointEff _ => "shared_volume_file"
  | .writeReport _ _ => "shared_volume_file"

/-- Binding the call `load_checkpoint(org_id, run_id, step_id)`
(entrypoint.py:245) against the interactive package's own
`checkpoint.load_checkpoint(step_id)` — one parameter: Python raises
`TypeError` before the function body runs. -/
def load_checkpoint_call (orgId runId stepId : String) :
    Except PyErr (Option Checkpoint) :=
  .error (.typeError
    "load_checkpoint() takes 1 positional argument but 3 were given")

/-- Binding the calls `clear_checkpoint(org_id, run_id, step_id)`
(entrypoint.py:204, 289 and 310) against
`checkpoint.clear_checkpoint(step_id)` — one parameter: `TypeError`. -/
def clear_checkpoint_call (orgId runId stepId : String) :
    Except PyErr Unit :=
  .error (.typeError
    "clear_checkpoint() takes 1 positional argument but 3 were given")

/-- Python `str(exc)` for the embedded exceptions.  `TypeError` and
`ValueError` carry their message; `KeyError` and `IndexError` render
as Python renders them; `CyclicDependencyError` renders per its
constructor (dag_scheduler.py:27); the `stepFailed` arm elides the
formatted run summary exactly as the `PyErr` constructor does. -/
def pyStr : PyErr → String
  | .keyError k => "'" ++ k ++ "'"
  | .typeError m => m
  | .indexError => "list index out of range"
  | .valueError m => m
  | .cyclicDependency c =>
      "Cyclic dependency detected: " ++ String.intercalate " -> " c
  | .stepFailed sid _ => "Step " ++ sid ++ " failed"

/-- The generic-exception handler of the worker entrypoint
(entrypoint.py:292-311): `step_failed` event and `failed` status (their
own inner `try` covers them), then the 3-argument `clear_checkpoint`
call — itself a `TypeError` against the 1-parameter signature — so
`sys.exit(1)` is never reached and the process dies from the uncaught
exception, without clearing anything. -/
def workerFailTrace (orgId runId stepId errMsg : String) :
    List Effect × ProcExit :=
  let tr := [Effect.writeEvent "step_failed" (some stepId)
      (.workerFailedP errMsg),
    Effect.updateStepStatus stepId "failed" (some "STEP_AGENT_CRASH")
      none none]
  match clear_checkpoint_call orgId runId stepId with
  | .error e => (tr, .uncaught e)
  | .ok () => (tr, .exited 1)

/-- The `RunAbortedError` handler (entrypoint.py:286-290): status
`skipped`, then the 3-argument `clear_checkpoint` call — a `TypeError`
— so `sys.exit(0)` is never reached either.  (Dead code in the staged
worker: `load_checkpoint` raises before any abort can be detected.) -/
def workerAbortTrace (orgId runId stepId : String) :
    List Effect × ProcExit :=
  let tr := [Effect.updateStepStatus stepId "skipped" none none none]
  match clear_checkpoint_call orgId runId stepId with
  | .error e => (tr, .uncaught e)
  | .ok () => (tr, .exited 0)

/-- The draft document built in phase 2 from the user's answer and the
checkpointed context (scalar values already rendered to strings;
`sorted(context.items())` ordering). -/
def buildDraft (userAnswer : String) (context : List (String × String))
    (runId stepId orgId : String) : String :=
  let ctxPart :=
    if context.isEmpty then "_No additional context available._\n"
    else String.join
      ((context.mergeSort fun a b => a.1 ≤ b.1).map fun kv =>
        "- **" ++ kv.1 ++ "**: " ++ kv.2 ++ "\n")
  "# Project Summary\n\n## Objective\n\n" ++ userAnswer ++
    "\n\n## Context\n\n" ++ ctxPart ++
    "\n## Metadata\n\n- Run: `" ++ runId ++ "`\n- Step: `" ++ stepId ++
    "`\n- Org: `" ++ orgId ++ "`\n"

/-- Phase 2 (`_phase_after_question`): mark running, progress events,
build the draft, then `request_approval` (which checkpoints and
exits 0). -/
def phase_after_question (orgId runId stepId userAnswer : String)
    (data : CkData) (uuid : String) : List Effect × ProcExit :=
  let context := match data with | .answerPhase ctx => ctx | _ => []
  let draft := buildDraft userAnswer context runId stepId orgId
  let ra := request_approval orgId runId stepId
    "Please review the generated project summary draft." (some draft)
    "low" (some (.approvalPhase draft userAnswer)) uuid
  ([.updateStepStatus stepId "running" none none none,
    .writeEvent "progress" (some stepId)
      (.progressP "Resumed — processing user answer"),
    .writeEvent "agent_tool_use" (some stepId)
      (.toolUseP "ask_user"
        ("Received answer: " ++ toString userAnswer.length ++ " chars")),
    .writeEvent "agent_thinking" (some stepId)
      (.thinkingP "Building project summary draft from user input..."),
    .writeEvent "progress" (some stepId)
      (.progressP "Generating draft document"),
    .writeEvent "progress" (some stepId)
      (.progressP "Requesting approval on draft")] ++ ra.1,
   .exited ra.2)

/-- Python `decision.get("revisedContent") or draft` (falsy `None` or
`""` falls back to the draft). -/
def revisedOrDraft (revisedContent : Option String) (draft : String) :
    String :=
  match revisedContent with
  | none => draft
  | some r => if r = "" then draft else r

/-- Phase 3 (`_phase_after_approval`, entrypoint.py:152-217): mark
running, events, write the final report — then the 3-argument
`clear_checkpoint` call of entrypoint.py:204 raises `TypeError`
against the 1-parameter local signature, diverting into the generic
crash handler: the `step_completed` event and the `completed` status
write below it are never reached. -/
def phase_after_approval (orgId runId stepId decisionValue : String)
    (revisedContent : Option String) (data : CkData) :
    List Effect × ProcExit :=
  let draft := match data with | .approvalPhase d _ => d | _ => ""
  let report :=
    if decisionValue = "approve" then draft ++ "\n---\n\n_Approved by user._\n"
    else if decisionValue = "revise" then
      revisedOrDraft revisedContent draft ++ "\n---\n\n_Revised by user._\n"
    else draft ++ "\n---\n\n_Rejected by user._\n"
  let summary :=
    if decisionValue = "approve" then "Draft approved and finalized."
    else if decisionValue = "revise" then "Draft revised by user and finalized."
    else "Draft rejected by user."
  let tr := [Effect.updateStepStatus stepId "running" none none none,
    Effect.writeEvent "progress" (some stepId)
      (.progressP "Resumed — processing approval decision"),
    Effect.writeEvent "agent_tool_use" (some stepId)
      (.toolUseP "request_approval" ("Decision: " ++ decisionValue)),
    Effect.writeEvent "progress" (some stepId)
      (.progressP "Writing final report"),
    Effect.writeReport stepId report]
  match clear_checkpoint_call orgId runId stepId with
  | .error e =>
      let wf := workerFailTrace orgId runId stepId (pyStr e)
      (tr ++ wf.1, wf.2)
  | .ok () =>
      (tr ++ [Effect.writeEvent "step_completed" (some stepId)
          (.workerCompletedP summary),
        Effect.updateStepStatus stepId "completed" none (some summary)
          none],
       .exited 0)

/-- The resume branch of the interactive worker's `main`
(entrypoint.py:244-311).  Its first statement is the 3-argument
`load_checkpoint` call against the package's 1-parameter function — a
`TypeError` on every resume — so the absent-checkpoint check, the
abort checks, the input read and the phase dispatch below it are dead
code, and control goes straight to the generic crash handler (whose
own `clear_checkpoint` call raises again).  `runStatus` and `inputFor`
are the oracle reads the dead branch would perform. -/
def resumeMain (orgId runId stepId : String) (runStatus : Option String)
    (inputFor : String → Option InputDoc) (uuid : String) :
    List Effect × ProcExit :=
  match load_checkpoint_call orgId runId stepId with
  | .error e => workerFailTrace orgId runId stepId (pyStr e)
  | .ok checkpoint =>
      match checkpoint with
      | none =>
          workerFailTrace orgId runId stepId
            ("RESUME_THREAD_ID set but no checkpoint found for step " ++
              stepId)
      | some cp =>
          if runStatus = some "aborted" then
            workerAbortTrace orgId runId stepId
          else
            match inputFor cp.questionId with
            | none =>
                workerFailTrace orgId runId stepId
                  ("Resume triggered but input not found for questionId=" ++
                    cp.questionId)
            | some inp =>
                if inp.type = some "abort" then
                  workerAbortTrace orgId runId stepId
                else if cp.phase = "waiting_for_answer" then
                  phase_after_question orgId runId stepId
                    (inp.answer.getD "") cp.data uuid
                else if cp.phase = "waiting_for_approval" then
                  phase_after_approval orgId runId stepId
                    (inp.decision.getD "reject") inp.revisedContent
                    cp.data
                else
                  workerFailTrace orgId runId stepId
                    ("Unknown checkpoint phase: " ++ cp.phase)

/-! ## Controller — launch, poll, completion, cascade, summary -/

/-- `k8s_client.resolve_image`: a name containing `/` is used verbatim;
otherwise the configured registry prefixes it, and an unset registry is
a `ValueError`. -/
def resolve_image (agentImage : String) (registry : String) :
    Except PyErr String :=
  if agentImage.toList.contains '/' then .ok agentImage
  else if registry = "" then
    .error (.valueError
      ("Cannot resolve short image name '" ++ agentImage ++
        "': AGENT_IMAGE_REGISTRY env var is not set"))
  else .ok (registry ++ "/" ++ agentImage)

/-- The keyword arguments a call to `k8s_client.create_step_job` binds;
`none` marks an argument the caller did not supply. -/
structure CreateStepJobArgs where
  run_id : Option String := none
  step_id : Option String := none
  image : Option String := none
  org_id : Option String := none
  pvc_name : Option String := none
  timeout_minutes : Option Int := none
  deriving Repr, DecidableEq

/-- Binding a call to
`create_step_job(run_id, step_id, image, org_id, pvc_name, *, …)`:
Python raises `TypeError` when a required positional parameter —
`pvc_name` at the orchestrator's call site — is not supplied; otherwise
the Job named `f"step-{run_id}-{step_id}"[:63]` is created. -/
def create_step_job_call (args : CreateStepJobArgs) :
    Except PyErr (String × List Effect) :=
  match args.run_id, args.step_id, args.image, args.org_id,
      args.pvc_name with
  | some runId, some stepId, some image, some _, some _ =>
      let jobName := ("step-" ++ runId ++ "-" ++ stepId).take 63
      .ok (jobName,
        [.createJob runId stepId image (args.timeout_minutes.getD 30)])
  | _, _, _, _, _ =>
      .error (.typeError
        "create_step_job() missing 1 required positional argument: 'pvc_name'")

/-- `orchestrator._launch_step`: status `running`, `step_started`
event, image resolution, then the `create_step_job(...)` call exactly
as the orchestrator writes it — without `pvc_name` — and finally the
`jobName` status write.  An exception propagates with the effects
already performed. -/
def launch_step (step : StepDef) (orgId runId : String)
    (registry : String) : List Effect × Except PyErr String :=
  let tr1 := [Effect.updateStepStatus step.id "running" none none none,
    Effect.writeEvent "step_started" (some step.id)
      (.stepStartedP step.id step.title)]
  match resolve_image step.agentImage registry with
  | .error e => (tr1, .error e)
  | .ok image =>
      match create_step_job_call
          { run_id := some runId, step_id := some step.id,
            image := some image, org_id := some orgId,
            timeout_minutes := some step.timeoutMinutes } with
      | .error e => (tr1, .error e)
      | .ok (jobName, tr2) =>
          (tr1 ++ tr2 ++
            [Effect.updateStepStatus step.id "running" none none
              (some jobName)],
           .ok jobName)

/-- `orchestrator._handle_step_completion`: the summary read from the
shared volume is supplied as `report`. -/
def handle_step_completion (step : StepDef) (finalStatus : String)
    (report : Option String) : List Effect :=
  if finalStatus = "completed" then
    let summary :=
      match report with
      | some r => "Step completed. Report: " ++ toString r.length ++ " chars"
      | none => "Step completed (no report)."
    [.updateStepStatus step.id "completed" none (some summary) none,
     .writeEvent "step_completed" (some step.id)
       (.stepCompletedP step.id summary)]
  else if finalStatus = "failed" then
    let errorMsg := "Step " ++ step.id ++ " failed (detected via Firestore status)"
    [.updateStepStatus step.id "failed" (some "STEP_FAILED") none none,
     .writeEvent "step_failed" (some step.id)
       (.stepFailedP step.id errorMsg)]
  else []

/-- The timeout branch of the orchestration loop: status `failed` with
`STEP_TIMEOUT`, then the `step_failed` event. -/
def timeoutEffects (stepId : String) (timeoutSeconds : Int) : List Effect :=
  [.updateStepStatus stepId "failed" (some "STEP_TIMEOUT") none none,
   .writeEvent "step_failed" (some stepId)
     (.stepFailedP stepId
       ("Step timed out after " ++ toString timeoutSeconds ++ "s"))]

/-- `orchestrator._write_summary`: return when nothing failed or was
skipped; otherwise raise `StepFailedError(failed_ids[0], …)` — an
`IndexError` when `failed` is empty but `skipped` is not. -/
def write_summary (steps : List StepDef)
    (completed failed skipped : Finset String) : Except PyErr Unit :=
  if failed.card = 0 ∧ skipped.card = 0 then .ok ()
  else
    match failed.sort (· ≤ ·) with
    | [] => .error .indexError
    | f0 :: rest => .error (.stepFailed f0 (f0 :: rest))

/-- C5 (amended): `ask_user` (and symmetrically `request_approval`)
never returns — its result is an effect trace plus a process exit
code.  For every argument list and generated id it appends exactly one
`question` (resp. `approval_request`) event carrying the fresh id,
then saves the checkpoint `{phase: "waiting_for_answer"` (resp.
`"waiting_for_approval"`)`, questionId, data}` — as a JSON file on the
shared volume (`checkpoint.py`), not in the document store — then sets
the step status to `"paused"`, and exits with code 0, in that order;
the event append and the status write do go to the document store. -/
theorem hitl_pause_contract (orgId runId stepId question questionType
      description riskLevel : String) (options : Option (List String))
    (helpText draftContent : Option String) (required : Bool)
    (checkpointData : Option CkData) (uuid : String) :
    (ask_user orgId runId stepId question questionType options helpText
        required checkpointData uuid =
      ([.writeEvent "question" (some stepId)
          (.questionP uuid question questionType required
            (truthyList options) (truthyStr helpText)),
        .saveCheckpointEff stepId "waiting_for_answer" uuid
          (checkpointData.getD .emptyData),
        .updateStepStatus stepId "paused" none none none], 0)) ∧
    ((ask_user orgId runId stepId question questionType options helpText
        required checkpointData uuid).1.countP
      (fun e => match e with
        | .writeEvent "question" _ _ => true
        | _ => false) = 1) ∧
    (request_approval orgId runId stepId description draftContent
        riskLevel checkpointData uuid =
      ([.writeEvent "approval_request" (some stepId)
          (.approvalP uuid description riskLevel (truthyStr draftContent)),
        .saveCheckpointEff stepId "waiting_for_approval" uuid
          (checkpointData.getD .emptyData),
        .updateStepStatus stepId "paused" none none none], 0)) ∧
    ((request_approval orgId runId stepId description draftContent
        riskLevel checkpointData uuid).1.countP
      (fun e => match e with
        | .writeEvent "approval_request" _ _ => true
        | _ => false) = 1) ∧
    ((ask_user orgId runId stepId question questionType options helpText
        required checkpointData uuid).1.map effectTarget =
      ["document_store", "shared_volume_file", "document_store"]) ∧
    ((request_approval orgId runId stepId description draftContent
        riskLevel checkpointData uuid).1.map effectTarget =
      ["document_store", "shared_volume_file", "document_store"]) :=
  ⟨rfl, rfl, rfl, rfl, rfl, rfl⟩

/-- C5 counterexample: the checkpoint written by `ask_user` is not a
document-store write — `save_checkpoint` (checkpoint.py:13-22) writes
a JSON file on the shared volume at
`/shared/checkpoints/step-{step_id}.json`. -/
theorem hitl_checkpoint_location_cex :
    (ask_user "o" "r" "s1" "q" "free_text" none none true none
        "u1").1[1]? =
      some (.saveCheckpointEff "s1" "waiting_for_answer" "u1"
        .emptyData) ∧
    effectTarget (.saveCheckpointEff "s1" "waiting_for_answer" "u1"
      .emptyData) = "shared_volume_file" ∧
    ¬ effectTarget (.saveCheckpointEff "s1" "waiting_for_answer" "u1"
        .emptyData) = "document_store" ∧
    checkpoint_file_path "s1" = "/shared/checkpoints/step-s1.json" :=
  ⟨rfl, rfl, by decide, rfl⟩

/-- C7 counterexample: in the controller's completion handler the
terminal status write comes first and the `step_completed` event
second, so no index pair places the event before the status write. -/
theorem controller_event_order_cex :
    handle_step_completion exRoot "completed" none =
      [.updateStepStatus "a" "completed" none
          (some "Step completed (no report).") none,
       .writeEvent "step_completed" (some "a")
          (.stepCompletedP "a" "Step completed (no report).")] ∧
    ¬ ∃ i j : Nat, i < j ∧
      (handle_step_completion exRoot "completed" none)[i]? =
        some (Effect.writeEvent "step_completed" (some "a")
          (.stepCompletedP "a" "Step completed (no report).")) ∧
      (handle_step_completion exRoot "completed" none)[j]? =
        some (Effect.updateStepStatus "a" "completed" none
          (some "Step completed (no report).") none) := by
  have htr : handle_step_completion exRoot "completed" none =
      [.updateStepStatus "a" "completed" none
          (some "Step completed (no report).") none,
       .writeEvent "step_completed" (some "a")
          (.stepCompletedP "a" "Step completed (no report).")] := rfl
  refine ⟨htr, ?_⟩
  rintro ⟨i, j, hij, hi, hj⟩
  rw [htr] at hi hj
  rcases i with _ | _ | n
  · simp at hi
  · have hj2 : (2 : Nat) ≤ j := hij
    rw [List.getElem?_eq_none (by simpa using hj2)] at hj
    exact Option.noConfusion hj
  · rw [List.getElem?_eq_none (by simp)] at hi
    exact Option.noConfusion hi

/-- C7 (amended): the one worker terminal transition that actually
executes — the generic crash handler — appends the `step_failed` event
before the `failed` status write.  The worker completion transition
would write `step_completed` before the `completed` status, but it is
unreachable in the staged code: the `_phase_after_approval` 3-argument
`clear_checkpoint` call raises `TypeError` first and every
resume-completion diverts into the crash handler, so the trace carries
no `step_completed` event and no `completed` status write at all.  The
controller terminal transitions — completion handling, failure
handling and the timeout branch — make the terminal status write first
and append the matching event second. -/
theorem terminal_event_order (step : StepDef) (report : Option String)
    (stepId orgId runId decisionValue : String) (timeoutSeconds : Int)
    (revisedContent : Option String) (data : CkData) (errMsg : String) :
    (handle_step_completion step "completed" report =
      [.updateStepStatus step.id "completed" none
          (some (match report with
            | some r => "Step completed. Report: " ++ toString r.length ++
                " chars"
            | none => "Step completed (no report).")) none,
       .writeEvent "step_completed" (some step.id)
          (.stepCompletedP step.id (match report with
            | some r => "Step completed. Report: " ++ toString r.length ++
                " chars"
            | none => "Step completed (no report).")) ]) ∧
    (handle_step_completion step "failed" report =
      [.updateStepStatus step.id "failed" (some "STEP_FAILED") none none,
       .writeEvent "step_failed" (some step.id)
          (.stepFailedP step.id
            ("Step " ++ step.id ++ " failed (detected via Firestore status)"))]) ∧
    (timeoutEffects stepId timeoutSeconds =
      [.updateStepStatus stepId "failed" (some "STEP_TIMEOUT") none none,
       .writeEvent "step_failed" (some stepId)
          (.stepFailedP stepId
            ("Step timed out after " ++ toString timeoutSeconds ++ "s"))]) ∧
    ((workerFailTrace orgId runId stepId errMsg).1 =
      [.writeEvent "step_failed" (some stepId) (.workerFailedP errMsg),
       .updateStepStatus stepId "failed" (some "STEP_AGENT_CRASH")
         none none]) ∧
    ((phase_after_approval orgId runId stepId decisionValue
        revisedContent data).1[5]? =
      some (.writeEvent "step_failed" (some stepId)
        (.workerFailedP
          "clear_checkpoint() takes 1 positional argument but 3 were given")) ∧
     (phase_after_approval orgId runId stepId decisionValue
        revisedContent data).1[6]? =
      some (.updateStepStatus stepId "failed" (some "STEP_AGENT_CRASH")
        none none) ∧
     (phase_after_approval orgId runId stepId decisionValue
        revisedContent data).2 =
      .uncaught (.typeError
        "clear_checkpoint() takes 1 positional argument but 3 were given")) ∧
    (∀ sid p, Effect.writeEvent "step_completed" sid p ∉
      (phase_after_approval orgId runId stepId decisionValue
        revisedContent data).1) ∧
    (∀ err rs jn, Effect.updateStepStatus stepId "completed" err rs jn ∉
      (phase_after_approval orgId runId stepId decisionValue
        revisedContent data).1) := by
  refine ⟨?_, rfl, rfl, rfl, ⟨rfl, rfl, rfl⟩, ?_, ?_⟩
  · cases report <;> rfl
  · intro sid p
    simp [phase_after_approval, workerFailTrace, clear_checkpoint_call,
      pyStr]
  · intro err rs jn
    simp [phase_after_approval, workerFailTrace, clear_checkpoint_call,
      pyStr]

/-- C6: resume never reaches the dispatch the claim describes.  With
`RESUME_THREAD_ID` set, the first statement of the resume branch — the
3-argument `load_checkpoint` call against the 1-parameter local
function — raises `TypeError` on every resume, before the
checkpoint-presence check, the aborted-run check, the input read and
the phase dispatch; the crash handler then writes the `step_failed`
event and the `failed` status, and its own 3-argument
`clear_checkpoint` call raises again, so the process dies from the
uncaught exception: the step is never marked `skipped`, no checkpoint
is ever cleared, and there is no clean exit. -/
theorem resume_dispatch (orgId runId stepId uuid : String)
    (runStatus : Option String) (inputFor : String → Option InputDoc) :
    (resumeMain orgId runId stepId runStatus inputFor uuid =
      ([.writeEvent "step_failed" (some stepId)
          (.workerFailedP
            "load_checkpoint() takes 1 positional argument but 3 were given"),
        .updateStepStatus stepId "failed" (some "STEP_AGENT_CRASH")
          none none],
       .uncaught (.typeError
         "clear_checkpoint() takes 1 positional argument but 3 were given"))) ∧
    (Effect.updateStepStatus stepId "skipped" none none none ∉
      (resumeMain orgId runId stepId runStatus inputFor uuid).1) ∧
    (∀ s, Effect.clearCheckpointEff s ∉
      (resumeMain orgId runId stepId runStatus inputFor uuid).1) ∧
    (∀ code, (resumeMain orgId runId stepId runStatus inputFor uuid).2 ≠
      .exited code) := by
  refine ⟨rfl, ?_, ?_, ?_⟩
  · simp [resumeMain, workerFailTrace, load_checkpoint_call,
      clear_checkpoint_call, pyStr]
  · intro s
    simp [resumeMain, workerFailTrace, load_checkpoint_call,
      clear_checkpoint_call, pyStr]
  · intro code
    simp [resumeMain, workerFailTrace, load_checkpoint_call,
      clear_checkpoint_call, pyStr]

/-- C4: the launch path sets the step running and writes the
`step_started` event, but the orchestrator's `create_step_job(...)`
call supplies no `pvc_name`, a required positional parameter of
`k8s_client.create_step_job`, so Python raises `TypeError` before any
worker Job is created: no Job-creation effect and no `jobName` status
write appear in the trace, and the step is never polled to a terminal
status. -/
theorem launch_step_missing_pvc (step : StepDef)
    (orgId runId registry image : String)
    (himg : resolve_image step.agentImage registry = .ok image) :
    launch_step step orgId runId registry =
      ([.updateStepStatus step.id "running" none none none,
        .writeEvent "step_started" (some step.id)
          (.stepStartedP step.id step.title)],
       .error (.typeError
         "create_step_job() missing 1 required positional argument: 'pvc_name'")) := by
  simp [launch_step, himg, create_step_job_call]

/-- C4 witness: a concrete step whose image is a full registry path. -/
theorem launch_step_missing_pvc_witness :
    resolve_image "gcr.io/p/interactive" "" = .ok "gcr.io/p/interactive" ∧
    launch_step
        { id := "a", order := 1, title := "T",
          agentImage := "gcr.io/p/interactive" } "org" "run" "" =
      ([.updateStepStatus "a" "running" none none none,
        .writeEvent "step_started" (some "a") (.stepStartedP "a" "T")],
       .error (.typeError
         "create_step_job() missing 1 required positional argument: 'pvc_name'")) :=
  ⟨rfl,
    launch_step_missing_pvc
      { id := "a", order := 1, title := "T",
        agentImage := "gcr.io/p/interactive" }
      "org" "run" "" "gcr.io/p/interactive" rfl⟩

/-- C8: `_write_summary` returns normally when nothing failed or was
skipped, raises `StepFailedError` with the sorted failed ids and their
first element as the cause when some step failed — but when `failed` is
empty and `skipped` is not, `failed_ids[0]` subscripts an empty list
and raises `IndexError` instead of returning normally. -/
theorem write_summary_behaviour :
    write_summary [exRoot] {"a"} ∅ ∅ = .ok () ∧
    write_summary [exRoot, exChild] ∅ {"b"} ∅ =
      .error (.stepFailed "b" ["b"]) ∧
    write_summary [exRoot] ∅ ∅ {"a"} = .error .indexError := by
  refine ⟨?_, ?_, ?_⟩
  · rfl
  · simp [write_summary, Finset.sort_singleton]
  · simp [write_summary, Finset.sort_empty]

/-! ## `orchestrator.run_orchestration` — the scheduling loop

The loop is modelled iteration by iteration.  Poll results (a timeout
observation or the step status read back from the store) are supplied
by an oracle indexed by iteration and step id; the cluster-adapter
call inside `_launch_step` is modelled as succeeding and returning the
Job name — its Python-level missing-argument defect is the subject of
`launch_step_missing_pvc`.  Python-set iteration order (for cascade
and blocked sweeps) is determinised as sorted order; the bookkeeping
sets, which the claims are about, do not depend on it. -/

/-- One poll observation for a running step. -/
inductive PollOutcome where
  | timeout
  | status (s : Option String)
  deriving Repr, DecidableEq

/-- The controller's in-memory bookkeeping.  `running` is kept as a
list in launch order; Python's set semantics are recovered through
membership. -/
structure OrchState where
  completed : Finset String
  failed : Finset String
  skipped : Finset String
  running : List String
  pausedNotified : Finset String
  deriving DecidableEq

/-- `orchestrator._skip_transitive_dependents`: cascade-skip the
transitive dependents of a failed step that are not completed, running
or already skipped. -/
def skip_transitive_dependents (failedStepId : String)
    (steps : List StepDef) (alreadySkipped completed : Finset String)
    (running : List String) :
    Except PyErr (Finset String × List Effect) :=
  (get_transitive_dependents failedStepId steps).map fun ts =>
    let to_skip := ts \ (completed ∪ running.toFinset ∪ alreadySkipped)
    (to_skip,
      (to_skip.sort (· ≤ ·)).flatMap fun skipId =>
        [.updateStepStatus skipId "skipped" none none none,
         .writeEvent "progress" (some skipId)
           (.progressP
             ("Step skipped (dependency '" ++ failedStepId ++ "' failed)"))])

/-- The `status == "paused"` / back-to-`"running"` notification
bookkeeping of `_poll_step_once`. -/
def pauseNotifyEffects (stepId : String) (status : Option String)
    (pausedNotified : Finset String) : Finset String × List Effect :=
  if status = some "paused" ∧ stepId ∉ pausedNotified then
    (insert stepId pausedNotified,
     [.writeEvent "progress" (some stepId)
        (.progressP "Waiting for user input (pod terminated, checkpoint saved)")])
  else if status = some "running" ∧ stepId ∈ pausedNotified then
    (pausedNotified.erase stepId,
     [.writeEvent "progress" (some stepId)
        (.progressP "Step resumed after user input")])
  else (pausedNotified, [])

/-- The launch pass over one iteration's `ready` list: per-step
progress event, run-status update, then the `_launch_step` effects —
with the orchestrator's `create_step_job(...)` call bound exactly as
written, without `pvc_name`.  The `.ok` arm below (Job effect, second
`running` status write carrying the `jobName`, step added to
`running`) is the source text past that call; with the staged
argument binding the call raises `TypeError` first, so the launch of
any nonempty ready list propagates an exception out of the loop. -/
def launchFold (orgId runId registry : String) (total : Nat) :
    List StepDef → OrchState → List Effect →
    Except (PyErr × List Effect) (OrchState × List Effect)
  | [], st, tr => .ok (st, tr)
  | step :: rest, st, tr =>
      let tr1 := tr ++
        [.writeEvent "progress" none
           (.progressP ("Preparing step " ++ toString step.order ++ " of " ++
             toString total ++ ": " ++ step.title)),
         .updateRunStatus "running" (some step.id),
         .updateStepStatus step.id "running" none none none,
         .writeEvent "step_started" (some step.id)
           (.stepStartedP step.id step.title)]
      match resolve_image step.agentImage registry with
      | .error e => .error (e, tr1)
      | .ok image =>
          match create_step_job_call
              { run_id := some runId, step_id := some step.id,
                image := some image, org_id := some orgId,
                timeout_minutes := some step.timeoutMinutes } with
          | .error e => .error (e, tr1)
          | .ok (jobName, tr2) =>
              launchFold orgId runId registry total rest
                { st with running :=
                    if step.id ∈ st.running then st.running
                    else st.running ++ [step.id] }
                (tr1 ++ tr2 ++
                  [.updateStepStatus step.id "running" none none
                     (some jobName)])

/-- The poll pass over the snapshot of `running`: timeout check first,
then the status read with pause bookkeeping and terminal handling. -/
def pollFold (steps : List StepDef) (orgId runId : String)
    (oracle : String → PollOutcome) (report : String → Option String) :
    List String → OrchState → List Effect →
    Except (PyErr × List Effect) (OrchState × List Effect)
  | [], st, tr => .ok (st, tr)
  | stepId :: rest, st, tr =>
      match dlookup (steps.foldl (fun d s => dinsert d s.id s) []) stepId with
      | none => .error (.keyError stepId, tr)
      | some step =>
          match oracle stepId with
          | .timeout =>
              let tr := tr ++ timeoutEffects stepId (step.timeoutMinutes * 60)
              let st' := { st with running := st.running.erase stepId,
                                   failed := insert stepId st.failed }
              match skip_transitive_dependents stepId steps st'.skipped
                  st'.completed st'.running with
              | .error e => .error (e, tr)
              | .ok (newlySkipped, skipTr) =>
                  pollFold steps orgId runId oracle report rest
                    { st' with skipped := st'.skipped ∪ newlySkipped }
                    (tr ++ skipTr)
          | .status s =>
              if s = some "completed" ∨ s = some "failed" ∨
                  s = some "skipped" then
                let finalStatus := s.getD ""
                let tr := tr ++
                  handle_step_completion step finalStatus (report stepId)
                let st' := { st with running := st.running.erase stepId }
                if finalStatus = "completed" then
                  pollFold steps orgId runId oracle report rest
                    { st' with completed := insert stepId st'.completed } tr
                else if finalStatus = "failed" then
                  let st'' := { st' with failed := insert stepId st'.failed }
                  match skip_transitive_dependents stepId steps st''.skipped
                      st''.completed st''.running with
                  | .error e => .error (e, tr)
                  | .ok (newlySkipped, skipTr) =>
                      pollFold steps orgId runId oracle report rest
                        { st'' with skipped := st''.skipped ∪ newlySkipped }
                        (tr ++ skipTr)
                else
                  pollFold steps orgId runId oracle report rest
                    { st' with skipped := insert stepId st'.skipped } tr
              else
                let pn := pauseNotifyEffects stepId s st.pausedNotified
                pollFold steps orgId runId oracle report rest
                  { st with pausedNotified := pn.1 } (tr ++ pn.2)

/-- Outcome of running the scheduling loop for a bounded number of
iterations. -/
inductive LoopRes where
  | exited (st : OrchState) (tr : List Effect)
  | raised (e : PyErr) (tr : List Effect)
  | spinning (tr : List Effect)

/-- The main scheduling loop (`while True:` of `run_orchestration`),
one recursive call per iteration, bounded by `fuel`. -/
def orchLoop (steps : List StepDef) (orgId runId registry : String)
    (oracle : Nat → String → PollOutcome)
    (report : String → Option String) :
    Nat → Nat → OrchState → List Effect → LoopRes
  | 0, _, _, tr => .spinning tr
  | fuel + 1, iter, st, tr =>
      let ready := get_ready_steps steps st.completed
        (st.failed ∪ st.skipped) st.running.toFinset
      let tr := tr ++
        (if 1 < ready.length then
          [Effect.writeEvent "progress" none
            (.progressP ("Starting steps in parallel: [" ++
              String.intercalate ", " (ready.map fun s => s.id) ++ "]"))]
         else [])
      match launchFold orgId runId registry steps.length ready st tr with
      | .error (e, tr) => .raised e tr
      | .ok (st, tr) =>
          if st.running.isEmpty then
            let remaining := stepIds steps \
              (st.completed ∪ st.failed ∪ st.skipped)
            if remaining = ∅ then .exited st tr
            else
              .exited { st with skipped := st.skipped ∪ remaining }
                (tr ++ (remaining.sort (· ≤ ·)).flatMap fun rid =>
                  [.updateStepStatus rid "skipped" none none none,
                   .writeEvent "progress" (some rid)
                     (.progressP "Step skipped (blocked by failed dependency)")])
          else
            match pollFold steps orgId runId (oracle iter) report
                st.running st tr with
            | .error (e, tr) => .raised e tr
            | .ok (st, tr) =>
                orchLoop steps orgId runId registry oracle report
                  fuel (iter + 1) st tr

/-- `run_orchestration`: sort by `order`, empty-playbook early return,
validate, initialise step docs, run the loop, then `_write_summary`. -/
def run_orchestration (playbook : List StepDef)
    (orgId runId registry : String) (oracle : Nat → String → PollOutcome)
    (report : String → Option String) (fuel : Nat) : LoopRes :=
  let steps := playbook.mergeSort fun a b => a.order ≤ b.order
  if steps.isEmpty then .exited ⟨∅, ∅, ∅, [], ∅⟩ []
  else
    match validate_dag steps with
    | .error e => .raised e []
    | .ok () =>
        let initTr := steps.map fun s => Effect.initStepDoc s.id
        match orchLoop steps orgId runId registry oracle report fuel 0
            ⟨∅, ∅, ∅, [], ∅⟩ initTr with
        | .exited st tr =>
            match write_summary steps st.completed st.failed st.skipped with
            | .ok () => .exited st tr
            | .error e => .raised e tr
        | r => r

/-! ## Kahn analysis — counting bound

A conservation argument: every loop iteration preserves
`count + queue.length + #positive-degrees`, so the final count is at
most the number of in-degree keys — the number of distinct step ids.
`validate_dag` succeeding therefore forces pairwise-distinct ids. -/

/-- Keys of an association list. -/
def dkeys {α : Type} (d : List (String × α)) : List String :=
  d.map fun kv => kv.1

theorem dkeys_dinsert {α : Type} (d : List (String × α)) (k : String)
    (v : α) :
    dkeys (dinsert d k v) =
      if k ∈ dkeys d then dkeys d else dkeys d ++ [k] := by
  induction d with
  | nil => simp [dinsert, dkeys]
  | cons kv rest ih =>
      by_cases h : kv.1 = k
      · simp [dinsert, dkeys, h]
      · have hstep : dkeys (dinsert (kv :: rest) k v) =
            kv.1 :: dkeys (dinsert rest k v) := by
          simp [dinsert, h, dkeys]
        rw [hstep, ih]
        by_cases h2 : k ∈ dkeys rest
        · rw [if_pos h2, if_pos (show k ∈ dkeys (kv :: rest) from
            List.mem_cons_of_mem kv.1 h2)]
          rfl
        · rw [if_neg h2, if_neg (show k ∉ dkeys (kv :: rest) from
            fun hmem => (List.mem_cons.mp hmem).elim
              (fun hh => h hh.symm) h2)]
          rfl

theorem dkeys_nodup_dinsert {α : Type} (d : List (String × α))
    (k : String) (v : α) (h : (dkeys d).Nodup) :
    (dkeys (dinsert d k v)).Nodup := by
  rw [dkeys_dinsert]
  by_cases h2 : k ∈ dkeys d
  · simpa [h2] using h
  · simpa [h2, List.nodup_append, h] using h2

/-- Number of strictly positive degree entries. -/
def posCount (d : List (String × Int)) : Nat :=
  (d.filter fun kv => decide (0 < kv.2)).length

theorem mem_dkeys_iff_isSome {α : Type} (d : List (String × α))
    (k : String) :
    k ∈ dkeys d ↔ (dlookup d k).isSome := by
  induction d with
  | nil => simp [dkeys, dlookup]
  | cons kv rest ih =>
      by_cases h : kv.1 = k
      · simp [dkeys, dlookup, h]
      · have hmemiff : k ∈ dkeys (kv :: rest) ↔ k ∈ dkeys rest := by
          constructor
          · intro hmem
            rcases List.mem_cons.mp hmem with hh | hh
            · exact absurd hh.symm h
            · exact hh
          · exact fun hh => List.mem_cons_of_mem kv.1 hh
        rw [hmemiff, ih]
        simp [dlookup, h]

/-- `dinsert` with a constant value over all step ids (the two dict
comprehensions of `validate_dag`). -/
theorem dlookup_idFold {α : Type} (c : α) (steps : List StepDef) :
    ∀ (d0 : List (String × α)) (k : String),
      dlookup (steps.foldl (fun d s => dinsert d s.id c) d0) k =
        if k ∈ stepIds steps then some c else dlookup d0 k := by
  induction steps with
  | nil => intro d0 k; simp [stepIds]
  | cons st rest ih =>
      intro d0 k
      rw [List.foldl_cons, ih]
      by_cases h1 : k ∈ stepIds rest
      · rw [if_pos h1, if_pos ((mem_stepIds_cons st rest k).mpr (Or.inr h1))]
      · rw [if_neg h1, dlookup_dinsert]
        by_cases h2 : k = st.id
        · rw [if_pos h2, if_pos ((mem_stepIds_cons st rest k).mpr (Or.inl h2))]
        · rw [if_neg h2,
            if_neg fun hh => ((mem_stepIds_cons st rest k).mp hh).elim h2 h1]

theorem dkeys_foldl_nodup {α : Type} (c : α) (steps : List StepDef) :
    ∀ (d0 : List (String × α)), (dkeys d0).Nodup →
      (dkeys (steps.foldl (fun d s => dinsert d s.id c) d0)).Nodup := by
  induction steps with
  | nil => intro d0 h; exact h
  | cons st rest ih =>
      intro d0 h
      rw [List.foldl_cons]
      exact ih (dinsert d0 st.id c) (dkeys_nodup_dinsert d0 st.id c h)

/-- The key list of the in-degree dict enumerates exactly the distinct
step ids, so its length is `(stepIds steps).card`. -/
theorem degDict_keys (steps : List StepDef) :
    (dkeys (steps.foldl (fun d s => dinsert d s.id (0 : Int)) [])).Nodup ∧
    (∀ k, k ∈ dkeys (steps.foldl (fun d s => dinsert d s.id (0 : Int)) []) ↔
      k ∈ stepIds steps) ∧
    (steps.foldl (fun d s => dinsert d s.id (0 : Int)) []).length =
      (stepIds steps).card := by
  have hnodup := dkeys_foldl_nodup (0 : Int) steps [] (by simp [dkeys])
  have hmem : ∀ k,
      k ∈ dkeys (steps.foldl (fun d s => dinsert d s.id (0 : Int)) []) ↔
        k ∈ stepIds steps := by
    intro k
    rw [mem_dkeys_iff_isSome, dlookup_idFold]
    by_cases h : k ∈ stepIds steps <;> simp [h, dlookup]
  refine ⟨hnodup, hmem, ?_⟩
  have hlen : (steps.foldl (fun d s => dinsert d s.id (0 : Int)) []).length =
      (dkeys (steps.foldl (fun d s => dinsert d s.id (0 : Int)) [])).length := by
    simp [dkeys]
  rw [hlen]
  have : (dkeys (steps.foldl (fun d s => dinsert d s.id (0 : Int)) [])).toFinset =
      stepIds steps := by
    ext k
    rw [List.mem_toFinset]
    exact hmem k
  calc (dkeys (steps.foldl (fun d s => dinsert d s.id (0 : Int)) [])).length
      = (dkeys (steps.foldl (fun d s => dinsert d s.id (0 : Int)) [])).toFinset.card :=
        (List.toFinset_card_of_nodup hnodup).symm
    _ = (stepIds steps).card := by rw [this]

/-- The edge pass of `buildKahn` only updates existing in-degree keys,
so the key list — and hence the dict length — is unchanged. -/
theorem buildKahn_deg_keys (steps : List StepDef) :
    dkeys (buildKahn steps).2 =
      dkeys (steps.foldl (fun d s => dinsert d s.id (0 : Int)) []) := by
  unfold buildKahn
  set deg0 := steps.foldl (fun d s => dinsert d s.id (0 : Int)) [] with hdeg0
  have hclosed : ∀ st ∈ steps, st.id ∈ dkeys deg0 := by
    intro st hst
    rw [mem_dkeys_iff_isSome, hdeg0, dlookup_idFold]
    rw [if_pos (by simp [stepIds, List.mem_toFinset, List.mem_map]; exact ⟨st, hst, rfl⟩)]
    rfl
  have main : ∀ (toProcess : List StepDef)
      (acc : List (String × List String) × List (String × Int)),
      (∀ st ∈ toProcess, st ∈ steps) →
      dkeys acc.2 = dkeys deg0 →
      dkeys (toProcess.foldl
        (fun acc step =>
          step.dependencies.foldl
            (fun (acc : List (String × List String) × List (String × Int)) dep =>
              (dinsert acc.1 dep (((dlookup acc.1 dep).getD []) ++ [step.id]),
               dinsert acc.2 step.id (((dlookup acc.2 step.id).getD 0) + 1)))
            acc)
        acc).2 = dkeys deg0 := by
    intro toProcess
    induction toProcess with
    | nil => intro acc _ hacc; exact hacc
    | cons st rest ih =>
        intro acc hsteps hacc
        rw [List.foldl_cons]
        refine ih _ (fun st' h' => hsteps st' (by simp [h'])) ?_
        have hid : st.id ∈ dkeys deg0 := hclosed st (hsteps st (by simp))
        clear ih hclosed
        induction st.dependencies generalizing acc with
        | nil => exact hacc
        | cons dep deps ihd =>
            rw [List.foldl_cons]
            refine ihd _ ?_
            rw [dkeys_dinsert, if_pos (by rw [hacc]; exact hid)]
            exact hacc
  exact main steps _ (fun _ h => h) rfl

theorem posCount_cons (kv : String × Int) (rest : List (String × Int)) :
    posCount (kv :: rest) =
      (if 0 < kv.2 then 1 else 0) + posCount rest := by
  by_cases h : 0 < kv.2 <;>
    simp [posCount, List.filter_cons, h] <;> omega

theorem posCount_dinsert (d : List (String × Int)) (k : String) (v : Int) :
    posCount (dinsert d k v) +
        (if 0 < (dlookup d k).getD 0 then 1 else 0) =
      posCount d + (if 0 < v then 1 else 0) := by
  induction d with
  | nil =>
      by_cases h : 0 < v <;>
        simp [dinsert, dlookup, posCount, List.filter_cons, h]
  | cons kv rest ih =>
      by_cases h : kv.1 = k
      · have h1 : dinsert (kv :: rest) k v = (kv.1, v) :: rest := by
          simp [dinsert, h]
        have h2 : dlookup (kv :: rest) k = some kv.2 := by
          simp [dlookup, h]
        rw [h1, h2, posCount_cons, posCount_cons]
        simp only [Option.getD_some]
        omega
      · have h1 : dinsert (kv :: rest) k v = kv :: dinsert rest k v := by
          simp [dinsert, h]
        have h2 : dlookup (kv :: rest) k = dlookup rest k := by
          simp [dlookup, h]
        rw [h1, h2, posCount_cons, posCount_cons]
        omega

theorem kahnExpand_phi (l : List String) :
    ∀ (deg : List (String × Int)) (pushes : List String),
      (kahnExpand deg pushes l).2.length +
          posCount (kahnExpand deg pushes l).1 ≤
        pushes.length + posCount deg := by
  induction l with
  | nil => intro deg pushes; simp [kahnExpand]
  | cons dep t ih =>
      intro deg pushes
      have hins := posCount_dinsert deg dep (((dlookup deg dep).getD 0) - 1)
      by_cases hz : ((dlookup deg dep).getD 0) - 1 = 0
      · have h1 := ih (dinsert deg dep (((dlookup deg dep).getD 0) - 1))
          (pushes ++ [dep])
        have e2 : (if 0 < (dlookup deg dep).getD 0 then (1 : Nat) else 0)
            = 1 := if_pos (by omega)
        have e3 : (if 0 < ((dlookup deg dep).getD 0) - 1 then (1 : Nat)
            else 0) = 0 := if_neg (by omega)
        rw [e2, e3, hz] at hins
        simp only [kahnExpand, List.foldl_cons, hz, if_pos] at h1 ⊢
        simp only [List.length_append, List.length_cons,
          List.length_nil] at h1 ⊢
        omega
      · have h1 := ih (dinsert deg dep (((dlookup deg dep).getD 0) - 1)) pushes
        have e3 : (if 0 < ((dlookup deg dep).getD 0) - 1 then (1 : Nat)
            else 0) ≤
            (if 0 < (dlookup deg dep).getD 0 then (1 : Nat) else 0) := by
          by_cases hv : (0 : Int) < ((dlookup deg dep).getD 0) - 1
          · rw [if_pos hv, if_pos (by omega)]
          · rw [if_neg hv]; omega
        simp only [kahnExpand, List.foldl_cons, hz, if_neg,
          if_false] at h1 ⊢
        omega

theorem kahnLoop_phi (dependents : List (String × List String))
    (deg : List (String × Int)) (queue : List String) (count : Nat) :
    kahnLoop dependents deg queue count ≤
      count + queue.length + posCount deg := by
  induction deg, queue, count using kahnLoop.induct dependents with
  | case1 deg count => simp [kahnLoop]
  | case2 deg node rest count l dq =>
      rename_i ih
      have hl : l = (dlookup dependents node).getD [] := rfl
      have hdq : dq = kahnExpand deg rest l := rfl
      rw [kahnLoop]
      have hexp := kahnExpand_phi ((dlookup dependents node).getD []) deg rest
      rw [hl] at hdq
      rw [hdq] at ih
      simp only [List.length_cons]
      omega

theorem zeroPos_le_length (d : List (String × Int)) :
    (d.filter fun kv => decide (kv.2 = 0)).length + posCount d ≤ d.length := by
  induction d with
  | nil => simp [posCount]
  | cons kv rest ih =>
      rw [posCount_cons, List.filter_cons]
      by_cases h0 : kv.2 = 0
      · rw [if_pos (by simp [h0])]
        simp only [List.length_cons, h0, show ¬((0 : Int) < 0) by omega,
          if_false]
        omega
      · rw [if_neg (by simp [h0])]
        simp only [List.length_cons]
        by_cases hp : 0 < kv.2 <;> simp only [hp, if_pos, if_neg, if_true,
          if_false] <;> omega

/-- A passing validation implies the step ids are pairwise distinct:
Kahn's count is bounded by the number of distinct ids, so
`count ≥ len(steps)` forces all ids distinct. -/
theorem validate_ok_nodup (steps : List StepDef) :
    validate_dag steps = .ok () → (steps.map StepDef.id).Nodup := by
  intro hok
  unfold validate_dag at hok
  cases hfm : findMissing steps with
  | some sd => rw [hfm] at hok; exact absurd hok (by simp)
  | none =>
      rw [hfm] at hok
      simp only [] at hok
      by_cases hlt : kahnLoop (buildKahn steps).1 (buildKahn steps).2
          (((buildKahn steps).2.filter fun kv => decide (kv.2 = 0)).map
            fun kv => kv.1) 0 < steps.length
      · rw [if_pos hlt] at hok; exact absurd hok (by simp)
      · have hphi := kahnLoop_phi (buildKahn steps).1 (buildKahn steps).2
          (((buildKahn steps).2.filter fun kv => decide (kv.2 = 0)).map
            fun kv => kv.1) 0
        have hzp := zeroPos_le_length (buildKahn steps).2
        have hlen : ((((buildKahn steps).2.filter fun kv =>
            decide (kv.2 = 0)).map fun kv => kv.1)).length =
            ((buildKahn steps).2.filter fun kv =>
              decide (kv.2 = 0)).length := List.length_map _ _
        have hdk : ((buildKahn steps).2).length = (stepIds steps).card := by
          have h1 : (dkeys (buildKahn steps).2).length =
              (dkeys (steps.foldl
                (fun d s => dinsert d s.id (0 : Int)) [])).length := by
            rw [buildKahn_deg_keys]
          simp only [dkeys, List.length_map] at h1
          rw [h1]
          exact (degDict_keys steps).2.2
        have hcard : (stepIds steps).card ≤ steps.length := by
          calc (stepIds steps).card ≤ (steps.map StepDef.id).length :=
                List.toFinset_card_le _
            _ = steps.length := List.length_map _ _
        have hge : steps.length ≤ (stepIds steps).card := by omega
        have heq : (stepIds steps).card = (steps.map StepDef.id).length := by
          rw [List.length_map]; omega
        have hdedup : (steps.map StepDef.id).dedup.length =
            (steps.map StepDef.id).length := by
          rw [← List.card_toFinset]; exact heq
        have := List.Sublist.eq_of_length (List.dedup_sublist _) hdedup
        exact List.dedup_eq_self.mp this

/-- A passing validation implies every referenced dependency exists. -/
theorem validate_ok_refs (steps : List StepDef) :
    validate_dag steps = .ok () →
      ∀ st ∈ steps, ∀ dep ∈ st.dependencies, dep ∈ stepIds steps := by
  intro hok st hst dep hdep
  unfold validate_dag at hok
  cases hfm : findMissing steps with
  | some sd => rw [hfm] at hok; exact absurd hok (by simp)
  | none =>
      have hall : ∀ x ∈ steps, ∀ d ∈ x.dependencies, d ∈ stepIds steps := by
        simpa [findMissing] using hfm
      exact hall st hst dep hdep

/-! ## Finalization invariant (run bookkeeping)

The controller's three result sets are tracked against the loop
invariant below: each set stays inside the playbook's ids, the sets
are pairwise disjoint, also from the running list, and every step that
was ever launched had all dependencies completed at launch time.  The
last component is what makes the failure cascade safe: no transitive
dependent of a newly failed step can already be completed, failed or
running. -/

structure LoopInv (steps : List StepDef) (st : OrchState) : Prop where
  compSub : st.completed ⊆ stepIds steps
  failSub : st.failed ⊆ stepIds steps
  skipSub : st.skipped ⊆ stepIds steps
  runSub : ∀ x ∈ st.running, x ∈ stepIds steps
  runNodup : st.running.Nodup
  compFail : Disjoint st.completed st.failed
  compSkip : Disjoint st.completed st.skipped
  failSkip : Disjoint st.failed st.skipped
  runDisj : ∀ x ∈ st.running,
    x ∉ st.completed ∧ x ∉ st.failed ∧ x ∉ st.skipped
  launched : ∀ stp ∈ steps,
    (stp.id ∈ st.completed ∨ stp.id ∈ st.failed ∨ stp.id ∈ st.running) →
    ∀ d ∈ stp.dependencies, d ∈ st.completed

/-- Walking a dependency chain backwards from any step that was ever
launched lands every ancestor in `completed`; a chain that starts at a
step not in `completed` therefore cannot reach any launched step. -/
theorem no_reach_of_launched (steps : List StepDef) (C F : Finset String)
    (R : List String) (f : String)
    (P : ∀ stp ∈ steps,
      (stp.id ∈ C ∨ stp.id ∈ F ∨ stp.id ∈ R) →
      ∀ d ∈ stp.dependencies, d ∈ C)
    (hf : f ∉ C) :
    ∀ y, Relation.TransGen (enablesEdge steps) f y →
      ¬(y ∈ C ∨ y ∈ F ∨ y ∈ R) := by
  intro y hty
  induction hty with
  | single h =>
      intro hy
      rcases h with ⟨st, hst, hid, hdep⟩
      exact hf (P st hst (by rw [hid]; exact hy) f hdep)
  | tail h1 h2 ih =>
      intro hy
      rcases h2 with ⟨st, hst, hid, hdep⟩
      exact ih (Or.inl (P st hst (by rw [hid]; exact hy) _ hdep))

/-- The target of an `enablesEdge` chain is a declared step id. -/
theorem transGen_enables_target (steps : List StepDef) {a b : String}
    (h : Relation.TransGen (enablesEdge steps) a b) : b ∈ stepIds steps := by
  induction h with
  | single h =>
      rcases h with ⟨st, hst, hid, _⟩
      rw [← hid]
      simp [stepIds, List.mem_toFinset, List.mem_map]
      exact ⟨st, hst, rfl⟩
  | tail _ h2 _ =>
      rcases h2 with ⟨st, hst, hid, _⟩
      rw [← hid]
      simp [stepIds, List.mem_toFinset, List.mem_map]
      exact ⟨st, hst, rfl⟩

/-- Lookup in the orchestrator's `step_map` succeeds for declared ids. -/
theorem dlookup_stepFold (steps : List StepDef) :
    ∀ (d0 : List (String × StepDef)) (k : String),
      k ∈ stepIds steps ∨ (dlookup d0 k).isSome →
      (dlookup (steps.foldl (fun d s => dinsert d s.id s) d0) k).isSome := by
  induction steps with
  | nil =>
      intro d0 k h
      rcases h with h | h
      · simp [stepIds] at h
      · simpa using h
  | cons st rest ih =>
      intro d0 k h
      rw [List.foldl_cons]
      refine ih _ k ?_
      rcases h with h | h
      · rcases (mem_stepIds_cons st rest k).mp h with h1 | h1
        · right
          rw [dlookup_dinsert, if_pos h1]
          rfl
        · exact Or.inl h1
      · right
        rw [dlookup_dinsert]
        by_cases hk : k = st.id
        · rw [if_pos hk]; rfl
        · rw [if_neg hk]; exact h

/-- The launch pass preserves the loop invariant whenever it returns
normally: on an empty ready list it returns the state unchanged, and
on a nonempty one the missing-`pvc_name` `TypeError` (or the image
resolution error) means it never returns `.ok` at all. -/
theorem launchFold_inv (steps : List StepDef)
    (orgId runId registry : String) (total : Nat)
    (hnd : (steps.map StepDef.id).Nodup) :
    ∀ (l : List StepDef) (st : OrchState) (tr : List Effect)
      (st' : OrchState) (tr' : List Effect),
      (l.map StepDef.id).Nodup →
      (∀ s ∈ l, s ∈ steps ∧ (∀ d ∈ s.dependencies, d ∈ st.completed) ∧
        s.id ∉ st.completed ∧ s.id ∉ st.failed ∧ s.id ∉ st.skipped ∧
        s.id ∉ st.running) →
      LoopInv steps st →
      launchFold orgId runId registry total l st tr = .ok (st', tr') →
      LoopInv steps st' := by
  intro l
  induction l with
  | nil =>
      intro st tr st' tr' _ _ hinv hrun
      simp only [launchFold, Except.ok.injEq, Prod.mk.injEq] at hrun
      rw [← hrun.1]
      exact hinv
  | cons step rest ih =>
      intro st tr st' tr' hln hl hinv hrun
      have hstep := hl step (List.mem_cons_self step rest)
      obtain ⟨hmem, hdeps, hnc, hnf, hns, hnr⟩ := hstep
      simp only [launchFold] at hrun
      cases himg : resolve_image step.agentImage registry with
      | error e => rw [himg] at hrun; exact absurd hrun (by simp)
      | ok image =>
          rw [himg] at hrun
          simp [create_step_job_call] at hrun

/-- `resolve_image` fails only with a `ValueError`. -/
theorem resolve_image_error (a r : String) (e : PyErr)
    (h : resolve_image a r = .error e) : ∃ m, e = PyErr.valueError m := by
  unfold resolve_image at h
  by_cases h1 : a.toList.contains '/' = true
  · rw [if_pos h1] at h
    exact absurd h (by simp)
  · rw [if_neg h1] at h
    by_cases h2 : r = ""
    · rw [if_pos h2] at h
      injection h with h3
      exact ⟨_, h3.symm⟩
    · rw [if_neg h2] at h
      exact absurd h (by simp)

/-- Shape of a launch-pass failure on a nonempty ready list: the image
resolution `ValueError` or the missing-`pvc_name` `TypeError` from the
`create_step_job(...)` call. -/
theorem launchFold_error_shape (orgId runId registry : String)
    (total : Nat) (step : StepDef) (rest : List StepDef) (st : OrchState)
    (tr tr2 : List Effect) (e : PyErr)
    (h : launchFold orgId runId registry total (step :: rest) st tr =
      .error (e, tr2)) :
    e = .typeError
        "create_step_job() missing 1 required positional argument: 'pvc_name'" ∨
      ∃ m, e = PyErr.valueError m := by
  simp only [launchFold] at h
  cases himg : resolve_image step.agentImage registry with
  | error e2 =>
      rw [himg] at h
      simp only [] at h
      obtain ⟨m, hm⟩ := resolve_image_error _ _ _ himg
      injection h with h3
      exact Or.inr ⟨m, (congrArg Prod.fst h3).symm.trans hm⟩
  | ok image =>
      rw [himg] at h
      simp only [] at h
      rw [show create_step_job_call
          { run_id := some runId, step_id := some step.id,
            image := some image, org_id := some orgId,
            timeout_minutes := some step.timeoutMinutes } =
          Except.error (.typeError
            "create_step_job() missing 1 required positional argument: 'pvc_name'")
        from rfl] at h
      simp only [] at h
      injection h with h3
      exact Or.inl (congrArg Prod.fst h3).symm

/-- On a nonempty ready list the launch pass never returns normally:
`create_step_job` is called without `pvc_name` (and image resolution
may fail first). -/
theorem launchFold_ne_ok (orgId runId registry : String) (total : Nat)
    (step : StepDef) (rest : List StepDef) (st st' : OrchState)
    (tr tr' : List Effect) :
    launchFold orgId runId registry total (step :: rest) st tr ≠
      .ok (st', tr') := by
  intro h
  simp only [launchFold] at h
  cases himg : resolve_image step.agentImage registry with
  | error e =>
      rw [himg] at h
      simp at h
  | ok image =>
      rw [himg] at h
      simp only [] at h
      rw [show create_step_job_call
          { run_id := some runId, step_id := some step.id,
            image := some image, org_id := some orgId,
            timeout_minutes := some step.timeoutMinutes } =
          Except.error (.typeError
            "create_step_job() missing 1 required positional argument: 'pvc_name'")
        from rfl] at h
      simp at h

/-- Any loop iteration whose ready list is nonempty raises out of the
launch pass. -/
theorem orchLoop_raises (steps : List StepDef)
    (orgId runId registry : String) (oracle : Nat → String → PollOutcome)
    (report : String → Option String) (f iter : Nat) (st : OrchState)
    (tr : List Effect)
    (hready : get_ready_steps steps st.completed (st.failed ∪ st.skipped)
      st.running.toFinset ≠ []) :
    ∃ e tr2, orchLoop steps orgId runId registry oracle report (f + 1)
        iter st tr = .raised e tr2 ∧
      (e = .typeError
          "create_step_job() missing 1 required positional argument: 'pvc_name'" ∨
        ∃ m, e = PyErr.valueError m) := by
  simp only [orchLoop]
  cases hr : get_ready_steps steps st.completed (st.failed ∪ st.skipped)
      st.running.toFinset with
  | nil => exact absurd hr hready
  | cons step rest =>
      split
      · rename_i e t heq
        exact ⟨e, t, rfl, launchFold_error_shape _ _ _ _ _ _ _ _ _ _ heq⟩
      · rename_i st1 t1 heq
        exact absurd heq (launchFold_ne_ok _ _ _ _ _ _ _ _ _ _)

/-- Every nonempty acyclic playbook with valid references has a step
with no dependencies (a source of the dependency graph), so the first
scheduling iteration has a nonempty ready list. -/
theorem exists_no_deps (steps : List StepDef) (hne : steps ≠ [])
    (hrefs : ∀ st ∈ steps, ∀ d ∈ st.dependencies, d ∈ stepIds steps)
    (hacyc : ¬ HasCycle steps) :
    ∃ st ∈ steps, st.dependencies = [] := by
  classical
  have hnotg : ∀ a, ¬ Relation.TransGen (depEdge steps) a a := by
    intro a ha
    exact hacyc ((hasCycle_iff_transGen_self steps).mpr ⟨a, ha⟩)
  have hmono : ∀ k d, k ∈ stepIds steps → depEdge steps k d →
      ((stepIds steps).filter
        (fun y => Relation.ReflTransGen (depEdge steps) d y)).card <
      ((stepIds steps).filter
        (fun y => Relation.ReflTransGen (depEdge steps) k y)).card := by
    intro k d hkmem hkd
    refine Finset.card_lt_card
      ((Finset.ssubset_iff_of_subset ?_).mpr ⟨k, ?_, ?_⟩)
    · intro y hy
      obtain ⟨hy1, hy2⟩ := Finset.mem_filter.mp hy
      exact Finset.mem_filter.mpr ⟨hy1,
        Relation.ReflTransGen.head hkd hy2⟩
    · exact Finset.mem_filter.mpr ⟨hkmem, Relation.ReflTransGen.refl⟩
    · intro hk
      obtain ⟨_, hreach⟩ := Finset.mem_filter.mp hk
      rcases Relation.reflTransGen_iff_eq_or_transGen.mp hreach with he | ht
      · rw [he] at hkd
        exact hnotg d (Relation.TransGen.single hkd)
      · exact hnotg k (Relation.TransGen.head hkd ht)
  have main : ∀ n (st : StepDef), st ∈ steps →
      ((stepIds steps).filter
        (fun y => Relation.ReflTransGen (depEdge steps) st.id y)).card ≤ n →
      ∃ st2 ∈ steps, st2.dependencies = [] := by
    intro n
    induction n with
    | zero =>
        intro st hst hm
        have hmem : st.id ∈ (stepIds steps).filter
            (fun y => Relation.ReflTransGen (depEdge steps) st.id y) := by
          refine Finset.mem_filter.mpr ⟨?_, Relation.ReflTransGen.refl⟩
          simp [stepIds, List.mem_toFinset, List.mem_map]
          exact ⟨st, hst, rfl⟩
        have := Finset.card_pos.mpr ⟨st.id, hmem⟩
        omega
    | succ n ihn =>
        intro st hst hm
        cases hdeps : st.dependencies with
        | nil => exact ⟨st, hst, hdeps⟩
        | cons d ds =>
            have hd : d ∈ st.dependencies := by
              rw [hdeps]
              exact List.mem_cons_self d ds
            have hedge : depEdge steps st.id d := ⟨st, hst, rfl, hd⟩
            have hdid : d ∈ stepIds steps := hrefs st hst d hd
            have hidmem : st.id ∈ stepIds steps := by
              simp [stepIds, List.mem_toFinset, List.mem_map]
              exact ⟨st, hst, rfl⟩
            obtain ⟨st2, hst2, hid2⟩ : ∃ st2, st2 ∈ steps ∧ st2.id = d := by
              simpa [stepIds, List.mem_toFinset, List.mem_map] using hdid
            have hlt := hmono st.id d hidmem hedge
            refine ihn st2 hst2 ?_
            rw [hid2]
            omega
  obtain ⟨st, hst⟩ : ∃ st, st ∈ steps := by
    cases steps with
    | nil => exact absurd rfl hne
    | cons a l => exact ⟨a, List.mem_cons_self a l⟩
  exact main _ st hst (le_refl _)

/-- The failure cascade always succeeds under valid references, and
every newly skipped step is a strict transitive dependent of the
failed step that was in none of the exclusion sets. -/
theorem skip_inv (steps : List StepDef) (f : String)
    (S C : Finset String) (R : List String)
    (hrefs : ∀ st ∈ steps, ∀ d ∈ st.dependencies, d ∈ stepIds steps) :
    ∃ ns tr, skip_transitive_dependents f steps S C R = .ok (ns, tr) ∧
      ∀ y ∈ ns, Relation.TransGen (enablesEdge steps) f y ∧
        y ∉ C ∧ y ∉ R ∧ y ∉ S ∧ y ∈ stepIds steps := by
  obtain ⟨Rset, hok, hchar⟩ := get_transitive_dependents_mem steps f hrefs
  refine ⟨Rset \ (C ∪ R.toFinset ∪ S),
    ((Rset \ (C ∪ R.toFinset ∪ S)).sort (· ≤ ·)).flatMap fun skipId =>
      [.updateStepStatus skipId "skipped" none none none,
       .writeEvent "progress" (some skipId)
         (.progressP
           ("Step skipped (dependency '" ++ f ++ "' failed)"))],
    ?_, ?_⟩
  · simp [skip_transitive_dependents, hok, Except.map]
  · intro y hy
    rw [Finset.mem_sdiff, Finset.mem_union, Finset.mem_union] at hy
    push_neg at hy
    obtain ⟨hyR, ⟨hyC, hyRun⟩, hyS⟩ := hy
    have ht := (hchar y).mp hyR
    exact ⟨ht, hyC, fun h => hyRun (List.mem_toFinset.mpr h), hyS,
      transGen_enables_target steps ht⟩

/-- Moving a running step to `failed` and cascade-skipping its
transitive dependents preserves the loop invariant. -/
theorem failMove_inv (steps : List StepDef) (st : OrchState)
    (stepId : String) (ns : Finset String)
    (hinv : LoopInv steps st) (hR : stepId ∈ st.running)
    (hns : ∀ y ∈ ns, Relation.TransGen (enablesEdge steps) stepId y ∧
      y ∉ st.completed ∧ y ∉ st.running.erase stepId ∧ y ∉ st.skipped ∧
      y ∈ stepIds steps) :
    LoopInv steps ⟨st.completed, insert stepId st.failed,
      st.skipped ∪ ns, st.running.erase stepId, st.pausedNotified⟩ := by
  have hdisj := hinv.runDisj stepId hR
  have hP : ∀ stp ∈ steps,
      (stp.id ∈ st.completed ∨ stp.id ∈ insert stepId st.failed ∨
        stp.id ∈ st.running.erase stepId) →
      ∀ d ∈ stp.dependencies, d ∈ st.completed := by
    intro stp hstp h
    rcases h with h | h | h
    · exact hinv.launched stp hstp (Or.inl h)
    · rcases Finset.mem_insert.mp h with h | h
      · exact hinv.launched stp hstp (Or.inr (Or.inr (h ▸ hR)))
      · exact hinv.launched stp hstp (Or.inr (Or.inl h))
    · exact hinv.launched stp hstp
        (Or.inr (Or.inr (List.mem_of_mem_erase h)))
  have hnoreach := no_reach_of_launched steps st.completed
    (insert stepId st.failed) (st.running.erase stepId) stepId hP hdisj.1
  refine ⟨hinv.compSub, ?_, ?_, ?_, hinv.runNodup.erase stepId,
    ?_, ?_, ?_, ?_, ?_⟩
  · exact Finset.insert_subset (hinv.runSub stepId hR) hinv.failSub
  · exact Finset.union_subset hinv.skipSub fun y hy => (hns y hy).2.2.2.2
  · exact fun x hx => hinv.runSub x (List.mem_of_mem_erase hx)
  · exact Finset.disjoint_insert_right.mpr ⟨hdisj.1, hinv.compFail⟩
  · exact Finset.disjoint_union_right.mpr ⟨hinv.compSkip,
      Finset.disjoint_right.mpr fun y hy => (hns y hy).2.1⟩
  · refine Finset.disjoint_union_right.mpr
      ⟨Finset.disjoint_insert_left.mpr ⟨hdisj.2.2, hinv.failSkip⟩, ?_⟩
    exact Finset.disjoint_right.mpr fun y hy hyF =>
      hnoreach y (hns y hy).1 (Or.inr (Or.inl hyF))
  · intro x hx
    obtain ⟨hne, hxr⟩ := (hinv.runNodup.mem_erase_iff).mp hx
    have hd := hinv.runDisj x hxr
    refine ⟨hd.1, ?_, ?_⟩
    · intro h
      rcases Finset.mem_insert.mp h with h | h
      · exact hne h
      · exact hd.2.1 h
    · intro h
      rcases Finset.mem_union.mp h with h | h
      · exact hd.2.2 h
      · exact (hns x h).2.2.1 hx
  · exact hP

/-- Moving a running step to `completed` preserves the loop invariant. -/
theorem compMove_inv (steps : List StepDef) (st : OrchState)
    (stepId : String) (hinv : LoopInv steps st) (hR : stepId ∈ st.running) :
    LoopInv steps ⟨insert stepId st.completed, st.failed,
      st.skipped, st.running.erase stepId, st.pausedNotified⟩ := by
  have hdisj := hinv.runDisj stepId hR
  refine ⟨?_, hinv.failSub, hinv.skipSub, ?_, hinv.runNodup.erase stepId,
    ?_, ?_, hinv.failSkip, ?_, ?_⟩
  · exact Finset.insert_subset (hinv.runSub stepId hR) hinv.compSub
  · exact fun x hx => hinv.runSub x (List.mem_of_mem_erase hx)
  · exact Finset.disjoint_insert_left.mpr ⟨hdisj.2.1, hinv.compFail⟩
  · exact Finset.disjoint_insert_left.mpr ⟨hdisj.2.2, hinv.compSkip⟩
  · intro x hx
    obtain ⟨hne, hxr⟩ := (hinv.runNodup.mem_erase_iff).mp hx
    have hd := hinv.runDisj x hxr
    refine ⟨?_, hd.2.1, hd.2.2⟩
    intro h
    rcases Finset.mem_insert.mp h with h | h
    · exact hne h
    · exact hd.1 h
  · intro stp hstp h d hd
    refine Finset.mem_insert_of_mem ?_
    rcases h with h | h | h
    · rcases Finset.mem_insert.mp h with h | h
      · exact hinv.launched stp hstp (Or.inr (Or.inr (h ▸ hR))) d hd
      · exact hinv.launched stp hstp (Or.inl h) d hd
    · exact hinv.launched stp hstp (Or.inr (Or.inl h)) d hd
    · exact hinv.launched stp hstp
        (Or.inr (Or.inr (List.mem_of_mem_erase h))) d hd

/-- Moving a running step to `skipped` preserves the loop invariant. -/
theorem skipMove_inv (steps : List StepDef) (st : OrchState)
    (stepId : String) (hinv : LoopInv steps st) (hR : stepId ∈ st.running) :
    LoopInv steps ⟨st.completed, st.failed,
      insert stepId st.skipped, st.running.erase stepId,
      st.pausedNotified⟩ := by
  have hdisj := hinv.runDisj stepId hR
  refine ⟨hinv.compSub, hinv.failSub, ?_, ?_, hinv.runNodup.erase stepId,
    hinv.compFail, ?_, ?_, ?_, ?_⟩
  · exact Finset.insert_subset (hinv.runSub stepId hR) hinv.skipSub
  · exact fun x hx => hinv.runSub x (List.mem_of_mem_erase hx)
  · exact Finset.disjoint_insert_right.mpr ⟨hdisj.1, hinv.compSkip⟩
  · exact Finset.disjoint_insert_right.mpr ⟨hdisj.2.1, hinv.failSkip⟩
  · intro x hx
    obtain ⟨hne, hxr⟩ := (hinv.runNodup.mem_erase_iff).mp hx
    have hd := hinv.runDisj x hxr
    refine ⟨hd.1, hd.2.1, ?_⟩
    intro h
    rcases Finset.mem_insert.mp h with h | h
    · exact hne h
    · exact hd.2.2 h
  · intro stp hstp h d hd
    rcases h with h | h | h
    · exact hinv.launched stp hstp (Or.inl h) d hd
    · exact hinv.launched stp hstp (Or.inr (Or.inl h)) d hd
    · exact hinv.launched stp hstp
        (Or.inr (Or.inr (List.mem_of_mem_erase h))) d hd

/-- The poll pass preserves the loop invariant for any snapshot of
distinct running step ids. -/
theorem pollFold_inv (steps : List StepDef) (orgId runId : String)
    (oracle : String → PollOutcome) (report : String → Option String)
    (hrefs : ∀ stp ∈ steps, ∀ d ∈ stp.dependencies, d ∈ stepIds steps) :
    ∀ (snap : List String) (st : OrchState) (tr : List Effect)
      (st' : OrchState) (tr' : List Effect),
      snap.Nodup → (∀ x ∈ snap, x ∈ st.running) →
      LoopInv steps st →
      pollFold steps orgId runId oracle report snap st tr = .ok (st', tr') →
      LoopInv steps st' := by
  intro snap
  induction snap with
  | nil =>
      intro st tr st' tr' _ _ hinv hrun
      simp only [pollFold, Except.ok.injEq, Prod.mk.injEq] at hrun
      rw [← hrun.1]
      exact hinv
  | cons stepId rest ih =>
      intro st tr st' tr' hnodup hsnap hinv hrun
      have hRmem : stepId ∈ st.running :=
        hsnap stepId (List.mem_cons_self stepId rest)
      have hne : stepId ∉ rest := (List.nodup_cons.mp hnodup).1
      have hrestN : rest.Nodup := (List.nodup_cons.mp hnodup).2
      have hrestE : ∀ x ∈ rest, x ∈ st.running.erase stepId := by
        intro x hx
        exact (hinv.runNodup.mem_erase_iff).mpr
          ⟨fun h => hne (h ▸ hx), hsnap x (List.mem_cons_of_mem _ hx)⟩
      have hsome := dlookup_stepFold steps [] stepId
        (Or.inl (hinv.runSub stepId hRmem))
      obtain ⟨step, hstep⟩ := Option.isSome_iff_exists.mp hsome
      simp only [pollFold] at hrun
      rw [hstep] at hrun
      cases horc : oracle stepId with
      | timeout =>
          rw [horc] at hrun
          obtain ⟨ns, str, hok, hns⟩ := skip_inv steps stepId st.skipped
            st.completed (st.running.erase stepId) hrefs
          rw [hok] at hrun
          exact ih _ _ _ _ hrestN hrestE
            (failMove_inv steps st stepId ns hinv hRmem hns) hrun
      | status s =>
          rw [horc] at hrun
          simp only [] at hrun
          by_cases hterm : s = some "completed" ∨ s = some "failed" ∨
              s = some "skipped"
          · rw [if_pos hterm] at hrun
            rcases hterm with h | h | h
            · subst h
              simp only [Option.getD_some, reduceIte] at hrun
              exact ih _ _ _ _ hrestN hrestE
                (compMove_inv steps st stepId hinv hRmem) hrun
            · subst h
              simp only [Option.getD_some, reduceIte] at hrun
              obtain ⟨ns, str, hok, hns⟩ := skip_inv steps stepId st.skipped
                st.completed (st.running.erase stepId) hrefs
              rw [hok] at hrun
              exact ih _ _ _ _ hrestN hrestE
                (failMove_inv steps st stepId ns hinv hRmem hns) hrun
            · subst h
              simp only [Option.getD_some, reduceIte] at hrun
              exact ih _ _ _ _ hrestN hrestE
                (skipMove_inv steps st stepId hinv hRmem) hrun
          · rw [if_neg hterm] at hrun
            refine ih ⟨st.completed, st.failed, st.skipped, st.running,
                (pauseNotifyEffects stepId s st.pausedNotified).1⟩
              _ _ _ hrestN
              (fun x hx => hsnap x (List.mem_cons_of_mem _ hx)) ?_ hrun
            exact ⟨hinv.compSub, hinv.failSub, hinv.skipSub, hinv.runSub,
              hinv.runNodup, hinv.compFail, hinv.compSkip, hinv.failSkip,
              hinv.runDisj, hinv.launched⟩

/-- Ready lists never repeat an id when the playbook's ids are
distinct. -/
theorem get_ready_steps_nodup (steps : List StepDef)
    (hnd : (steps.map StepDef.id).Nodup) (c f r : Finset String) :
    ((get_ready_steps steps c f r).map StepDef.id).Nodup := by
  unfold get_ready_steps
  have hperm :
      List.Perm ((List.filter
          (fun step => decide (step.id ∉ c ∪ f ∪ r) &&
            step.dependencies.all fun dep => decide (dep ∈ c)) steps).mergeSort
            fun a b => a.order ≤ b.order)
        (List.filter
          (fun step => decide (step.id ∉ c ∪ f ∪ r) &&
            step.dependencies.all fun dep => decide (dep ∈ c)) steps) :=
    List.mergeSort_perm _ _
  refine ((hperm.map StepDef.id).nodup_iff).mpr ?_
  exact ((List.filter_sublist steps).map StepDef.id).nodup hnd

/-- Whenever the scheduling loop exits, the bookkeeping sets cover the
playbook's step ids exactly and are pairwise disjoint. -/
theorem orchLoop_exit (steps : List StepDef)
    (orgId runId registry : String) (oracle : Nat → String → PollOutcome)
    (report : String → Option String)
    (hnd : (steps.map StepDef.id).Nodup)
    (hrefs : ∀ stp ∈ steps, ∀ d ∈ stp.dependencies, d ∈ stepIds steps)
    (st' : OrchState) (tr' : List Effect) :
    ∀ (fuel iter : Nat) (st : OrchState) (tr : List Effect),
      LoopInv steps st →
      orchLoop steps orgId runId registry oracle report fuel iter st tr =
        .exited st' tr' →
      st'.completed ∪ st'.failed ∪ st'.skipped = stepIds steps ∧
      Disjoint st'.completed st'.failed ∧
      Disjoint st'.completed st'.skipped ∧
      Disjoint st'.failed st'.skipped := by
  intro fuel iter st tr
  induction fuel, iter, st, tr using orchLoop.induct steps orgId runId
      registry oracle report with
  | case1 iter st tr =>
      intro _ hrun
      exact absurd hrun (by simp [orchLoop])
  | case2 fuel iter st0 tr0 ready tr1 e trE hlf =>
      intro _ hrun
      simp only [orchLoop] at hrun
      rw [hlf] at hrun
      exact absurd hrun (by simp)
  | case3 fuel iter st0 tr0 ready tr1 st1 trA hlf hempty remaining hrem =>
      intro hinv hrun
      have hinv1 : LoopInv steps st1 := by
        refine launchFold_inv steps orgId runId registry steps.length hnd
          _ st0 tr1 st1 trA (get_ready_steps_nodup steps hnd _ _ _)
          ?_ hinv hlf
        intro s hs
        obtain ⟨h1, h2, h3, h4, h5⟩ := (mem_get_ready_steps steps _ _ _ s).mp hs
        rw [Finset.mem_union] at h3
        push_neg at h3
        exact ⟨h1, h5, h2, h3.1, h3.2, fun h => h4 (List.mem_toFinset.mpr h)⟩
      have hrem' : stepIds steps \
          (st1.completed ∪ st1.failed ∪ st1.skipped) = ∅ := hrem
      simp only [orchLoop] at hrun
      rw [hlf] at hrun
      simp only [hempty, if_true, reduceIte] at hrun
      rw [if_pos hrem'] at hrun
      have hst : st1 = st' := by
        cases hrun
        rfl
      rw [← hst]
      have hcover : stepIds steps ⊆
          st1.completed ∪ st1.failed ∪ st1.skipped := by
        intro x hx
        by_contra hc
        exact (Finset.eq_empty_iff_forall_not_mem.mp hrem' x)
          (Finset.mem_sdiff.mpr ⟨hx, hc⟩)
      refine ⟨Finset.Subset.antisymm ?_ hcover, hinv1.compFail,
        hinv1.compSkip, hinv1.failSkip⟩
      refine Finset.union_subset (Finset.union_subset hinv1.compSub
        hinv1.failSub) hinv1.skipSub
  | case4 fuel iter st0 tr0 ready tr1 st1 trA hlf hempty remaining hrem =>
      intro hinv hrun
      have hinv1 : LoopInv steps st1 := by
        refine launchFold_inv steps orgId runId registry steps.length hnd
          _ st0 tr1 st1 trA (get_ready_steps_nodup steps hnd _ _ _)
          ?_ hinv hlf
        intro s hs
        obtain ⟨h1, h2, h3, h4, h5⟩ := (mem_get_ready_steps steps _ _ _ s).mp hs
        rw [Finset.mem_union] at h3
        push_neg at h3
        exact ⟨h1, h5, h2, h3.1, h3.2, fun h => h4 (List.mem_toFinset.mpr h)⟩
      have hrem' : ¬(stepIds steps \
          (st1.completed ∪ st1.failed ∪ st1.skipped) = ∅) := hrem
      simp only [orchLoop] at hrun
      rw [hlf] at hrun
      simp only [hempty, if_true, reduceIte] at hrun
      rw [if_neg hrem'] at hrun
      have hst : ({ st1 with skipped := st1.skipped ∪
          (stepIds steps \ (st1.completed ∪ st1.failed ∪ st1.skipped)) } :
            OrchState) = st' := by
        cases hrun
        rfl
      rw [← hst]
      have hsub : st1.completed ∪ st1.failed ∪ st1.skipped ⊆
          stepIds steps :=
        Finset.union_subset (Finset.union_subset hinv1.compSub
          hinv1.failSub) hinv1.skipSub
      have hdrem : ∀ y ∈ stepIds steps \
          (st1.completed ∪ st1.failed ∪ st1.skipped),
          y ∉ st1.completed ∧ y ∉ st1.failed ∧ y ∉ st1.skipped := by
        intro y hy
        have := (Finset.mem_sdiff.mp hy).2
        rw [Finset.mem_union, Finset.mem_union] at this
        push_neg at this
        exact ⟨this.1.1, this.1.2, this.2⟩
      refine ⟨?_, hinv1.compFail, ?_, ?_⟩
      · have : st1.completed ∪ st1.failed ∪ (st1.skipped ∪
            (stepIds steps \ (st1.completed ∪ st1.failed ∪ st1.skipped))) =
            (st1.completed ∪ st1.failed ∪ st1.skipped) ∪
              (stepIds steps \
                (st1.completed ∪ st1.failed ∪ st1.skipped)) := by
          ac_rfl
        rw [this, Finset.union_sdiff_of_subset hsub]
      · refine Finset.disjoint_union_right.mpr ⟨hinv1.compSkip, ?_⟩
        exact Finset.disjoint_right.mpr fun y hy => (hdrem y hy).1
      · refine Finset.disjoint_union_right.mpr ⟨hinv1.failSkip, ?_⟩
        exact Finset.disjoint_right.mpr fun y hy => (hdrem y hy).2.1
  | case5 fuel iter st0 tr0 ready tr1 st1 trA hlf hempty e trE hpoll =>
      intro _ hrun
      simp only [orchLoop] at hrun
      rw [hlf] at hrun
      simp only [] at hrun
      rw [if_neg hempty] at hrun
      rw [hpoll] at hrun
      exact absurd hrun (by simp)
  | case6 fuel iter st0 tr0 ready tr1 st1 trA hlf hempty st2 tr2 hpoll =>
      rename_i ih
      intro hinv hrun
      have hinv1 : LoopInv steps st1 := by
        refine launchFold_inv steps orgId runId registry steps.length hnd
          _ st0 tr1 st1 trA (get_ready_steps_nodup steps hnd _ _ _)
          ?_ hinv hlf
        intro s hs
        obtain ⟨h1, h2, h3, h4, h5⟩ := (mem_get_ready_steps steps _ _ _ s).mp hs
        rw [Finset.mem_union] at h3
        push_neg at h3
        exact ⟨h1, h5, h2, h3.1, h3.2, fun h => h4 (List.mem_toFinset.mpr h)⟩
      have hinv2 : LoopInv steps st2 :=
        pollFold_inv steps orgId runId (oracle iter) report hrefs
          st1.running st1 trA st2 tr2 hinv1.runNodup (fun x hx => hx)
          hinv1 hpoll
      simp only [orchLoop] at hrun
      rw [hlf] at hrun
      simp only [] at hrun
      rw [if_neg hempty] at hrun
      rw [hpoll] at hrun
      exact ih hinv2 hrun

/-! ## Kahn analysis — exactness

For the cycle-detection claim the counting bound is not enough: we
characterise one queue-expansion pass exactly.  Degrees drop by the
occurrence count, the queue grows by a duplicate-free block of keys
whose degree crossed zero, and every key whose degree crossed zero in
the pass is in the queue afterwards. -/

theorem kahnExpand_spec2 (l : List String) :
    ∀ (deg : List (String × Int)) (pushes : List String),
      (∀ k, (dlookup (kahnExpand deg pushes l).1 k).getD 0 =
        (dlookup deg k).getD 0 - (l.count k : Int)) ∧
      (∃ extra, (kahnExpand deg pushes l).2 = pushes ++ extra ∧
        extra.Nodup ∧
        ∀ x ∈ extra, 0 < (dlookup deg x).getD 0 ∧
          (dlookup (kahnExpand deg pushes l).1 x).getD 0 ≤ 0) ∧
      (∀ k, 0 < (dlookup deg k).getD 0 →
        (dlookup (kahnExpand deg pushes l).1 k).getD 0 ≤ 0 →
        k ∈ (kahnExpand deg pushes l).2) := by
  induction l with
  | nil =>
      intro deg pushes
      refine ⟨fun k => by simp [kahnExpand], ⟨[], by simp [kahnExpand],
        List.nodup_nil, fun x hx => absurd hx (List.not_mem_nil x)⟩,
        fun k h1 h2 => absurd (lt_of_lt_of_le h1 (by
          simpa [kahnExpand] using h2)) (lt_irrefl _)⟩
  | cons dep t ih =>
      intro deg pushes
      have hstep : ∀ ps, kahnExpand deg ps (dep :: t) =
          kahnExpand (dinsert deg dep (((dlookup deg dep).getD 0) - 1))
            (if ((dlookup deg dep).getD 0) - 1 = 0 then ps ++ [dep] else ps)
            t := by
        intro ps
        by_cases hv : ((dlookup deg dep).getD 0) - 1 = 0 <;>
          simp [kahnExpand, List.foldl_cons, hv]
      have hd1 : ∀ k, (dlookup (dinsert deg dep
          (((dlookup deg dep).getD 0) - 1)) k).getD 0 =
          if k = dep then ((dlookup deg dep).getD 0) - 1
          else (dlookup deg k).getD 0 := by
        intro k
        rw [dlookup_dinsert]
        by_cases hk : k = dep <;> simp [hk]
      by_cases hv : ((dlookup deg dep).getD 0) - 1 = 0
      · have hstep2 : ∀ ps, kahnExpand deg ps (dep :: t) =
            kahnExpand (dinsert deg dep (((dlookup deg dep).getD 0) - 1))
              (ps ++ [dep]) t := fun ps => by rw [hstep ps, if_pos hv]
        obtain ⟨ih1, ⟨extra, hext, hnd, hprops⟩, ih3⟩ :=
          ih (dinsert deg dep (((dlookup deg dep).getD 0) - 1))
            (pushes ++ [dep])
        refine ⟨?_, ⟨dep :: extra, ?_, ?_, ?_⟩, ?_⟩
        · intro k
          rw [hstep2, ih1, hd1]
          by_cases hk : k = dep
          · subst hk
            rw [if_pos rfl]
            have hc : List.count k (k :: t) = List.count k t + 1 := by
              simp [List.count_cons]
            rw [hc]
            push_cast
            omega
          · rw [if_neg hk]
            have hc : List.count k (dep :: t) = List.count k t := by
              simp [List.count_cons, hk]
            rw [hc]
        · rw [hstep2, hext, List.append_assoc]
          rfl
        · refine List.nodup_cons.mpr ⟨?_, hnd⟩
          intro hmem
          have := (hprops dep hmem).1
          rw [hd1, if_pos rfl, hv] at this
          exact lt_irrefl _ this
        · intro x hx
          rcases List.mem_cons.mp hx with h | h
          · subst h
            constructor
            · omega
            · rw [hstep2, ih1, hd1, if_pos rfl, hv]
              omega
          · have h1 := (hprops x h).1
            have h2 := (hprops x h).2
            rw [hd1] at h1
            constructor
            · by_cases hxdep : x = dep
              · rw [if_pos hxdep, hv] at h1
                exact absurd h1 (lt_irrefl _)
              · rwa [if_neg hxdep] at h1
            · rw [hstep2]
              exact h2
        · intro k h1 h2
          rw [hstep2] at h2 ⊢
          by_cases hk : k = dep
          · subst hk
            rw [hext]
            exact List.mem_append_left _
              (List.mem_append_right _ (List.mem_singleton_self _))
          · refine ih3 k ?_ h2
            rw [hd1, if_neg hk]
            exact h1
      · have hstep2 : ∀ ps, kahnExpand deg ps (dep :: t) =
            kahnExpand (dinsert deg dep (((dlookup deg dep).getD 0) - 1))
              ps t := fun ps => by rw [hstep ps, if_neg hv]
        obtain ⟨ih1, ⟨extra, hext, hnd, hprops⟩, ih3⟩ :=
          ih (dinsert deg dep (((dlookup deg dep).getD 0) - 1)) pushes
        refine ⟨?_, ⟨extra, ?_, hnd, ?_⟩, ?_⟩
        · intro k
          rw [hstep2, ih1, hd1]
          by_cases hk : k = dep
          · subst hk
            rw [if_pos rfl]
            have hc : List.count k (k :: t) = List.count k t + 1 := by
              simp [List.count_cons]
            rw [hc]
            push_cast
            omega
          · rw [if_neg hk]
            have hc : List.count k (dep :: t) = List.count k t := by
              simp [List.count_cons, hk]
            rw [hc]
        · rw [hstep2, hext]
        · intro x hx
          have h1 := (hprops x hx).1
          have h2 := (hprops x hx).2
          rw [hd1] at h1
          constructor
          · by_cases hxdep : x = dep
            · rw [if_pos hxdep] at h1
              subst hxdep
              omega
            · rwa [if_neg hxdep] at h1
          · rw [hstep2]
            exact h2
        · intro k h1 h2
          rw [hstep2] at h2 ⊢
          by_cases hk : k = dep
          · subst hk
            refine ih3 k ?_ h2
            rw [hd1, if_pos rfl]
            omega
          · refine ih3 k ?_ h2
            rw [hd1, if_neg hk]
            exact h1

/-- Ghost-instrumented Kahn loop: identical control flow to
`kahnLoop`, returning the pop order and the final in-degree dict
instead of a bare count. -/
def kahnLoopG (dependents : List (String × List String)) :
    List (String × Int) → List String → List String × List (String × Int)
  | deg, [] => ([], deg)
  | deg, node :: rest =>
      let l := (dlookup dependents node).getD []
      let dq := kahnExpand deg rest l
      let r := kahnLoopG dependents dq.1 dq.2
      (node :: r.1, r.2)
termination_by deg queue => sumPos deg + queue.length
decreasing_by
  have := kahnExpand_measure ((dlookup dependents node).getD []) deg rest
  simp only [List.length_cons]
  omega

theorem kahnLoop_eq_G (dependents : List (String × List String)) :
    ∀ (deg : List (String × Int)) (queue : List String),
      ∀ count, kahnLoop dependents deg queue count =
        count + (kahnLoopG dependents deg queue).1.length := by
  intro deg queue
  induction deg, queue using kahnLoopG.induct dependents with
  | case1 deg => intro count; simp [kahnLoop, kahnLoopG]
  | case2 deg node rest l dq =>
      rename_i ih
      intro count
      have hl : l = (dlookup dependents node).getD [] := rfl
      have hdq : dq = kahnExpand deg rest l := rfl
      rw [kahnLoop, kahnLoopG]
      rw [hl] at hdq
      rw [hdq] at ih
      rw [ih (count + 1)]
      simp only [List.length_cons]
      omega


theorem map_sum_append_one (P0 : List String) (node : String)
    (f : String → Int) :
    ((P0 ++ [node]).map f).sum = (P0.map f).sum + f node := by
  simp [List.map_append]

theorem append_cons_eq {α : Type} (as : List α) (b : α) (bs : List α) :
    as ++ b :: bs = (as ++ [b]) ++ bs := by
  simp

/-- Invariants of the instrumented Kahn loop: the pop order is
duplicate-free and absorbs the queue, degrees track the initial degree
minus the popped contributions exactly, every positive-degree key whose
final degree is nonpositive gets popped, and every popped key was
queued or had positive degree. -/
theorem kahnLoopG_basic (dependents : List (String × List String))
    (dm : String → String → Nat)
    (hdm : ∀ p k,
      (((dlookup dependents p).getD [] : List String).count k) = dm p k)
    (d0 : String → Int) :
    ∀ (deg : List (String × Int)) (queue : List String),
      ∀ (P0 : List String),
      (P0 ++ queue).Nodup →
      (∀ k ∈ P0 ++ queue, (dlookup deg k).getD 0 ≤ 0) →
      (∀ k, (dlookup deg k).getD 0 =
        d0 k - ((P0.map fun p => (dm p k : Int)).sum)) →
      (∀ x ∈ queue, x ∈ (kahnLoopG dependents deg queue).1) ∧
      (P0 ++ (kahnLoopG dependents deg queue).1).Nodup ∧
      (∀ k, (dlookup (kahnLoopG dependents deg queue).2 k).getD 0 =
        d0 k - (((P0 ++ (kahnLoopG dependents deg queue).1).map
          fun p => (dm p k : Int)).sum)) ∧
      (∀ k, 0 < (dlookup deg k).getD 0 →
        (dlookup (kahnLoopG dependents deg queue).2 k).getD 0 ≤ 0 →
        k ∈ (kahnLoopG dependents deg queue).1) ∧
      (∀ k ∈ (kahnLoopG dependents deg queue).1,
        k ∈ queue ∨ 0 < (dlookup deg k).getD 0) := by
  intro deg queue
  induction deg, queue using kahnLoopG.induct dependents with
  | case1 deg =>
      intro P0 h1 h2 h3
      refine ⟨fun x hx => absurd hx (List.not_mem_nil x), ?_, ?_,
        fun k hk hk2 => absurd (lt_of_lt_of_le hk (by
          simpa [kahnLoopG] using hk2)) (lt_irrefl _),
        fun k hk => absurd (by simpa [kahnLoopG] using hk)
          (List.not_mem_nil k)⟩
      · simpa [kahnLoopG] using h1
      · intro k
        simpa [kahnLoopG] using h3 k
  | case2 deg node rest l dq =>
      rename_i ih
      intro P0 h1 h2 h3
      have hl : l = (dlookup dependents node).getD [] := rfl
      have hdq : dq = kahnExpand deg rest l := rfl
      rw [hl] at hdq
      rw [hdq] at ih
      obtain ⟨e1, ⟨extra, hext, hextnd, hextprops⟩, e3⟩ :=
        kahnExpand_spec2 ((dlookup dependents node).getD []) deg rest
      have hcount : ∀ k,
          (((dlookup dependents node).getD [] : List String).count k) =
            dm node k := fun k => hdm node k
      have hG : kahnLoopG dependents deg (node :: rest) =
          (node :: (kahnLoopG dependents
              (kahnExpand deg rest ((dlookup dependents node).getD [])).1
              (kahnExpand deg rest ((dlookup dependents node).getD [])).2).1,
            (kahnLoopG dependents
              (kahnExpand deg rest ((dlookup dependents node).getD [])).1
              (kahnExpand deg rest ((dlookup dependents node).getD [])).2).2)
          := by
        rw [kahnLoopG]
      have hmemPQ : ∀ k, k ∈ P0 ++ [node] ∨ k ∈ rest →
          k ∈ P0 ++ node :: rest := by
        intro k hk
        rcases hk with hk | hk
        · rcases List.mem_append.mp hk with h | h
          · exact List.mem_append_left _ h
          · rw [List.mem_singleton.mp h]
            exact List.mem_append_right _ (List.mem_cons_self _ _)
        · exact List.mem_append_right _ (List.mem_cons_of_mem _ hk)
      have h2' : ∀ k ∈ (P0 ++ [node]) ++
          (kahnExpand deg rest ((dlookup dependents node).getD [])).2,
          (dlookup (kahnExpand deg rest
            ((dlookup dependents node).getD [])).1 k).getD 0 ≤ 0 := by
        intro k hk
        rcases List.mem_append.mp hk with hk | hk
        · have hle := h2 k (hmemPQ k (Or.inl hk))
          have := e1 k
          omega
        · rw [hext] at hk
          rcases List.mem_append.mp hk with hk | hk
          · have hle := h2 k (hmemPQ k (Or.inr hk))
            have := e1 k
            omega
          · exact (hextprops k hk).2
      have h1' : ((P0 ++ [node]) ++
          (kahnExpand deg rest ((dlookup dependents node).getD [])).2).Nodup
          := by
        rw [hext, ← List.append_assoc, List.nodup_append]
        refine ⟨?_, hextnd, ?_⟩
        · rw [← append_cons_eq]
          exact h1
        · intro a ha hb
          have hpos := (hextprops a hb).1
          have hle := h2 a (by
            rcases List.mem_append.mp ha with h | h
            · exact hmemPQ a (Or.inl h)
            · exact hmemPQ a (Or.inr h))
          omega
      have h3' : ∀ k, (dlookup (kahnExpand deg rest
          ((dlookup dependents node).getD [])).1 k).getD 0 =
          d0 k - (((P0 ++ [node]).map fun p => (dm p k : Int)).sum) := by
        intro k
        rw [e1, h3, map_sum_append_one]
        have := hcount k
        omega
      obtain ⟨C1, C2, C3, C4, C5⟩ := ih (P0 ++ [node]) h1' h2' h3'
      rw [hG]
      refine ⟨?_, ?_, ?_, ?_, ?_⟩
      · intro x hx
        rcases List.mem_cons.mp hx with h | h
        · rw [h]
          exact List.mem_cons_self _ _
        · refine List.mem_cons_of_mem _ (C1 x ?_)
          rw [hext]
          exact List.mem_append_left _ h
      · rw [append_cons_eq]
        exact C2
      · intro k
        rw [append_cons_eq]
        exact C3 k
      · intro k hk hfin
        by_cases hE : (dlookup (kahnExpand deg rest
            ((dlookup dependents node).getD [])).1 k).getD 0 ≤ 0
        · exact List.mem_cons_of_mem _ (C1 k (e3 k hk hE))
        · exact List.mem_cons_of_mem _ (C4 k (by omega) hfin)
      · intro k hk
        rcases List.mem_cons.mp hk with h | h
        · rw [h]
          exact Or.inl (List.mem_cons_self _ _)
        · rcases C5 k h with h5 | h5
          · rw [hext] at h5
            rcases List.mem_append.mp h5 with h6 | h6
            · exact Or.inl (List.mem_cons_of_mem _ h6)
            · exact Or.inr (hextprops k h6).1
          · have := e1 k
            refine Or.inr ?_
            have hcnt : (0 : Int) ≤ (((dlookup dependents node).getD []
              : List String).count k : Int) := by positivity
            omega

/-- Keys protected by a cycle set are never popped: if every member of
`S` keeps at least one un-popped in-edge from inside `S`, no member of
`S` ever reaches degree zero. -/
theorem kahnLoopG_cycle (dependents : List (String × List String))
    (dm : String → String → Nat)
    (hdm : ∀ p k,
      (((dlookup dependents p).getD [] : List String).count k) = dm p k)
    (d0 : String → Int) (S : String → Prop)
    (hd0 : ∀ x, S x → ∀ (L : List String), L.Nodup → (∀ p ∈ L, ¬ S p) →
      ((L.map fun p => (dm p x : Int)).sum) + 1 ≤ d0 x) :
    ∀ (deg : List (String × Int)) (queue : List String),
      ∀ (P0 : List String),
      (P0 ++ queue).Nodup →
      (∀ k ∈ P0 ++ queue, (dlookup deg k).getD 0 ≤ 0) →
      (∀ k, (dlookup deg k).getD 0 =
        d0 k - ((P0.map fun p => (dm p k : Int)).sum)) →
      (∀ p ∈ P0, ¬ S p) →
      (∀ x, S x → x ∉ queue) →
      ∀ x, S x → x ∉ (kahnLoopG dependents deg queue).1 := by
  intro deg queue
  induction deg, queue using kahnLoopG.induct dependents with
  | case1 deg =>
      intro P0 _ _ _ _ _ x _
      simp [kahnLoopG]
  | case2 deg node rest l dq =>
      rename_i ih
      intro P0 h1 h2 h3 hP0S hqS
      have hl : l = (dlookup dependents node).getD [] := rfl
      have hdq : dq = kahnExpand deg rest l := rfl
      rw [hl] at hdq
      rw [hdq] at ih
      obtain ⟨e1, ⟨extra, hext, hextnd, hextprops⟩, e3⟩ :=
        kahnExpand_spec2 ((dlookup dependents node).getD []) deg rest
      have hG : kahnLoopG dependents deg (node :: rest) =
          (node :: (kahnLoopG dependents
              (kahnExpand deg rest ((dlookup dependents node).getD [])).1
              (kahnExpand deg rest ((dlookup dependents node).getD [])).2).1,
            (kahnLoopG dependents
              (kahnExpand deg rest ((dlookup dependents node).getD [])).1
              (kahnExpand deg rest ((dlookup dependents node).getD [])).2).2)
          := by
        rw [kahnLoopG]
      have hmemPQ : ∀ k, k ∈ P0 ++ [node] ∨ k ∈ rest →
          k ∈ P0 ++ node :: rest := by
        intro k hk
        rcases hk with hk | hk
        · rcases List.mem_append.mp hk with h | h
          · exact List.mem_append_left _ h
          · rw [List.mem_singleton.mp h]
            exact List.mem_append_right _ (List.mem_cons_self _ _)
        · exact List.mem_append_right _ (List.mem_cons_of_mem _ hk)
      have h2' : ∀ k ∈ (P0 ++ [node]) ++
          (kahnExpand deg rest ((dlookup dependents node).getD [])).2,
          (dlookup (kahnExpand deg rest
            ((dlookup dependents node).getD [])).1 k).getD 0 ≤ 0 := by
        intro k hk
        rcases List.mem_append.mp hk with hk | hk
        · have hle := h2 k (hmemPQ k (Or.inl hk))
          have := e1 k
          omega
        · rw [hext] at hk
          rcases List.mem_append.mp hk with hk | hk
          · have hle := h2 k (hmemPQ k (Or.inr hk))
            have := e1 k
            omega
          · exact (hextprops k hk).2
      have h1' : ((P0 ++ [node]) ++
          (kahnExpand deg rest ((dlookup dependents node).getD [])).2).Nodup
          := by
        rw [hext, ← List.append_assoc, List.nodup_append]
        refine ⟨?_, hextnd, ?_⟩
        · rw [← append_cons_eq]
          exact h1
        · intro a ha hb
          have hpos := (hextprops a hb).1
          have hle := h2 a (by
            rcases List.mem_append.mp ha with h | h
            · exact hmemPQ a (Or.inl h)
            · exact hmemPQ a (Or.inr h))
          omega
      have h3' : ∀ k, (dlookup (kahnExpand deg rest
          ((dlookup dependents node).getD [])).1 k).getD 0 =
          d0 k - (((P0 ++ [node]).map fun p => (dm p k : Int)).sum) := by
        intro k
        rw [e1, h3, map_sum_append_one]
        have := hdm node k
        omega
      have hP0S' : ∀ p ∈ P0 ++ [node], ¬ S p := by
        intro p hp
        rcases List.mem_append.mp hp with h | h
        · exact hP0S p h
        · rw [List.mem_singleton.mp h]
          exact fun hs => hqS node hs (List.mem_cons_self _ _)
      have hP0Snd : (P0 ++ [node]).Nodup := by
        have := h1'
        rw [List.nodup_append] at this
        exact this.1
      have hqS' : ∀ x, S x → x ∉
          (kahnExpand deg rest ((dlookup dependents node).getD [])).2 := by
        intro x hx hmem
        rw [hext] at hmem
        rcases List.mem_append.mp hmem with h | h
        · exact hqS x hx (List.mem_cons_of_mem _ h)
        · have hle := (hextprops x h).2
          have heq := h3' x
          have hbound := hd0 x hx (P0 ++ [node]) hP0Snd hP0S'
          omega
      intro x hx
      rw [hG]
      intro hmem
      rcases List.mem_cons.mp hmem with h | h
      · exact hqS x hx (h ▸ List.mem_cons_self _ _)
      · exact ih (P0 ++ [node]) h1' h2' h3' hP0S' hqS' x hx h

/-- All dependency occurrences of steps carrying id `k`, in playbook
order (the multiset of in-edges of `k` in the dependency graph). -/
def depsOfId (steps : List StepDef) (k : String) : List String :=
  (steps.filter fun st => st.id = k).flatMap StepDef.dependencies

theorem kahnInner_spec (sid : String) (deps : List String) :
    ∀ (dd : List (String × List String)) (di : List (String × Int)),
      (∀ p k, ((dlookup (deps.foldl (fun acc dep =>
          (dinsert acc.1 dep ((dlookup acc.1 dep).getD [] ++ [sid]),
           dinsert acc.2 sid ((dlookup acc.2 sid).getD 0 + 1)))
          (dd, di)).1 p).getD []).count k =
        ((dlookup dd p).getD []).count k +
          if k = sid then deps.count p else 0) ∧
      (∀ k, (dlookup (deps.foldl (fun acc dep =>
          (dinsert acc.1 dep ((dlookup acc.1 dep).getD [] ++ [sid]),
           dinsert acc.2 sid ((dlookup acc.2 sid).getD 0 + 1)))
          (dd, di)).2 k).getD 0 =
        (dlookup di k).getD 0 +
          if k = sid then (deps.length : Int) else 0) := by
  induction deps with
  | nil =>
      intro dd di
      constructor
      · intro p k
        by_cases hk : k = sid <;> simp [hk]
      · intro k
        by_cases hk : k = sid <;> simp [hk]
  | cons dep t ih =>
      intro dd di
      rw [List.foldl_cons]
      obtain ⟨iha, ihb⟩ := ih
        (dinsert dd dep ((dlookup dd dep).getD [] ++ [sid]))
        (dinsert di sid ((dlookup di sid).getD 0 + 1))
      constructor
      · intro p k
        rw [iha p k, dlookup_dinsert]
        by_cases hp : p = dep
        · subst hp
          rw [if_pos rfl]
          simp only [Option.getD_some, List.count_append]
          by_cases hk : k = sid
          · subst hk
            rw [if_pos rfl, if_pos rfl]
            have hone : List.count k [k] = 1 := by simp
            have hc : List.count p (p :: t) = List.count p t + 1 := by
              simp [List.count_cons]
            rw [hone, hc]
            omega
          · rw [if_neg hk, if_neg hk]
            have hzero : List.count k [sid] = 0 := by
              simp [List.count_singleton]
              exact fun h => hk h.symm
            rw [hzero]
        · rw [if_neg hp]
          by_cases hk : k = sid
          · rw [if_pos hk, if_pos hk]
            have hc : List.count p (dep :: t) = List.count p t := by
              simp [List.count_cons, hp]
            rw [hc]
          · rw [if_neg hk, if_neg hk]
      · intro k
        rw [ihb k, dlookup_dinsert]
        by_cases hk : k = sid
        · subst hk
          rw [if_pos rfl, if_pos rfl, if_pos rfl]
          simp only [Option.getD_some, List.length_cons]
          push_cast
          omega
        · rw [if_neg hk, if_neg hk, if_neg hk]

theorem depsOfId_cons (st : StepDef) (ss : List StepDef) (k : String) :
    depsOfId (st :: ss) k =
      if st.id = k then st.dependencies ++ depsOfId ss k
      else depsOfId ss k := by
  unfold depsOfId
  by_cases h : st.id = k <;> simp [List.filter_cons, h]

theorem kahnBuild_spec (ss : List StepDef) :
    ∀ (dd : List (String × List String)) (di : List (String × Int)),
      (∀ p k, ((dlookup (ss.foldl (fun acc step =>
          step.dependencies.foldl (fun acc dep =>
            (dinsert acc.1 dep ((dlookup acc.1 dep).getD [] ++ [step.id]),
             dinsert acc.2 step.id ((dlookup acc.2 step.id).getD 0 + 1)))
            acc) (dd, di)).1 p).getD []).count k =
        ((dlookup dd p).getD []).count k + (depsOfId ss k).count p) ∧
      (∀ k, (dlookup (ss.foldl (fun acc step =>
          step.dependencies.foldl (fun acc dep =>
            (dinsert acc.1 dep ((dlookup acc.1 dep).getD [] ++ [step.id]),
             dinsert acc.2 step.id ((dlookup acc.2 step.id).getD 0 + 1)))
            acc) (dd, di)).2 k).getD 0 =
        (dlookup di k).getD 0 + ((depsOfId ss k).length : Int)) := by
  induction ss with
  | nil =>
      intro dd di
      constructor
      · intro p k
        simp [depsOfId]
      · intro k
        simp [depsOfId]
  | cons st ss2 ih =>
      intro dd di
      simp only [List.foldl_cons]
      obtain ⟨ia, ib⟩ := kahnInner_spec st.id st.dependencies dd di
      generalize hmid : st.dependencies.foldl (fun acc dep =>
          (dinsert acc.1 dep ((dlookup acc.1 dep).getD [] ++ [st.id]),
           dinsert acc.2 st.id ((dlookup acc.2 st.id).getD 0 + 1)))
          (dd, di) = mid
      rw [hmid] at ia ib
      obtain ⟨dd1, di1⟩ := mid
      simp only [] at ia ib
      obtain ⟨oa, ob⟩ := ih dd1 di1
      constructor
      · intro p k
        rw [oa p k]
        have h1 := ia p k
        rw [depsOfId_cons]
        by_cases hid : st.id = k
        · rw [if_pos hid, List.count_append]
          rw [if_pos hid.symm] at h1
          omega
        · rw [if_neg hid]
          rw [if_neg (fun h => hid h.symm)] at h1
          omega
      · intro k
        rw [ob k]
        have h2 := ib k
        rw [depsOfId_cons]
        by_cases hid : st.id = k
        · rw [if_pos hid, List.length_append]
          rw [if_pos hid.symm] at h2
          push_cast
          omega
        · rw [if_neg hid]
          rw [if_neg (fun h => hid h.symm)] at h2
          omega

theorem buildKahn_count (steps : List StepDef) (p k : String) :
    ((dlookup (buildKahn steps).1 p).getD []).count k =
      (depsOfId steps k).count p := by
  have h := (kahnBuild_spec steps (baseDict steps)
    (steps.foldl (fun d s => dinsert d s.id (0 : Int)) [])).1 p k
  have hb : (dlookup (baseDict steps) p).getD ([] : List String) = [] := by
    unfold baseDict
    rw [dlookup_idFold]
    by_cases hp : p ∈ stepIds steps
    · rw [if_pos hp]
      rfl
    · rw [if_neg hp]
      rfl
  rw [hb] at h
  simp only [List.count_nil, Nat.zero_add] at h
  exact h

theorem buildKahn_deg (steps : List StepDef) (k : String) :
    (dlookup (buildKahn steps).2 k).getD 0 =
      ((depsOfId steps k).length : Int) := by
  have h := (kahnBuild_spec steps (baseDict steps)
    (steps.foldl (fun d s => dinsert d s.id (0 : Int)) [])).2 k
  have hb : (dlookup (steps.foldl (fun d s => dinsert d s.id (0 : Int)) [])
      k).getD 0 = 0 := by
    rw [dlookup_idFold]
    by_cases hp : k ∈ stepIds steps
    · rw [if_pos hp]
      rfl
    · rw [if_neg hp]
      rfl
  rw [hb] at h
  simpa using h

theorem countP_lt_length_of_missed (p : String → Bool) (l : List String)
    (y : String) (hy : y ∈ l) (hny : ¬ p y = true) :
    l.countP p < l.length := by
  have h := List.length_eq_countP_add_countP p l
  have h2 : 0 < l.countP fun a => decide ¬(p a = true) :=
    List.countP_pos_iff.mpr ⟨y, hy, by simpa using hny⟩
  omega

theorem countP_mem_cons (deps : List String) (a : String) (L : List String)
    (ha : a ∉ L) :
    (deps.countP fun d => decide (d ∈ a :: L)) =
      deps.count a + (deps.countP fun d => decide (d ∈ L)) := by
  induction deps with
  | nil => simp
  | cons d ds ihd =>
      rw [List.countP_cons, List.countP_cons, List.count_cons, ihd]
      by_cases hda : d = a
      · subst hda
        simp [List.mem_cons, ha]
        omega
      · by_cases hdL : d ∈ L <;>
          simp [List.mem_cons, hda, hdL, Ne.symm hda] <;> omega

/-- The popped contributions to a key's degree are exactly the
dependency occurrences that point at popped keys. -/
theorem sum_count_eq_countP (deps : List String) :
    ∀ (L : List String), L.Nodup →
      ((L.map fun p => ((deps.count p : Nat) : Int)).sum) =
        ((deps.countP fun d => decide (d ∈ L) : Nat) : Int) := by
  intro L
  induction L with
  | nil => simp
  | cons a L2 ih =>
      intro hnd
      obtain ⟨ha, hnd2⟩ := List.nodup_cons.mp hnd
      rw [List.map_cons, List.sum_cons, ih hnd2, countP_mem_cons deps a L2 ha]
      push_cast
      omega

/-- Lookup of a stored entry under duplicate-free keys. -/
theorem dlookup_eq_of_mem {α : Type} :
    ∀ (d : List (String × α)), (dkeys d).Nodup →
      ∀ kv ∈ d, dlookup d kv.1 = some kv.2 := by
  intro d
  induction d with
  | nil => intro _ kv hkv; cases hkv
  | cons hd tl ih =>
      intro hnd kv hkv
      have hnd1 : (hd.1 :: dkeys tl).Nodup := hnd
      obtain ⟨hh, hnd2⟩ := List.nodup_cons.mp hnd1
      rcases List.mem_cons.mp hkv with h | h
      · rw [h]
        obtain ⟨k1, v1⟩ := hd
        simp [dlookup]
      · have hne : hd.1 ≠ kv.1 := by
          intro he
          refine hh ?_
          rw [he]
          exact List.mem_map_of_mem (fun kv => kv.1) h
        have hstep : dlookup (hd :: tl) kv.1 = dlookup tl kv.1 := by
          obtain ⟨k1, v1⟩ := hd
          simp only [dlookup]
          rw [if_neg hne]
        rw [hstep]
        exact ih hnd2 kv h

theorem transGen_dep_source (steps : List StepDef) {a b : String}
    (h : Relation.TransGen (depEdge steps) a b) : a ∈ stepIds steps := by
  obtain ⟨c, hc, _⟩ := Relation.TransGen.head'_iff.mp h
  obtain ⟨st, hst, hid, _⟩ := hc
  rw [← hid]
  simp only [stepIds, List.mem_toFinset, List.mem_map]
  exact ⟨st, hst, rfl⟩

theorem kahn_keys_nodup (steps : List StepDef) :
    (dkeys (buildKahn steps).2).Nodup := by
  rw [buildKahn_deg_keys]
  exact (degDict_keys steps).1

theorem kahn_keys_mem (steps : List StepDef) (k : String) :
    k ∈ dkeys (buildKahn steps).2 ↔ k ∈ stepIds steps := by
  rw [buildKahn_deg_keys]
  exact (degDict_keys steps).2.1 k

theorem kahn_q0_nodup (steps : List StepDef) :
    (((buildKahn steps).2.filter fun kv => decide (kv.2 = 0)).map
      fun kv => kv.1).Nodup := by
  have h : ((buildKahn steps).2.map fun kv => kv.1).Nodup :=
    kahn_keys_nodup steps
  exact ((List.filter_sublist (buildKahn steps).2).map
    (fun kv => kv.1)).nodup h

theorem kahn_q0_val (steps : List StepDef) (k : String)
    (hk : k ∈ ((buildKahn steps).2.filter fun kv => decide (kv.2 = 0)).map
      fun kv => kv.1) :
    (dlookup (buildKahn steps).2 k).getD 0 = 0 := by
  obtain ⟨kv, hkv, hfst⟩ := List.mem_map.mp hk
  obtain ⟨hmem, hval⟩ := List.mem_filter.mp hkv
  rw [← hfst, dlookup_eq_of_mem _ (kahn_keys_nodup steps) kv hmem]
  simpa using hval

theorem kahn_q0_complete (steps : List StepDef) (k : String)
    (hk : k ∈ dkeys (buildKahn steps).2)
    (hz : (dlookup (buildKahn steps).2 k).getD 0 = 0) :
    k ∈ ((buildKahn steps).2.filter fun kv => decide (kv.2 = 0)).map
      fun kv => kv.1 := by
  obtain ⟨kv, hkv, hfst⟩ := List.mem_map.mp hk
  have hlook := dlookup_eq_of_mem _ (kahn_keys_nodup steps) kv hkv
  rw [← hfst, hlook] at hz
  refine List.mem_map.mpr ⟨kv, List.mem_filter.mpr ⟨hkv, ?_⟩, hfst⟩
  simpa using hz

/-- Soundness of the cycle check: on a playbook with distinct ids
whose graph has a cycle, Kahn's count falls short of the step count. -/
theorem kahn_cycle_count (steps : List StepDef)
    (hnd : (steps.map StepDef.id).Nodup) (hcyc : HasCycle steps) :
    kahnLoop (buildKahn steps).1 (buildKahn steps).2
      (((buildKahn steps).2.filter fun kv => decide (kv.2 = 0)).map
        fun kv => kv.1) 0 < steps.length := by
  obtain ⟨x, hx⟩ := (hasCycle_iff_transGen_self steps).mp hcyc
  set S : String → Prop := fun y =>
    Relation.TransGen (depEdge steps) x y ∧
    Relation.TransGen (depEdge steps) y x with hSdef
  have hSx : S x := ⟨hx, hx⟩
  have hSdep : ∀ y, S y → ∃ z, S z ∧ z ∈ depsOfId steps y := by
    rintro y ⟨hxy, hyx⟩
    obtain ⟨b, hb, hbx⟩ := Relation.TransGen.head'_iff.mp hyx
    refine ⟨b, ⟨Relation.TransGen.tail hxy hb, ?_⟩, ?_⟩
    · rcases Relation.reflTransGen_iff_eq_or_transGen.mp hbx with he | ht
      · rw [← he]
        exact hx
      · exact ht
    · obtain ⟨st, hst, hid, hdep⟩ := hb
      unfold depsOfId
      refine List.mem_flatMap.mpr ⟨st, List.mem_filter.mpr ⟨hst, ?_⟩, hdep⟩
      simpa using hid
  have hd0 : ∀ y, S y → ∀ (L : List String), L.Nodup →
      (∀ p ∈ L, ¬ S p) →
      ((L.map fun p => (((depsOfId steps y).count p : Nat) : Int)).sum) + 1 ≤
        ((depsOfId steps y).length : Int) := by
    intro y hy L hLnd hLS
    obtain ⟨z, hz, hzmem⟩ := hSdep y hy
    rw [sum_count_eq_countP _ L hLnd]
    have hlt := countP_lt_length_of_missed (fun d => decide (d ∈ L))
      (depsOfId steps y) z hzmem (by
        simp only [decide_eq_true_eq]
        exact fun hmem => hLS z hmem hz)
    omega
  have hq2 : ∀ k ∈ ([] : List String) ++
      (((buildKahn steps).2.filter fun kv => decide (kv.2 = 0)).map
        fun kv => kv.1),
      (dlookup (buildKahn steps).2 k).getD 0 ≤ 0 := by
    intro k hk
    rw [kahn_q0_val steps k (by simpa using hk)]
  have hq1 : (([] : List String) ++
      (((buildKahn steps).2.filter fun kv => decide (kv.2 = 0)).map
        fun kv => kv.1)).Nodup := by
    simpa using kahn_q0_nodup steps
  have hq3 : ∀ k, (dlookup (buildKahn steps).2 k).getD 0 =
      ((depsOfId steps k).length : Int) -
        ((([] : List String).map
          fun p => (((depsOfId steps k).count p : Nat) : Int)).sum) := by
    intro k
    rw [buildKahn_deg]
    simp
  have hqS : ∀ y, S y → y ∉
      (((buildKahn steps).2.filter fun kv => decide (kv.2 = 0)).map
        fun kv => kv.1) := by
    intro y hy hmem
    have hz := kahn_q0_val steps y hmem
    rw [buildKahn_deg] at hz
    have := hd0 y hy [] List.nodup_nil (fun p hp => absurd hp
      (List.not_mem_nil p))
    simp at this
    omega
  have hcycfree := kahnLoopG_cycle (buildKahn steps).1
    (fun p k => (depsOfId steps k).count p)
    (fun p k => buildKahn_count steps p k)
    (fun k => ((depsOfId steps k).length : Int)) S hd0
    (buildKahn steps).2
    (((buildKahn steps).2.filter fun kv => decide (kv.2 = 0)).map
      fun kv => kv.1)
    [] hq1 hq2 hq3 (fun p hp => absurd hp (List.not_mem_nil p)) hqS
  have hbasic := kahnLoopG_basic (buildKahn steps).1
    (fun p k => (depsOfId steps k).count p)
    (fun p k => buildKahn_count steps p k)
    (fun k => ((depsOfId steps k).length : Int))
    (buildKahn steps).2
    (((buildKahn steps).2.filter fun kv => decide (kv.2 = 0)).map
      fun kv => kv.1)
    [] hq1 hq2 hq3
  obtain ⟨C1, C2, C3, C4, C5⟩ := hbasic
  rw [kahnLoop_eq_G]
  have hPnd : ((kahnLoopG (buildKahn steps).1 (buildKahn steps).2
      (((buildKahn steps).2.filter fun kv => decide (kv.2 = 0)).map
        fun kv => kv.1)).1).Nodup := by
    simpa using C2
  have hPsub : ∀ p ∈ (kahnLoopG (buildKahn steps).1 (buildKahn steps).2
      (((buildKahn steps).2.filter fun kv => decide (kv.2 = 0)).map
        fun kv => kv.1)).1, p ∈ dkeys (buildKahn steps).2 := by
    intro p hp
    rcases C5 p hp with h | h
    · obtain ⟨kv, hkv, hfst⟩ := List.mem_map.mp h
      rw [← hfst]
      exact List.mem_map_of_mem _ (List.mem_of_mem_filter hkv)
    · rw [mem_dkeys_iff_isSome]
      cases hl : dlookup (buildKahn steps).2 p with
      | none => rw [hl] at h; simp at h
      | some v => rfl
  have hPnotx : ∀ p ∈ (kahnLoopG (buildKahn steps).1 (buildKahn steps).2
      (((buildKahn steps).2.filter fun kv => decide (kv.2 = 0)).map
        fun kv => kv.1)).1, p ≠ x := by
    intro p hp he
    exact hcycfree x hSx (he ▸ hp)
  have hxkeys : x ∈ dkeys (buildKahn steps).2 :=
    (kahn_keys_mem steps x).mpr (transGen_dep_source steps hx)
  have hsubF : (kahnLoopG (buildKahn steps).1 (buildKahn steps).2
      (((buildKahn steps).2.filter fun kv => decide (kv.2 = 0)).map
        fun kv => kv.1)).1.toFinset ⊆
      (dkeys (buildKahn steps).2).toFinset.erase x := by
    intro p hp
    have hp' := List.mem_toFinset.mp hp
    exact Finset.mem_erase.mpr ⟨hPnotx p hp',
      List.mem_toFinset.mpr (hPsub p hp')⟩
  have hlen : (dkeys (buildKahn steps).2).length = steps.length := by
    have h1 : (dkeys (buildKahn steps).2).length =
        (stepIds steps).card := by
      rw [buildKahn_deg_keys]
      have := (degDict_keys steps).2.2
      simpa [dkeys, List.length_map] using this
    have h2 : (stepIds steps).card = (steps.map StepDef.id).length := by
      unfold stepIds
      rw [List.card_toFinset, List.dedup_eq_self.mpr hnd]
    rw [h1, h2, List.length_map]
  have hcard := Finset.card_le_card hsubF
  rw [List.toFinset_card_of_nodup hPnd] at hcard
  rw [Finset.card_erase_of_mem (List.mem_toFinset.mpr hxkeys)] at hcard
  rw [List.toFinset_card_of_nodup (kahn_keys_nodup steps)] at hcard
  have hpos : 1 ≤ (dkeys (buildKahn steps).2).length :=
    List.length_pos.mpr (fun he => by
      rw [he] at hxkeys
      exact List.not_mem_nil x hxkeys)
  omega

/-- Completeness of the cycle check: on an acyclic playbook with
distinct ids and valid references, every step id is popped, so Kahn's
count reaches the step count. -/
theorem kahn_acyclic_count (steps : List StepDef)
    (hnd : (steps.map StepDef.id).Nodup)
    (hrefs : ∀ st ∈ steps, ∀ d ∈ st.dependencies, d ∈ stepIds steps)
    (hacyc : ¬ HasCycle steps) :
    steps.length ≤ kahnLoop (buildKahn steps).1 (buildKahn steps).2
      (((buildKahn steps).2.filter fun kv => decide (kv.2 = 0)).map
        fun kv => kv.1) 0 := by
  classical
  have hnotg : ∀ a, ¬ Relation.TransGen (depEdge steps) a a := by
    intro a ha
    exact hacyc ((hasCycle_iff_transGen_self steps).mpr ⟨a, ha⟩)
  have hq2 : ∀ k ∈ ([] : List String) ++
      (((buildKahn steps).2.filter fun kv => decide (kv.2 = 0)).map
        fun kv => kv.1),
      (dlookup (buildKahn steps).2 k).getD 0 ≤ 0 := by
    intro k hk
    rw [kahn_q0_val steps k (by simpa using hk)]
  have hq1 : (([] : List String) ++
      (((buildKahn steps).2.filter fun kv => decide (kv.2 = 0)).map
        fun kv => kv.1)).Nodup := by
    simpa using kahn_q0_nodup steps
  have hq3 : ∀ k, (dlookup (buildKahn steps).2 k).getD 0 =
      ((depsOfId steps k).length : Int) -
        ((([] : List String).map
          fun p => (((depsOfId steps k).count p : Nat) : Int)).sum) := by
    intro k
    rw [buildKahn_deg]
    simp
  have hbasic := kahnLoopG_basic (buildKahn steps).1
    (fun p k => (depsOfId steps k).count p)
    (fun p k => buildKahn_count steps p k)
    (fun k => ((depsOfId steps k).length : Int))
    (buildKahn steps).2
    (((buildKahn steps).2.filter fun kv => decide (kv.2 = 0)).map
      fun kv => kv.1)
    [] hq1 hq2 hq3
  obtain ⟨C1, C2, C3, C4, C5⟩ := hbasic
  have hPnd : ((kahnLoopG (buildKahn steps).1 (buildKahn steps).2
      (((buildKahn steps).2.filter fun kv => decide (kv.2 = 0)).map
        fun kv => kv.1)).1).Nodup := by
    simpa using C2
  -- measure: number of ids reachable by zero or more dependency edges
  have hmono : ∀ k d, depEdge steps k d →
      ((stepIds steps).filter
        (fun y => Relation.ReflTransGen (depEdge steps) d y)).card <
      ((stepIds steps).filter
        (fun y => Relation.ReflTransGen (depEdge steps) k y)).card := by
    intro k d hkd
    refine Finset.card_lt_card
      ((Finset.ssubset_iff_of_subset ?_).mpr ⟨k, ?_, ?_⟩)
    · intro y hy
      obtain ⟨hy1, hy2⟩ := Finset.mem_filter.mp hy
      exact Finset.mem_filter.mpr ⟨hy1,
        Relation.ReflTransGen.head hkd hy2⟩
    · refine Finset.mem_filter.mpr ⟨transGen_dep_source steps
        (Relation.TransGen.single hkd), Relation.ReflTransGen.refl⟩
    · intro hk
      obtain ⟨_, hreach⟩ := Finset.mem_filter.mp hk
      rcases Relation.reflTransGen_iff_eq_or_transGen.mp hreach with he | ht
      · rw [he] at hkd
        exact hnotg d (Relation.TransGen.single hkd)
      · exact hnotg k (Relation.TransGen.head hkd ht)
  have hall : ∀ n k,
      ((stepIds steps).filter
        (fun y => Relation.ReflTransGen (depEdge steps) k y)).card ≤ n →
      k ∈ stepIds steps →
      k ∈ (kahnLoopG (buildKahn steps).1 (buildKahn steps).2
        (((buildKahn steps).2.filter fun kv => decide (kv.2 = 0)).map
          fun kv => kv.1)).1 := by
    intro n
    induction n with
    | zero =>
        intro k hm hk
        have : k ∈ (stepIds steps).filter
            (fun y => Relation.ReflTransGen (depEdge steps) k y) :=
          Finset.mem_filter.mpr ⟨hk, Relation.ReflTransGen.refl⟩
        have := Finset.card_pos.mpr ⟨k, this⟩
        omega
    | succ n ihn =>
        intro k hm hk
        have hdeps : ∀ d ∈ depsOfId steps k,
            d ∈ (kahnLoopG (buildKahn steps).1 (buildKahn steps).2
              (((buildKahn steps).2.filter fun kv => decide (kv.2 = 0)).map
                fun kv => kv.1)).1 := by
          intro d hd
          obtain ⟨st, hst, hdep⟩ := List.mem_flatMap.mp hd
          obtain ⟨hst1, hst2⟩ := List.mem_filter.mp hst
          have hedge : depEdge steps k d :=
            ⟨st, hst1, by simpa using hst2, hdep⟩
          have hlt := hmono k d hedge
          refine ihn d (by omega) ?_
          exact hrefs st hst1 d hdep
        have hfin : (dlookup (kahnLoopG (buildKahn steps).1
            (buildKahn steps).2
            (((buildKahn steps).2.filter fun kv => decide (kv.2 = 0)).map
              fun kv => kv.1)).2 k).getD 0 = 0 := by
          rw [C3 k]
          rw [show (([] : List String) ++ (kahnLoopG (buildKahn steps).1
            (buildKahn steps).2
            (((buildKahn steps).2.filter fun kv => decide (kv.2 = 0)).map
              fun kv => kv.1)).1) = (kahnLoopG (buildKahn steps).1
            (buildKahn steps).2
            (((buildKahn steps).2.filter fun kv => decide (kv.2 = 0)).map
              fun kv => kv.1)).1 from List.nil_append _]
          rw [sum_count_eq_countP _ _ hPnd]
          rw [List.countP_eq_length.mpr (by
            intro a ha
            simpa using hdeps a ha)]
          simp
        by_cases hz : (depsOfId steps k).length = 0
        · refine C1 k (kahn_q0_complete steps k
            ((kahn_keys_mem steps k).mpr hk) ?_)
          rw [buildKahn_deg, hz]
          rfl
        · refine C4 k ?_ (le_of_eq hfin)
          rw [buildKahn_deg]
          omega
  have hsub : stepIds steps ⊆
      ((kahnLoopG (buildKahn steps).1 (buildKahn steps).2
        (((buildKahn steps).2.filter fun kv => decide (kv.2 = 0)).map
          fun kv => kv.1)).1).toFinset := by
    intro k hk
    exact List.mem_toFinset.mpr (hall _ k (le_refl _) hk)
  have hcard := Finset.card_le_card hsub
  rw [List.toFinset_card_of_nodup hPnd] at hcard
  have hlen : (stepIds steps).card = steps.length := by
    unfold stepIds
    rw [List.card_toFinset, List.dedup_eq_self.mpr hnd, List.length_map]
  rw [kahnLoop_eq_G]
  omega

theorem findMissing_eq_none_of_refs (steps : List StepDef)
    (hrefs : ∀ st ∈ steps, ∀ d ∈ st.dependencies, d ∈ stepIds steps) :
    findMissing steps = none := by
  simp only [findMissing, List.findSome?_eq_none_iff]
  intro st hst
  rw [Option.map_eq_none', List.find?_eq_none]
  intro d hd
  simp [hrefs st hst d hd]

theorem validate_dag_cases (steps : List StepDef)
    (hnd : (steps.map StepDef.id).Nodup)
    (hrefs : ∀ st ∈ steps, ∀ d ∈ st.dependencies, d ∈ stepIds steps) :
    (validate_dag steps = .ok () ↔ ¬ HasCycle steps) ∧
    (HasCycle steps →
      validate_dag steps = .error (.cyclicDependency (find_cycle steps)))
    := by
  have hfm := findMissing_eq_none_of_refs steps hrefs
  refine ⟨⟨?_, ?_⟩, ?_⟩
  · intro hok hcyc
    have hlt := kahn_cycle_count steps hnd hcyc
    simp only [validate_dag, hfm] at hok
    rw [if_pos hlt] at hok
    exact absurd hok (by simp)
  · intro hnc
    have hge := kahn_acyclic_count steps hnd hrefs hnc
    simp only [validate_dag, hfm]
    rw [if_neg (by omega)]
  · intro hcyc
    have hlt := kahn_cycle_count steps hnd hcyc
    simp only [validate_dag, hfm]
    rw [if_pos hlt]

/-- C3 (amended): `validate_dag` is total (it is a function into
`Except`, its two loops terminating by the measures given with their
definitions).  It raises the missing-dependency `ValueError` whenever
some step names a dependency id not present among the steps.  For
playbooks with pairwise-distinct step ids whose dependencies all
reference existing steps, it returns normally exactly on acyclic
graphs, and on cyclic graphs (including self-dependencies) it raises
`CyclicDependencyError` carrying `_find_cycle`'s output — which is a
list of step ids but not necessarily a cycle path (see the
counterexample). -/
theorem validate_dag_correct (steps : List StepDef)
    (hnd : (steps.map StepDef.id).Nodup) :
    ((∃ st ∈ steps, ∃ d ∈ st.dependencies, d ∉ stepIds steps) →
      ∃ m, validate_dag steps = .error (.valueError m)) ∧
    ((∀ st ∈ steps, ∀ d ∈ st.dependencies, d ∈ stepIds steps) →
      ((validate_dag steps = .ok () ↔ ¬ HasCycle steps) ∧
        (HasCycle steps →
          validate_dag steps =
            .error (.cyclicDependency (find_cycle steps))))) := by
  constructor
  · rintro ⟨st, hst, d, hd, hmiss⟩
    cases hfm : findMissing steps with
    | none =>
        have hall : ∀ x ∈ steps, ∀ d2 ∈ x.dependencies,
            d2 ∈ stepIds steps := by
          simpa [findMissing] using hfm
        exact absurd (hall st hst d hd) hmiss
    | some sd =>
        refine ⟨"Step '" ++ sd.1 ++ "' depends on '" ++ sd.2 ++
          "', which does not exist.", ?_⟩
        simp only [validate_dag, hfm]
  · intro hrefs
    exact validate_dag_cases steps hnd hrefs

/-- A self-dependent step (`b` depends on `b`). -/
def exSelfChild : StepDef :=
  { id := "b", order := 2, dependencies := ["b"] }

/-- A second step that reuses the id `"a"`. -/
def exDupA : StepDef :=
  { id := "a", order := 2, dependencies := [] }

/-- The two spec defects in one counterexample: for
`a → b, b → b` the raised cycle payload `["a", "b", "b"]` is not a
cycle path (`"a"` is not on the cycle), and a duplicate-id playbook
with no dependencies at all — an acyclic graph — is rejected as
cyclic with the placeholder payload `["unknown"]`. -/
theorem validate_dag_cex :
    validate_dag [exDangling, exSelfChild] =
      .error (.cyclicDependency ["a", "b", "b"]) ∧
    ¬ IsCyclePath [exDangling, exSelfChild] ["a", "b", "b"] ∧
    ¬ HasCycle [exRoot, exDupA] ∧
    validate_dag [exRoot, exDupA] =
      .error (.cyclicDependency ["unknown"]) := by
  refine ⟨?_, ?_, ?_, ?_⟩
  · simp [validate_dag, findMissing, stepIds, buildKahn, baseDict, dinsert,
      dlookup, kahnLoop, kahnExpand, find_cycle, findCycleOuter, dfsRun,
      colorOf, traceLoop, traceCycle, exDangling, exSelfChild]
  · simp [IsCyclePath, List.chain_cons, depEdge, exDangling, exSelfChild]
  · refine noCycle_of_no_id_in_deps _ ?_
    intro st hst st' hst'
    rcases List.mem_cons.mp hst with h | h <;>
      rcases List.mem_cons.mp hst' with h' | h' <;>
        simp_all [exRoot, exDupA]
  · simp [validate_dag, findMissing, stepIds, buildKahn, baseDict, dinsert,
      dlookup, kahnLoop, kahnExpand, find_cycle, findCycleOuter, dfsRun,
      colorOf, traceLoop, traceCycle, exRoot, exDupA]

theorem validate_dag_correct_witness :
    ((∃ st ∈ [exRoot, exChild], ∃ d ∈ st.dependencies,
        d ∉ stepIds [exRoot, exChild]) →
      ∃ m, validate_dag [exRoot, exChild] = .error (.valueError m)) ∧
    ((∀ st ∈ [exRoot, exChild], ∀ d ∈ st.dependencies,
        d ∈ stepIds [exRoot, exChild]) →
      ((validate_dag [exRoot, exChild] = .ok () ↔
          ¬ HasCycle [exRoot, exChild]) ∧
        (HasCycle [exRoot, exChild] →
          validate_dag [exRoot, exChild] =
            .error (.cyclicDependency (find_cycle [exRoot, exChild]))))) :=
  validate_dag_correct [exRoot, exChild] (by simp [exRoot, exChild])

/-- C1: finalization and its bookkeeping invariant are only reachable
through the empty-playbook early return, where the sets `completed`,
`failed` and `skipped` are pairwise disjoint and their union is the
(empty) set of the playbook's step ids.  For every nonempty playbook
that passes validation the first scheduling iteration has a nonempty
ready list (an acyclic playbook with valid references has a
dependency-free step) and the launch pass raises — `create_step_job`
is called without `pvc_name` — so `run_orchestration` propagates a
`TypeError` (or the image-resolution `ValueError`) and never reaches
`_write_summary`. -/
theorem orchestration_finalization (playbook : List StepDef)
    (orgId runId registry : String) (oracle : Nat → String → PollOutcome)
    (report : String → Option String) (fuel : Nat) :
    (∀ st tr, run_orchestration playbook orgId runId registry oracle
        report fuel = .exited st tr →
      st.completed ∪ st.failed ∪ st.skipped = stepIds playbook ∧
      Disjoint st.completed st.failed ∧
      Disjoint st.completed st.skipped ∧
      Disjoint st.failed st.skipped ∧ playbook = []) ∧
    (playbook ≠ [] → 1 ≤ fuel →
      validate_dag (playbook.mergeSort fun a b => a.order ≤ b.order) =
        .ok () →
      ∃ e tr, run_orchestration playbook orgId runId registry oracle
          report fuel = .raised e tr ∧
        (e = .typeError
            "create_step_job() missing 1 required positional argument: 'pvc_name'" ∨
          ∃ m, e = PyErr.valueError m)) := by
  have hperm : List.Perm (playbook.mergeSort fun a b => a.order ≤ b.order)
      playbook := List.mergeSort_perm _ _
  have hlen : (playbook.mergeSort fun a b => a.order ≤ b.order).length =
      playbook.length := hperm.length_eq
  have key : validate_dag (playbook.mergeSort fun a b => a.order ≤ b.order) =
        .ok () →
      (playbook.mergeSort fun a b => a.order ≤ b.order) ≠ [] →
      ∀ f, ∃ e tr2, orchLoop
          (playbook.mergeSort fun a b => a.order ≤ b.order)
          orgId runId registry oracle report (f + 1) 0
          ⟨∅, ∅, ∅, ([] : List String), ∅⟩
          ((playbook.mergeSort fun a b => a.order ≤ b.order).map
            fun s => Effect.initStepDoc s.id) = .raised e tr2 ∧
        (e = .typeError
            "create_step_job() missing 1 required positional argument: 'pvc_name'" ∨
          ∃ m, e = PyErr.valueError m) := by
    intro hv hne f
    have hnd := validate_ok_nodup _ hv
    have hrefs := validate_ok_refs _ hv
    have hacyc := (validate_dag_cases _ hnd hrefs).1.mp hv
    obtain ⟨st0, hst0, hdeps0⟩ := exists_no_deps _ hne hrefs hacyc
    have hready : get_ready_steps
        (playbook.mergeSort fun a b => a.order ≤ b.order)
        (∅ : Finset String) ((∅ : Finset String) ∪ ∅)
        ([] : List String).toFinset ≠ [] := by
      intro hnil
      have hmem : st0 ∈ get_ready_steps
          (playbook.mergeSort fun a b => a.order ≤ b.order)
          (∅ : Finset String) ((∅ : Finset String) ∪ ∅)
          ([] : List String).toFinset := by
        rw [mem_get_ready_steps]
        refine ⟨hst0, by simp, by simp, by simp, ?_⟩
        rw [hdeps0]
        intro d hd
        cases hd
      rw [hnil] at hmem
      cases hmem
    exact orchLoop_raises _ orgId runId registry oracle report f 0
      ⟨∅, ∅, ∅, ([] : List String), ∅⟩ _ hready
  constructor
  · intro st tr hrun
    simp only [run_orchestration] at hrun
    by_cases hemp : (playbook.mergeSort fun a b => a.order ≤ b.order).isEmpty
    · rw [if_pos hemp] at hrun
      have hnil : (playbook.mergeSort fun a b => a.order ≤ b.order) = [] :=
        List.isEmpty_iff.mp hemp
      have hpb : playbook = [] := by
        rw [hnil] at hlen
        exact List.length_eq_zero.mp hlen.symm
      cases hrun
      refine ⟨?_, Finset.disjoint_empty_left _, Finset.disjoint_empty_left _,
        Finset.disjoint_empty_left _, hpb⟩
      rw [hpb]
      simp [stepIds]
    · rw [if_neg hemp] at hrun
      have hne : (playbook.mergeSort fun a b => a.order ≤ b.order) ≠ [] :=
        fun h => hemp (by rw [h]; rfl)
      cases hv : validate_dag (playbook.mergeSort fun a b => a.order ≤ b.order)
        with
      | error e =>
          rw [hv] at hrun
          exact absurd hrun (by simp)
      | ok u =>
          cases u
          rw [hv] at hrun
          simp only [] at hrun
          cases fuel with
          | zero =>
              simp only [orchLoop] at hrun
              exact absurd hrun (by simp)
          | succ f =>
              obtain ⟨e, tr2, horch, hshape⟩ := key hv hne f
              rw [horch] at hrun
              exact absurd hrun (by simp)
  · intro hpb hfuel hv
    obtain ⟨f, rfl⟩ : ∃ f, fuel = f + 1 := ⟨fuel - 1, by omega⟩
    have hne : (playbook.mergeSort fun a b => a.order ≤ b.order) ≠ [] := by
      intro h
      apply hpb
      rw [h] at hlen
      exact List.length_eq_zero.mp hlen.symm
    have hemp : ¬ ((playbook.mergeSort fun a b => a.order ≤ b.order).isEmpty
        = true) := by
      intro h
      exact hne (List.isEmpty_iff.mp h)
    obtain ⟨e, tr2, horch, hshape⟩ := key hv hne f
    refine ⟨e, tr2, ?_, hshape⟩
    simp only [run_orchestration]
    rw [if_neg hemp]
    rw [hv]
    simp only []
    rw [horch]

theorem orchestration_finalization_witness :
    ((∅ : Finset String) ∪ ∅ ∪ ∅ = stepIds ([] : List StepDef) ∧
      Disjoint (∅ : Finset String) (∅ : Finset String) ∧
      Disjoint (∅ : Finset String) (∅ : Finset String) ∧
      Disjoint (∅ : Finset String) (∅ : Finset String) ∧
      ([] : List StepDef) = []) ∧
    (∃ e tr, run_orchestration [exRoot] "o" "r" "reg"
        (fun _ _ => .status (some "completed")) (fun _ => none) 1 =
      .raised e tr ∧
      (e = .typeError
          "create_step_job() missing 1 required positional argument: 'pvc_name'" ∨
        ∃ m, e = PyErr.valueError m)) := by
  have h0 : run_orchestration [] "o" "r" "reg"
      (fun _ _ => .status (some "completed")) (fun _ => none) 0 =
      .exited ⟨∅, ∅, ∅, [], ∅⟩ [] := by
    simp [run_orchestration, List.mergeSort_eq_insertionSort,
      List.insertionSort]
  have hv : validate_dag ([exRoot].mergeSort fun a b => a.order ≤ b.order) =
      .ok () := by
    simp [List.mergeSort_eq_insertionSort, List.insertionSort,
      List.orderedInsert, validate_dag, findMissing, stepIds, buildKahn,
      baseDict, dinsert, dlookup, kahnLoop, kahnExpand, exRoot]
  exact ⟨(orchestration_finalization [] "o" "r" "reg"
      (fun _ _ => .status (some "completed")) (fun _ => none) 0).1
      ⟨∅, ∅, ∅, [], ∅⟩ [] h0,
    (orchestration_finalization [exRoot] "o" "r" "reg"
      (fun _ _ => .status (some "completed")) (fun _ => none) 1).2
      (by simp) (le_refl 1) hv⟩
